import Mathlib

/-!
# Brunel network: the neuron update engine

A shallow embedding of `inc/Neuron.hpp`, `src/Neuron.cpp` and the driver loops
of `src/Simulation.cpp`.

Modelling conventions.

* The arithmetic of `double`. Every definition that embeds the source is generic in
  the type `K` of the values of type `double` and uses only the operations that the
  source applies to them: decimal literals, `+`, `-`, `*`, `/`, the unary minus, `<`
  and the conversions from `int` and `unsigned int`, in the order and with the
  grouping of the source. No law of arithmetic is assumed in the definitions. They
  are instantiated with `F64`, a model of the finite numbers of IEEE 754 binary64
  with rounding to nearest, and with ordered fields (`ℚ`, `ℝ`), the exact arithmetic
  that `double` approximates.
* The theorems are in three parts. Part 1 holds for every arithmetic, in particular
  for `F64`. Part 2 is proved for an ordered field; a theorem of Part 2 whose
  statement is an equality or a comparison of computed values is a statement about
  the exact arithmetic. Part 3 is about `F64`.
* `const1 = exp(-h/(tau*h))` needs the exponential of `<cmath>`: the definitions
  that use it take the function `exp` as their first argument. The theorems about
  numerical values instantiate it with `Real.exp`, the runs on `ℚ` with `expQ` and
  the runs on `F64` with `exp64`, which gives the double nearest to `e^(-0.005)`.
* The integers. In `update` and `runUpdates` the `unsigned int` members
  (`neuron_clock_`, `nb_spikes_`) are natural numbers and the `int` parameters are
  integers, without bound. `update32` and `runUpdates32` are the same functions with
  the types of the source: `unsigned int` is arithmetic modulo `2^32`, the conversion
  of an `unsigned int` to `int` gives a negative number from `2^31` on, and an access
  to `t_buffer_` with an index outside `0 .. D` gives `none`. Both agree while the
  clock is below `2^31` and the spike count below `2^32 - 1` (`update32_eq_update`);
  the drivers stop at `t_stop = 12000` steps.
* A `Neuron*` is `Option Nat`: `none` is `nullptr`, `some p` is the neuron
  stored at address `p` of the network.  A network is a map from addresses to
  neuron states.  A failed `assert` makes an operation return `none`.
* The members `nb_excitatory_connections_` and `nb_inhibitory_connections_`
  are not initialised by the constructor; the constructor of the model takes
  the values they happen to hold as arguments.
* Randomness is explicit: the outcomes of the draws of `addConnections` are
  arguments, the sampler of `randomSpikes` is an argument and its function-local
  statics are a state that is passed along. The file written by
  `networkSimulation` is the list of its records.
* The `do ... while` loops of the drivers carry a bound on the number of
  iterations and return `none` when it is exhausted; the drivers give them
  `t_stop - t_start` iterations, and the theorems show that they return. In
  `networkSimulation` the values returned by `randomSpikes(pois)` are given by
  a function of the driver step and of the index of the neuron.
-/

set_option linter.unusedSectionVars false

namespace Brunel

/-! ## Constants of `inc/Neuron.hpp` -/

/-- Step at which the simulation starts. -/
def t_start : Int := 0

/-- Step at which the simulation stops. -/
def t_stop : Int := 12000

/-- Membrane time constant in time steps. -/
def tau : Nat := 200

/-- Refractory period in time steps. -/
def tau_rp : Nat := 20

/-- Firing threshold. -/
def V_thr (K : Type) [OfScientific K] : K := 20.0

/-- Membrane potential held during the refractory period. -/
def V_refractory (K : Type) [OfScientific K] : K := 0.0

/-- Length of a time step in milliseconds. -/
def h (K : Type) [OfScientific K] : K := 0.1

/-- Step of the simulations. -/
def N : Int := 1

/-- Membrane resistance. -/
def R (K : Type) [OfScientific K] : K := 20.0

/-- Constant 1 of the membrane equation, `exp(-h/(tau*h))`. -/
def const1 {K : Type} [OfScientific K] [NatCast K] [Neg K] [Mul K] [Div K] (exp : K → K) : K :=
  exp (-h K / ((tau : K) * h K))

/-- Constant 2 of the membrane equation, `R*(1 - const1)`. -/
def const2 {K : Type} [OfScientific K] [NatCast K] [One K] [Neg K] [Sub K] [Mul K] [Div K]
    (exp : K → K) : K :=
  R K * (1 - const1 exp)

/-- Delay in time steps. -/
def D : Nat := 15

/-- Total number of neurons of the network. -/
def total_neurons : Nat := 12500

/-- Number of excitatory neurons. -/
def excitatory_neurons : Nat := 10000

/-- Number of inhibitory neurons. -/
def inhibitory_neurons : Nat := 2500

/-- Connections received from excitatory neurons. -/
def c_e : Nat := 1000

/-- Connections received from inhibitory neurons. -/
def c_i : Nat := 250

/-- Amplitude of the signal of an excitatory neuron. -/
def J_e (K : Type) [OfScientific K] : K := 0.1

/-! ## The class `Neuron` -/

/-- The data members of `class Neuron`, in the order of their declaration. The two
`unsigned int` members, `nb_spikes` and `neuron_clock`, are natural numbers: `update32`
keeps them below `2^32` as the source does, `update` lets them grow without bound. -/
structure Neuron (K : Type) where
  excitatory_neuron : Bool
  V_membrane : K
  nb_spikes : Nat
  t_spike : K
  spike : Bool
  neuron_clock : Nat
  external_input : K
  r_period : Bool
  t_buffer : Fin (D + 1) → K
  n_target : List (Option Nat)
  nb_excitatory_connections : Int
  nb_inhibitory_connections : Int

/-- A network: the neuron stored at each address. -/
abbrev Network (K : Type) := Nat → Neuron K

section Source

variable {K : Type} [Zero K] [One K] [Add K] [Sub K] [Mul K] [Div K] [Neg K] [LT K]
  [∀ a b : K, Decidable (a < b)] [OfScientific K] [NatCast K] [IntCast K]

/-- The constructor `Neuron::Neuron` with its default arguments: only the role
is given.  The two connection counters are not initialised by the source;
`garbage_e` and `garbage_i` are the values they hold. -/
def Neuron.fresh (excitatory_neuron : Bool) (garbage_e garbage_i : Int) : Neuron K where
  excitatory_neuron := excitatory_neuron
  V_membrane := 0.0
  nb_spikes := 0
  t_spike := 0.0
  spike := false
  neuron_clock := 0
  external_input := 0.0
  r_period := false
  t_buffer := fun _ => 0.0
  n_target := []
  nb_excitatory_connections := garbage_e
  nb_inhibitory_connections := garbage_i

/-- The accessor `Neuron::getTimeBuffer`. An index outside the array is undefined
behaviour in the source; the model reads `0` there. -/
def Neuron.getTimeBuffer (n : Neuron K) (i : Nat) : K :=
  if hi : i < D + 1 then n.t_buffer ⟨i, hi⟩ else 0

/-- The setter `Neuron::setExternalInput`. -/
def Neuron.setExternalInput (n : Neuron K) (external_input : K) : Neuron K :=
  { n with external_input := external_input }

/-- The setter `Neuron::setTimeBuffer`: `t_buffer_[i] = val`. -/
def Neuron.setTimeBuffer (n : Neuron K) (i : Nat) (val : K) : Neuron K :=
  if hi : i < D + 1 then
    { n with t_buffer := Function.update n.t_buffer ⟨i, hi⟩ val }
  else n

/-- The method `Neuron::addTimeBuffer`: `t_buffer_[i] += val`. -/
def Neuron.addTimeBuffer (n : Neuron K) (i : Nat) (val : K) : Neuron K :=
  if hi : i < D + 1 then
    { n with t_buffer := Function.update n.t_buffer ⟨i, hi⟩ (n.t_buffer ⟨i, hi⟩ + val) }
  else n

/-- The method `Neuron::addTargetNeuron`: `n_target_.push_back(n)`. -/
def Neuron.addTargetNeuron (n : Neuron K) (p : Option Nat) : Neuron K :=
  { n with n_target := n.n_target ++ [p] }

/-- The method `Neuron::updateNeuronState`, with integers without bound
(`Neuron.updateNeuronState32` has the `int` parameter and the `unsigned int` count of
the source). -/
def Neuron.updateNeuronState (n : Neuron K) (dt : Int) : Neuron K :=
  { n with
    t_spike := (dt : K) * h K
    nb_spikes := n.nb_spikes + 1
    spike := true
    r_period := true }

/-- One iteration of the loop of `Neuron::updateTargets` for the target `n` of the
neuron at address `self`. -/
def updateTargetsStep (self : Nat) (g : K) (net : Network K) (n : Option Nat) :
    Option (Network K) :=
  match n with
  | none => none
  | some p =>
    if ((net self).neuron_clock + D) % (D + 1) < D + 1 then
      if (net self).excitatory_neuron then
        some (Function.update net p
          ((net p).addTimeBuffer (((net self).neuron_clock + D) % (D + 1)) (J_e K)))
      else
        some (Function.update net p
          ((net p).addTimeBuffer (((net self).neuron_clock + D) % (D + 1)) (-g * J_e K)))
    else none

/-- The method `Neuron::updateTargets`, called on the neuron at address `self`. -/
def updateTargets (net : Network K) (self : Nat) (g : K) : Option (Network K) :=
  (net self).n_target.foldlM (updateTargetsStep self g) net

/-- The method `Neuron::solveMembraneEquation`. -/
def Neuron.solveMembraneEquation (exp : K → K) (n : Neuron K) (input ampl noise : K) :
    Neuron K :=
  { n with V_membrane := const1 exp * n.V_membrane + const2 exp * input + ampl + noise }

/-- The method `Neuron::update`, called on the neuron at address `self`.
`net1` is the state after `spike_ = false`, `net2` the state after the threshold
test (with `updateNeuronState` and `updateTargets` when it is crossed), `n1` the
neuron after the refractory test, `n2` after the read slot is cleared. The integers
are without bound here; `update32` is the same method with the integer types of the
source. -/
def update (exp : K → K) (net : Network K) (self : Nat) (dt : Int) (noise g : K) :
    Option (Network K) :=
  let net1 := Function.update net self { net self with spike := false }
  let crossed :=
    if (net1 self).V_membrane > V_thr K then
      updateTargets
        (Function.update net1 self
          ((net1 self).updateNeuronState ((net1 self).neuron_clock : Int)))
        self g
    else some net1
  match crossed with
  | none => none
  | some net2 =>
    let n := net2 self
    let n1 :=
      if n.r_period = true ∧ (tau_rp : K) > (n.neuron_clock : K) - n.t_spike / h K then
        { n with V_membrane := V_refractory K }
      else
        ({ n with r_period := false } : Neuron K).solveMembraneEquation exp
          n.external_input (n.getTimeBuffer (n.neuron_clock % (D + 1))) noise
    let n2 := n1.setTimeBuffer (n1.neuron_clock % (D + 1)) 0.0
    some (Function.update net2 self
      { n2 with neuron_clock := Int.toNat ((n2.neuron_clock : Int) + dt) })

/-- A sequence of `update` calls with step increment `1` and ratio `g`: each
entry of the schedule names the neuron that is updated and the noise it is
given. This is the shape of every driver loop and test of the repository. -/
def runUpdates (exp : K → K) (g : K) : Network K → List (Nat × K) → Option (Network K)
  | net, [] => some net
  | net, (p, noise) :: rest =>
    match update exp net p 1 noise g with
    | none => none
    | some net' => runUpdates exp g net' rest

/-- The body of the inner loop of `Simulation::networkSimulation` for the neuron of
index `i` (stored at address `i`): `neurons[i]->update(N, noise, g)`, where `noise` is
the value returned by `randomSpikes(pois)`, then, when `getSpikeState()` is true, the
record made of `getTimeSpike()/h` and `i` is appended to the file. The state is the
network together with the records written so far. -/
def neuronStep (exp : K → K) (g : K) (i : Nat) (noise : K)
    (st : Network K × List (K × Nat)) : Option (Network K × List (K × Nat)) :=
  match update exp st.1 i N noise g with
  | none => none
  | some net' =>
    if (net' i).spike = true then
      some (net', st.2 ++ [((net' i).t_spike / h K, i)])
    else some (net', st.2)

/-- The inner loop of `Simulation::networkSimulation`: one `neuronStep` for every
index in increasing order; `noise i` is the noise drawn for the neuron `i`. -/
def networkStep (exp : K → K) (g : K) (noise : Nat → K)
    (st : Network K × List (K × Nat)) : Option (Network K × List (K × Nat)) :=
  (List.range total_neurons).foldlM (fun st i => neuronStep exp g i (noise i) st) st

/-- The function-local statics of `Neuron::randomSpikes`: the generator `gen`, in a
state of type `G`, and the distribution `dis_ext`, which is `none` before the first
call and afterwards holds the rate it was constructed with. -/
structure RandomStatics (K G : Type) where
  gen : G
  dis_ext : Option K

/-- The method `Neuron::randomSpikes`. `poisson rate gen` stands for
`std::poisson_distribution<>(rate)(gen)`: the sample and the new state of the
generator. `static std::poisson_distribution<> dis_ext (pois);` constructs the
distribution in the first call only. -/
def randomSpikes {G : Type} (poisson : K → G → Nat × G) (pois : K)
    (st : RandomStatics K G) : K × RandomStatics K G :=
  let rate :=
    match st.dis_ext with
    | none => pois
    | some r => r
  let sample := poisson rate st.gen
  (J_e K * (sample.1 : K), { gen := sample.2, dis_ext := some rate })

/-! ## The scenarios of the tests and the construction of the network -/

/-- The network of the one-neuron tests and of `Simulation::oneNeuronSimulation`:
`Neuron n(true); n.setExternalInput(input);` (the same neuron at every address). -/
def oneNeuronNet (garbage_e garbage_i : Int) (input : K) : Network K :=
  fun _ => (Neuron.fresh true garbage_e garbage_i).setExternalInput input

/-- The body of the first loop of `Neuron::addConnections`, for the draw number `i`:
`neurons[dis_e(gen)]->addTargetNeuron(this); ++nb_excitatory_connections_;`.
`neurons` is the array of pointers (the address stored at each index) and `dis_e i`
the value of the `i`-th draw, between `0` and `excitatory_neurons - 1`. -/
def connectExcitatory (self : Nat) (neurons : Nat → Nat)
    (dis_e : Nat → Fin excitatory_neurons) (net : Network K) (i : Nat) : Network K :=
  let net' := Function.update net (neurons (dis_e i))
    ((net (neurons (dis_e i))).addTargetNeuron (some self))
  Function.update net' self
    { net' self with
      nb_excitatory_connections := (net' self).nb_excitatory_connections + 1 }

/-- The body of the second loop of `Neuron::addConnections`:
`neurons[excitatory_neurons+dis_i(gen)]->addTargetNeuron(this); ++nb_inhibitory_connections_;`. -/
def connectInhibitory (self : Nat) (neurons : Nat → Nat)
    (dis_i : Nat → Fin inhibitory_neurons) (net : Network K) (i : Nat) : Network K :=
  let net' := Function.update net (neurons (excitatory_neurons + dis_i i))
    ((net (neurons (excitatory_neurons + dis_i i))).addTargetNeuron (some self))
  Function.update net' self
    { net' self with
      nb_inhibitory_connections := (net' self).nb_inhibitory_connections + 1 }

/-- The method `Neuron::addConnections`, called on the neuron at address `self`. The
outcome of the random draws is given by `dis_e` and `dis_i`. -/
def addConnections (net : Network K) (self : Nat) (neurons : Nat → Nat)
    (dis_e : Nat → Fin excitatory_neurons) (dis_i : Nat → Fin inhibitory_neurons) :
    Network K :=
  (List.range c_i).foldl (connectInhibitory self neurons dis_i)
    ((List.range c_e).foldl (connectExcitatory self neurons dis_e) net)

/-- The collection built by `Simulation::initializeNeurons` and by the test
`Connections`, with the neuron of index `i` at address `i`: copies of
`n_excitatory(true)` below `excitatory_neurons`, copies of `n_inhibitory(false)`
above. The arguments are the values held by the uninitialised counters of these two
neurons. -/
def initializeNeurons (exc_e exc_i inh_e inh_i : Int) : Network K :=
  fun i =>
    if i < excitatory_neurons then Neuron.fresh true exc_e exc_i
    else Neuron.fresh false inh_e inh_i

/-- The loop `for (auto const& n : neurons) n->addConnections(neurons);` of
`Simulation::networkSimulation` and of the test `Connections`, with the neuron of
index `k` at address `k`. `dis_e k` and `dis_i k` are the outcomes of the draws made
in the call on the neuron `k`. -/
def buildConnections (net : Network K)
    (dis_e : Nat → Nat → Fin excitatory_neurons)
    (dis_i : Nat → Nat → Fin inhibitory_neurons) : Network K :=
  (List.range total_neurons).foldl
    (fun net k => addConnections net k id (dis_e k) (dis_i k)) net

/-! ## The drivers `oneNeuronSimulation` and `networkSimulation` of `src/Simulation.cpp` -/

/-- The loop of `Simulation::oneNeuronSimulation`:
`do { n.update(1, 0.0, 5); ...; simulation_time += N; ... } while (simulation_time < t_stop);`
on the neuron at address 0. The state is the network, the times written to the
terminal (`simulation_time*h` when `getSpikeState()` is true after the update) and
the records written to `Datas.txt` (the time `simulation_time*h` after the increment
and the potential). The first argument bounds the number of iterations; the loop
returns `none` when it is exhausted or an assertion fails. -/
def oneNeuronLoop (exp : K → K) :
    Nat → Int → Network K × List K × List (K × K) →
      Option (Network K × List K × List (K × K))
  | 0, _, _ => none
  | fuel + 1, simulation_time, (net, cout, file) =>
    match update exp net 0 1 0.0 5 with
    | none => none
    | some net' =>
      let cout' :=
        if (net' 0).spike = true then cout ++ [(simulation_time : K) * h K] else cout
      let file' := file ++ [(((simulation_time + N : Int) : K) * h K, (net' 0).V_membrane)]
      if simulation_time + N < t_stop then
        oneNeuronLoop exp fuel (simulation_time + N) (net', cout', file')
      else some (net', cout', file')

/-- The method `Simulation::oneNeuronSimulation`; `input` is the value read by
`externalInput()`. The loop runs from `t_start` and needs `t_stop - t_start`
iterations. -/
def oneNeuronSimulation (exp : K → K) (garbage_e garbage_i : Int) (input : K) :
    Option (Network K × List K × List (K × K)) :=
  oneNeuronLoop exp (t_stop - t_start).toNat t_start
    (oneNeuronNet garbage_e garbage_i input, [], [])

/-- The do-while loop of `Simulation::networkSimulation`:
`do { body; simulation_time += N; } while (simulation_time < t_stop);`, where
`body simulation_time` is the inner loop over the neurons. The first argument bounds
the number of iterations; the loop returns `none` when it is exhausted or an
assertion fails in the body. -/
def networkLoop {σ : Type} (body : Int → σ → Option σ) : Nat → Int → σ → Option σ
  | 0, _, _ => none
  | fuel + 1, simulation_time, st =>
    match body simulation_time st with
    | none => none
    | some st' =>
      if simulation_time + N < t_stop then networkLoop body fuel (simulation_time + N) st'
      else some st'

/-- The method `Simulation::networkSimulation`: the collection is initialised, the
connections are added, then the loop runs from `t_start`; the result is the final
network and the records written to `Spike_time.txt`. The integer arguments are the
values of the uninitialised counters, `dis_e` and `dis_i` the outcomes of the draws
of `addConnections`, and `noise s i` the value returned by `randomSpikes(pois)` for
the neuron `i` in the driver step `s`. -/
def networkSimulation (exp : K → K) (g : K) (exc_e exc_i inh_e inh_i : Int)
    (dis_e : Nat → Nat → Fin excitatory_neurons)
    (dis_i : Nat → Nat → Fin inhibitory_neurons) (noise : Nat → Nat → K) :
    Option (Network K × List (K × Nat)) :=
  networkLoop (fun simulation_time st => networkStep exp g (noise simulation_time.toNat) st)
    (t_stop - t_start).toNat t_start
    (buildConnections (initializeNeurons exc_e exc_i inh_e inh_i) dis_e dis_i, [])

/-! ## `update` with the 32-bit integers and the array bounds of the source

In `update` above the clock and the spike count are natural numbers and the accessors
of the buffer are total. The definitions of this section follow the same statements
with the integer types of the source: `neuron_clock_` and `nb_spikes_` are
`unsigned int` (arithmetic modulo `2^32`), the parameters `dt` of `updateNeuronState`
and `i` of the buffer accessors are `int`, and an index outside `t_buffer_` is an
error (`none`). `update32_eq_update` shows that both agree while the clock is below
`2^31` and the count below `2^32 - 1`. -/

/-- Conversion of an integer to `unsigned int`: its value modulo `2^32`. -/
def toUInt32 (z : Int) : Nat :=
  (z % 2 ^ 32).toNat

/-- Conversion of an `unsigned int` to `int`: the values from `2^31` on become
negative. -/
def toInt32 (c : Nat) : Int :=
  if c % 2 ^ 32 < 2 ^ 31 then ((c % 2 ^ 32 : Nat) : Int) else ((c % 2 ^ 32 : Nat) : Int) - 2 ^ 32

/-- The accessor `Neuron::getTimeBuffer(int i)`, `return t_buffer_[i]`, with the bounds
of the array checked. -/
def Neuron.getTimeBufferChecked (n : Neuron K) (i : Int) : Option K :=
  if 0 ≤ i ∧ i < ((D + 1 : Nat) : Int) then some (n.getTimeBuffer i.toNat) else none

/-- The setter `Neuron::setTimeBuffer(int i, double val)`, `t_buffer_[i] = val`, with
the bounds of the array checked. -/
def Neuron.setTimeBufferChecked (n : Neuron K) (i : Int) (val : K) : Option (Neuron K) :=
  if 0 ≤ i ∧ i < ((D + 1 : Nat) : Int) then some (n.setTimeBuffer i.toNat val) else none

/-- The method `Neuron::addTimeBuffer(int i, double val)`, `t_buffer_[i] += val`, with
the bounds of the array checked. -/
def Neuron.addTimeBufferChecked (n : Neuron K) (i : Int) (val : K) : Option (Neuron K) :=
  if 0 ≤ i ∧ i < ((D + 1 : Nat) : Int) then some (n.addTimeBuffer i.toNat val) else none

/-- The method `Neuron::updateNeuronState(int dt)`; `++nb_spikes_` is an increment of
an `unsigned int`. -/
def Neuron.updateNeuronState32 (n : Neuron K) (dt : Int) : Neuron K :=
  { n with
    t_spike := (dt : K) * h K
    nb_spikes := toUInt32 ((n.nb_spikes : Int) + 1)
    spike := true
    r_period := true }

/-- One iteration of the loop of `Neuron::updateTargets`: the two assertions, then
`n->addTimeBuffer((neuron_clock_+D)%(D+1), ...)`, where the index is computed on
`unsigned int` and passed as an `int`. -/
def updateTargetsStep32 (self : Nat) (g : K) (net : Network K) (n : Option Nat) :
    Option (Network K) :=
  match n with
  | none => none
  | some p =>
    if toUInt32 (((net self).neuron_clock : Int) + (D : Int)) % (D + 1) < D + 1 then
      if (net self).excitatory_neuron then
        ((net p).addTimeBufferChecked
          (toInt32 (toUInt32 (((net self).neuron_clock : Int) + (D : Int)) % (D + 1)))
          (J_e K)).map (Function.update net p)
      else
        ((net p).addTimeBufferChecked
          (toInt32 (toUInt32 (((net self).neuron_clock : Int) + (D : Int)) % (D + 1)))
          (-g * J_e K)).map (Function.update net p)
    else none

/-- The method `Neuron::updateTargets` with the integer types of the source. -/
def updateTargets32 (net : Network K) (self : Nat) (g : K) : Option (Network K) :=
  (net self).n_target.foldlM (updateTargetsStep32 self g) net

/-- The method `Neuron::update` with the integer types of the source:
`updateNeuronState(neuron_clock_)` converts the `unsigned int` clock to `int`, the
refractory test converts it to `double`, the buffer is indexed with
`neuron_clock_%(D+1)` passed as an `int`, and `neuron_clock_ += dt` is computed
modulo `2^32`. The result is `none` when an assertion fails or an index is outside
the buffer. -/
def update32 (exp : K → K) (net : Network K) (self : Nat) (dt : Int) (noise g : K) :
    Option (Network K) :=
  let net1 := Function.update net self { net self with spike := false }
  let crossed :=
    if (net1 self).V_membrane > V_thr K then
      updateTargets32
        (Function.update net1 self
          ((net1 self).updateNeuronState32 (toInt32 (net1 self).neuron_clock))) self g
    else some net1
  match crossed with
  | none => none
  | some net2 =>
    let n := net2 self
    let integrated : Option (Neuron K) :=
      if n.r_period = true ∧ (tau_rp : K) > (n.neuron_clock : K) - n.t_spike / h K then
        some { n with V_membrane := V_refractory K }
      else
        (n.getTimeBufferChecked (toInt32 (n.neuron_clock % (D + 1)))).map fun ampl =>
          ({ n with r_period := false } : Neuron K).solveMembraneEquation exp
            n.external_input ampl noise
    match integrated with
    | none => none
    | some n1 =>
      match n1.setTimeBufferChecked (toInt32 (n1.neuron_clock % (D + 1))) 0.0 with
      | none => none
      | some n2 =>
        some (Function.update net2 self
          { n2 with neuron_clock := toUInt32 ((n2.neuron_clock : Int) + dt) })

/-- A sequence of `update` calls with step increment `1` and ratio `g`, with the
integer types of the source: `runUpdates` over `update32`. -/
def runUpdates32 (exp : K → K) (g : K) : Network K → List (Nat × K) → Option (Network K)
  | net, [] => some net
  | net, (p, noise) :: rest =>
    match update32 exp net p 1 noise g with
    | none => none
    | some net' => runUpdates32 exp g net' rest

/-! ## Intermediate states of `update` -/

/-- The part of `Neuron::update` after the threshold test, which only touches
the neuron itself: refractory hold or integration, clearing of the read slot,
advance of the clock. -/
def Neuron.updateTail (exp : K → K) (n : Neuron K) (dt : Int) (noise : K) : Neuron K :=
  let n1 :=
    if n.r_period = true ∧ (tau_rp : K) > (n.neuron_clock : K) - n.t_spike / h K then
      { n with V_membrane := V_refractory K }
    else
      ({ n with r_period := false } : Neuron K).solveMembraneEquation exp
        n.external_input (n.getTimeBuffer (n.neuron_clock % (D + 1))) noise
  let n2 := n1.setTimeBuffer (n1.neuron_clock % (D + 1)) 0.0
  { n2 with neuron_clock := Int.toNat ((n2.neuron_clock : Int) + dt) }

/-- The amplitude a spiking neuron sends to each of its targets: `J_e` when it is
excitatory, `-g*J_e` when it is inhibitory (the two branches of `updateTargets`). -/
def Neuron.amplitude (n : Neuron K) (g : K) : K :=
  if n.excitatory_neuron then J_e K else -g * J_e K

/-- Every pointer of the target list of `n` is non-null. -/
def Neuron.targetsValid (n : Neuron K) : Prop :=
  ∀ t ∈ n.n_target, t ≠ none

/-- The refractory test of `update`: `r_period_ and tau_rp > neuron_clock_ - t_spike_/h`. -/
def Neuron.holds (n : Neuron K) : Prop :=
  n.r_period = true ∧ (tau_rp : K) > (n.neuron_clock : K) - n.t_spike / h K

instance Neuron.decidableHolds (n : Neuron K) : Decidable n.holds :=
  inferInstanceAs (Decidable (_ ∧ _))

/-- The number of updates of the neuron `self` in a schedule. -/
def updatesOf (self : Nat) (sched : List (Nat × K)) : Nat :=
  sched.countP fun e => e.1 = self

/-- The neuron after the threshold test of `update`, without the amplitudes it may
send to itself: the spike flag is cleared, and `updateNeuronState(neuron_clock_)` is
applied when the potential is above the threshold. -/
def Neuron.fire (n : Neuron K) : Neuron K :=
  if n.V_membrane > V_thr K then
    ({ n with spike := false } : Neuron K).updateNeuronState (n.neuron_clock : Int)
  else { n with spike := false }

/-- The neuron after `k` successive calls `addTimeBuffer(w, a)`. -/
def Neuron.deliver (n : Neuron K) (w : Nat) (a : K) (k : Nat) : Neuron K :=
  (fun m : Neuron K => m.addTimeBuffer w a)^[k] n

/-- The number of calls `addTimeBuffer` the neuron at address `q` receives in an
update of the neuron `n`: one per occurrence of `q` in the target list of `n` when
`n` is above the threshold, none otherwise. -/
def Neuron.deliveries (n : Neuron K) (q : Nat) : Nat :=
  if n.V_membrane > V_thr K then n.n_target.count (some q) else 0

/-- The network after `update` on the neuron at address `p` when no assertion fails,
for every arithmetic: every neuron has received its amplitudes one after the other in
the slot `(neuron_clock_ + D) % (D + 1)`, and the neuron at `p` has gone through the
threshold test before and through the rest of `update` after. -/
def updatedBy (exp : K → K) (net : Network K) (p : Nat) (dt : Int) (noise g : K) :
    Network K :=
  fun q =>
    if q = p then
      (((net p).fire).deliver (((net p).neuron_clock + D) % (D + 1)) ((net p).amplitude g)
        ((net p).deliveries p)).updateTail exp dt noise
    else
      (net q).deliver (((net p).neuron_clock + D) % (D + 1)) ((net p).amplitude g)
        ((net p).deliveries q)

/-- The neuron after the threshold test of `update32`. -/
def Neuron.fire32 (n : Neuron K) : Neuron K :=
  if n.V_membrane > V_thr K then
    ({ n with spike := false } : Neuron K).updateNeuronState32 (toInt32 n.neuron_clock)
  else { n with spike := false }

/-- The part of `update32` after the threshold test: as in `update`, with the clock
advanced modulo `2^32`. -/
def Neuron.updateTail32 (exp : K → K) (n : Neuron K) (dt : Int) (noise : K) : Neuron K :=
  { n.updateTail exp dt noise with neuron_clock := toUInt32 ((n.neuron_clock : Int) + dt) }

/-- The network after `update32` on the neuron at address `p` when no assertion
fails. -/
def updatedBy32 (exp : K → K) (net : Network K) (p : Nat) (dt : Int) (noise g : K) :
    Network K :=
  fun q =>
    if q = p then
      (((net p).fire32).deliver
        (toUInt32 (((net p).neuron_clock : Int) + (D : Int)) % (D + 1)) ((net p).amplitude g)
        ((net p).deliveries p)).updateTail32 exp dt noise
    else
      (net q).deliver (toUInt32 (((net p).neuron_clock : Int) + (D : Int)) % (D + 1))
        ((net p).amplitude g) ((net p).deliveries q)

/-- Two neurons with the same members, except possibly the slot `w` of the buffer. -/
def Neuron.agreeOff (w : Nat) (m n : Neuron K) : Prop :=
  (∀ j, j ≠ w → m.getTimeBuffer j = n.getTimeBuffer j) ∧
  m.excitatory_neuron = n.excitatory_neuron ∧ m.V_membrane = n.V_membrane ∧
  m.nb_spikes = n.nb_spikes ∧ m.t_spike = n.t_spike ∧ m.spike = n.spike ∧
  m.neuron_clock = n.neuron_clock ∧ m.external_input = n.external_input ∧
  m.r_period = n.r_period ∧ m.n_target = n.n_target ∧
  m.nb_excitatory_connections = n.nb_excitatory_connections ∧
  m.nb_inhibitory_connections = n.nb_inhibitory_connections

/-- Two outcomes of a run that agree except possibly in the slot `w` of the buffers:
an assertion has failed in both, or both have returned and every neuron of the one
network agrees with the same neuron of the other except possibly in the slot `w`. -/
def agreeOffResults (w : Nat) : Option (Network K) → Option (Network K) → Prop
  | none, none => True
  | some a, some b => ∀ q, (a q).agreeOff w (b q)
  | _, _ => False

/-- The amplitudes that the neuron at address `q` receives when the neurons of the list
`l` are updated one after the other in the network `net`, in the order of their
arrival: for each neuron `p` of the list, one amplitude per call `addTimeBuffer` made
by `p` on `q`. -/
def arrivals (net : Network K) (g : K) (q : Nat) (l : List Nat) : List K :=
  l.flatMap fun p => List.replicate ((net p).deliveries q) ((net p).amplitude g)

end Source

/-! ## The arithmetic of `double`

The finite numbers of IEEE 754 binary64 with rounding to nearest, ties to even, and
gradual underflow. Infinities, NaN and the sign of zero are not modelled: a result
beyond the largest double is rounded as if the exponent had no upper bound, and a
division by zero gives `0`. -/

/-- Number of binary digits of `n` (`0` for `0`); the first argument bounds the
recursion, and `bitLength n n` is the number of digits of `n`. -/
def bitLength : Nat → Nat → Nat
  | 0, _ => 0
  | fuel + 1, n => if n = 0 then 0 else bitLength fuel (n / 2) + 1

/-- A finite `double`: the number `(-1)^sign * mantissa * 2^exponent`. The operations
return the normal form, in which the mantissa is odd, or is `0` with exponent `0` and
sign `false`. -/
structure F64 where
  sign : Bool
  mantissa : Nat
  exponent : Int
deriving DecidableEq

/-- The rational number denoted by a `double`. -/
def F64.toRat (a : F64) : ℚ :=
  (if a.sign then -1 else 1) * (a.mantissa : ℚ) * (2 : ℚ) ^ a.exponent

/-- The integer nearest to `num / den` (with `0 < den`), ties to the even integer. -/
def F64.nearest (num den : Nat) : Nat :=
  if 2 * (num % den) < den then num / den
  else if den < 2 * (num % den) then num / den + 1
  else if (num / den) % 2 = 0 then num / den else num / den + 1

/-- The normal form of `m * 2^e`: an odd mantissa and its exponent, or `(0, 0)` for
zero (`m` has at most 64 binary digits). -/
def F64.normalize (m : Nat) (e : Int) : Nat × Int :=
  if m = 0 then (0, 0)
  else (m / Nat.gcd m (2 ^ 64),
    e + (bitLength (Nat.gcd m (2 ^ 64)) (Nat.gcd m (2 ^ 64)) : Int) - 1)

/-- The binary exponent of the rational `n / d` (with `0 < n` and `0 < d`): the
integer `e` with `2^e ≤ n / d < 2^(e+1)`. -/
def F64.binaryExponent (n d : Nat) : Int :=
  if d * 2 ^ ((bitLength n n : Int) - (bitLength d d : Int)).toNat ≤
      n * 2 ^ (-((bitLength n n : Int) - (bitLength d d : Int))).toNat then
    (bitLength n n : Int) - (bitLength d d : Int)
  else (bitLength n n : Int) - (bitLength d d : Int) - 1

/-- Rounding of the rational `n / d * 2^k` (with `0 < d`) to the nearest double, ties
to even, as an odd mantissa and an exponent. `e1` is the binary exponent of the
number, or `-1022` when it is below (the doubles below `2^-1022` are subnormal,
multiples of `2^-1074`); the number is `num / den` in units of `2^(e1 - 52)` and is
rounded to the nearest integer, of at most 53 binary digits or equal to `2^53`. -/
def F64.roundPos (n d : Nat) (k : Int) : Nat × Int :=
  if n = 0 then (0, 0)
  else
    let e1 : Int :=
      if F64.binaryExponent n d + k < -1022 then -1022 else F64.binaryExponent n d + k
    let s : Int := 52 - e1 + k
    F64.normalize (F64.nearest (n * 2 ^ s.toNat) (d * 2 ^ (-s).toNat)) (e1 - 52)

/-- The double nearest to `(-1)^sign * n / d * 2^k`. -/
def F64.round (sign : Bool) (n d : Nat) (k : Int) : F64 :=
  { sign := sign && decide ((F64.roundPos n d k).1 ≠ 0)
    mantissa := (F64.roundPos n d k).1
    exponent := (F64.roundPos n d k).2 }

/-- The double nearest to the integer `z * 2^k`. -/
def F64.ofInt (z : Int) (k : Int) : F64 :=
  F64.round (decide (z < 0)) z.natAbs 1 k

/-- The integer `a / 2^e` for a double `a` and an exponent `e` not above its own. -/
def F64.scaled (a : F64) (e : Int) : Int :=
  (if a.sign then -1 else 1) * ((a.mantissa * 2 ^ (a.exponent - e).toNat : Nat) : Int)

/-- Addition of doubles: the exact sum, rounded. -/
def F64.add (a b : F64) : F64 :=
  F64.ofInt (a.scaled (min a.exponent b.exponent) + b.scaled (min a.exponent b.exponent))
    (min a.exponent b.exponent)

/-- Negation of a double. -/
def F64.neg (a : F64) : F64 :=
  { a with sign := !a.sign && decide (a.mantissa ≠ 0) }

/-- Multiplication of doubles: the exact product, rounded. -/
def F64.mul (a b : F64) : F64 :=
  F64.round (a.sign != b.sign) (a.mantissa * b.mantissa) 1 (a.exponent + b.exponent)

/-- Division of doubles: the exact quotient, rounded. -/
def F64.div (a b : F64) : F64 :=
  if b.mantissa = 0 then F64.ofInt 0 0
  else F64.round (a.sign != b.sign) a.mantissa b.mantissa (a.exponent - b.exponent)

/-- Comparison of doubles. -/
def F64.lt (a b : F64) : Bool :=
  decide (a.scaled (min a.exponent b.exponent) < b.scaled (min a.exponent b.exponent))

instance F64.instZero : Zero F64 := ⟨F64.ofInt 0 0⟩

instance F64.instOne : One F64 := ⟨F64.ofInt 1 0⟩

/-- Conversion of an `unsigned int` to `double`. -/
instance F64.instNatCast : NatCast F64 := ⟨fun n => F64.ofInt n 0⟩

/-- Conversion of an `int` to `double`. -/
instance F64.instIntCast : IntCast F64 := ⟨fun z => F64.ofInt z 0⟩

/-- A decimal literal `m * 10^(-e)` or `m * 10^e`: the nearest double. -/
instance F64.instOfScientific : OfScientific F64 :=
  ⟨fun m s e => if s then F64.round false m (10 ^ e) 0 else F64.round false (m * 10 ^ e) 1 0⟩

instance F64.instNeg : Neg F64 := ⟨F64.neg⟩

instance F64.instAdd : Add F64 := ⟨F64.add⟩

instance F64.instSub : Sub F64 := ⟨fun a b => F64.add a (F64.neg b)⟩

instance F64.instMul : Mul F64 := ⟨F64.mul⟩

instance F64.instDiv : Div F64 := ⟨F64.div⟩

instance F64.instLT : LT F64 := ⟨fun a b => F64.lt a b = true⟩

instance F64.decidableLT (a b : F64) : Decidable (a < b) :=
  inferInstanceAs (Decidable (F64.lt a b = true))

/-- The function `exp` of `<cmath>` at the only argument at which the program evaluates
it, `-h/(tau*h)` (the double nearest to `-0.005`): the double nearest to `e^(-0.005)`,
`0x1.fd7246927d28bp-1`. The function is not modelled at other arguments and has the
same value there. -/
def exp64 (_ : F64) : F64 :=
  F64.round false 8962275661042315 9007199254740992 0

section Model

variable {K : Type} [LinearOrderedField K]

/-! ## Auxiliary definitions

The definitions below are not functions of the source: they name intermediate states
of `update`, the scenarios of the tests and the inputs on which the model is run. -/

/-- The network after the threshold test of `update` when the threshold is
crossed and no target is null: the neuron has recorded its spike and every
target has received the amplitude once per occurrence in the target list. -/
def spikeNet (net : Network K) (self : Nat) (g : K) : Network K :=
  fun q =>
    (Function.update net self
      (({ net self with spike := false } : Neuron K).updateNeuronState
        ((net self).neuron_clock : Int)) q).addTimeBuffer
      (((net self).neuron_clock + D) % (D + 1))
      (((net self).n_target.count (some q) : K) * (net self).amplitude g)

/-- The amplitude the neuron `n` adds to the buffer of the neuron at address `q` in
its `update`: one amplitude per occurrence of `q` in its target list when it is above
the threshold, nothing otherwise. -/
def Neuron.sent (n : Neuron K) (g : K) (q : Nat) : K :=
  if n.V_membrane > V_thr K then (n.n_target.count (some q) : K) * n.amplitude g else 0

/-- The network after `update` on the neuron at address `p` when no assertion fails:
the neuron at `p` has gone through the threshold test and the rest of `update`, and
every neuron has received in slot `(neuron_clock_ + D) % (D + 1)` what `p` sent. -/
def updated (exp : K → K) (net : Network K) (p : Nat) (dt : Int) (noise g : K) :
    Network K :=
  fun q =>
    (Function.update net p ((net p).fire.updateTail exp dt noise) q).addTimeBuffer
      (((net p).neuron_clock + D) % (D + 1)) ((net p).sent g q)

/-- The loop of the two-neuron test and of `Simulation::twoNeruonsSimulation`: in
each step `neuron1.update(1, 0.0, g)` then `neuron2.update(1, 0.0, g)`. -/
def twoNeuronsSchedule (neuron1 neuron2 : Nat) : Nat → List (Nat × K)
  | 0 => []
  | steps + 1 => twoNeuronsSchedule neuron1 neuron2 steps ++ [(neuron1, 0.0), (neuron2, 0.0)]

/-- State of the two-neuron scenario `k` steps after the start, when the source `S`
spiked at clock `t` in the first step and sent the amplitude `a`: the source is
refractory; the target `T` holds `a` in the slot `(t + D) mod (D+1)` until it reads
it in its update at clock `t + D`, and its potential is `0` before and `a` after. -/
def delayInv (S T t : Nat) (a : K) (k : Nat) (net : Network K) : Prop :=
  (net S).r_period = true ∧ (net S).t_spike = (t : K) * h K ∧
  (net S).V_membrane = V_refractory K ∧ (net S).neuron_clock = t + k ∧
  (net T).neuron_clock = t + k ∧ (net T).external_input = 0 ∧
  (net T).r_period = false ∧
  (net T).V_membrane = (if k ≤ D then 0 else a) ∧
  ∀ j, (net T).getTimeBuffer j = if j = (t + D) % (D + 1) ∧ k ≤ D then a else 0

/-- The number of occurrences of the neuron `n` in the target lists of the neurons
whose addresses are in `S`. -/
def occurrences (net : Network K) (S : Finset Nat) (n : Nat) : Nat :=
  ∑ s ∈ S, (net s).n_target.count (some n)

/-- The number of occurrences of `n` in the target lists of the excitatory neurons
(indices `0 .. excitatory_neurons - 1`). -/
def inboundExcitatory (net : Network K) (n : Nat) : Nat :=
  occurrences net (Finset.range excitatory_neurons) n

/-- The number of occurrences of `n` in the target lists of the inhibitory neurons
(indices `excitatory_neurons .. total_neurons - 1`). -/
def inboundInhibitory (net : Network K) (n : Nat) : Nat :=
  occurrences net (Finset.Ico excitatory_neurons total_neurons) n

/-- The sum of the sizes of the target lists of all neurons, the `j` of the test
`Connections`. -/
def totalTargets (net : Network K) : Nat :=
  ∑ s ∈ Finset.range total_neurons, (net s).n_target.length

/-! ## Auxiliary definitions for the drivers -/

/-- A neuron about to integrate from rest: the refractory test fails, the potential
is 0, the external input is `I`, the buffer is empty, the spike count is `s`, the
local clock is `c` and the target list is empty. -/
def Neuron.ready (n : Neuron K) (I : K) (c s : Nat) : Prop :=
  ¬ n.holds ∧ n.V_membrane = 0 ∧ n.external_input = I ∧
  (∀ j, n.getTimeBuffer j = 0) ∧ n.nb_spikes = s ∧ n.neuron_clock = c ∧ n.n_target = []

/-- The state of the network simulation at the start of the driver step `s`, that is
after the driver steps `0 .. s - 1` from the state `st`. -/
def networkAfter (exp : K → K) (g : K) (noise : Nat → Nat → K)
    (st : Network K × List (K × Nat)) (s : Nat) : Option (Network K × List (K × Nat)) :=
  (List.range s).foldlM (fun st t => networkStep exp g (noise t) st) st

/-- The order of two event records `(time, index)`: the first is not later than the
second, and at equal times it has the smaller index. -/
def recordBefore (a b : K × Nat) : Prop :=
  a.1 ≤ b.1 ∧ (a.1 = b.1 → a.2 < b.2)

/-- A stand-in for `exp` on the rationals (its first-order expansion), used to run
the model on concrete inputs. -/
def expQ (x : ℚ) : ℚ := 1 + x

/-- A network on the rationals in which every address holds a freshly constructed
neuron of the given role whose potential has been set to 21 and whose target list
is `targets`. -/
def spikingNet (excitatory_neuron : Bool) (targets : List (Option Nat)) : Network ℚ :=
  fun _ => { (Neuron.fresh excitatory_neuron 0 0 : Neuron ℚ) with
    V_membrane := 21, n_target := targets }

/-- The two-neuron network of the delay tests on the rationals: the source at
address 0 has the given role, potential 21 and the neuron at address 1 as its only
target; every other address holds a freshly constructed neuron. -/
def delayNet (excitatory_neuron : Bool) : Network ℚ :=
  fun p =>
    if p = 0 then
      { (Neuron.fresh excitatory_neuron 0 0 : Neuron ℚ) with
        V_membrane := 21, n_target := [some 1] }
    else Neuron.fresh true 0 0

/-- The two-neuron network at clock 1 in which the target at address 1 has spiked in
its update at clock 0: its potential is 0, its buffer is empty and it is refractory.
The source at address 0 has the given role, potential 21 and the target as its only
target. -/
def refractoryTargetNet (excitatory_neuron : Bool) : Network ℚ :=
  fun p =>
    if p = 0 then
      { (Neuron.fresh excitatory_neuron 0 0 : Neuron ℚ) with
        V_membrane := 21, neuron_clock := 1, n_target := [some 1] }
    else
      { (Neuron.fresh true 0 0 : Neuron ℚ) with
        neuron_clock := 1, r_period := true, nb_spikes := 1, spike := true }

/-- A network of doubles in which every address holds the neuron constructed by
`Neuron n(excitatory_neuron, 21.0, nb_spikes, 0.0, false, neuron_clock)`, above the
threshold, with the target list `targets`. -/
def spikingNet64 (excitatory_neuron : Bool) (neuron_clock nb_spikes : Nat)
    (targets : List (Option Nat)) : Network F64 :=
  fun _ => { (Neuron.fresh excitatory_neuron 0 0 : Neuron F64) with
    V_membrane := 21.0, nb_spikes := nb_spikes, neuron_clock := neuron_clock,
    n_target := targets }

/-- A spiking excitatory neuron at address 0, with potential 21, clock 0 and the given
target list, in a network of fresh neurons whose slot 15 holds `v`
(`setTimeBuffer(15, v)`), in the arithmetic of `double`. -/
def slotNet64 (targets : List (Option Nat)) (v : F64) : Network F64 :=
  fun p =>
    if p = 0 then
      { (Neuron.fresh true 0 0 : Neuron F64) with V_membrane := 21.0, n_target := targets }
    else (Neuron.fresh true 0 0 : Neuron F64).setTimeBuffer 15 v

/-- Two spiking neurons with the neuron 2 as a target, in the arithmetic of `double`:
the neuron 0 is excitatory and names the neuron 2 twice in its target list, the
neuron 1 is inhibitory and names it once; both have the potential 21 and the clock 0.
The other neurons are fresh. -/
def orderNet64 : Network F64 :=
  fun p =>
    if p = 0 then
      { (Neuron.fresh true 0 0 : Neuron F64) with
        V_membrane := 21.0, n_target := [some 2, some 2] }
    else if p = 1 then
      { (Neuron.fresh false 0 0 : Neuron F64) with V_membrane := 21.0, n_target := [some 2] }
    else Neuron.fresh true 0 0

end Model

/-! # Theorems -/

/-! # Part 1: what holds for every arithmetic

The theorems of this part use no law of arithmetic: they hold for the exact arithmetic
of an ordered field and for the rounded arithmetic of `double` alike. -/

section Generic

variable {K : Type} [Zero K] [One K] [Add K] [Sub K] [Mul K] [Div K] [Neg K] [LT K]
  [∀ a b : K, Decidable (a < b)] [OfScientific K] [NatCast K] [IntCast K]

/-! ## Buffer accessors and the local part of `update` -/

@[simp] theorem addTimeBuffer_fields (n : Neuron K) (i : Nat) (a : K) :
    (n.addTimeBuffer i a).excitatory_neuron = n.excitatory_neuron ∧
    (n.addTimeBuffer i a).V_membrane = n.V_membrane ∧
    (n.addTimeBuffer i a).nb_spikes = n.nb_spikes ∧
    (n.addTimeBuffer i a).t_spike = n.t_spike ∧
    (n.addTimeBuffer i a).spike = n.spike ∧
    (n.addTimeBuffer i a).neuron_clock = n.neuron_clock ∧
    (n.addTimeBuffer i a).external_input = n.external_input ∧
    (n.addTimeBuffer i a).r_period = n.r_period ∧
    (n.addTimeBuffer i a).n_target = n.n_target ∧
    (n.addTimeBuffer i a).nb_excitatory_connections = n.nb_excitatory_connections ∧
    (n.addTimeBuffer i a).nb_inhibitory_connections = n.nb_inhibitory_connections := by
  unfold Neuron.addTimeBuffer
  split <;> simp

theorem getTimeBuffer_addTimeBuffer (n : Neuron K) (i j : Nat) (a : K) (hi : i < D + 1) :
    (n.addTimeBuffer i a).getTimeBuffer j =
      if j = i then n.getTimeBuffer j + a else n.getTimeBuffer j := by
  unfold Neuron.addTimeBuffer Neuron.getTimeBuffer
  by_cases hj : j < D + 1
  · by_cases hji : j = i
    · subst hji; simp [hj]
    · have : (⟨j, hj⟩ : Fin (D + 1)) ≠ ⟨i, hi⟩ := by
        intro hc; exact hji (Fin.mk.inj_iff.mp hc)
      simp [hj, hi, hji, Function.update_noteq this]
  · have hji : j ≠ i := by omega
    simp [hj, hi, hji]

theorem setTimeBuffer_fields (n : Neuron K) (i : Nat) (a : K) :
    (n.setTimeBuffer i a).excitatory_neuron = n.excitatory_neuron ∧
    (n.setTimeBuffer i a).V_membrane = n.V_membrane ∧
    (n.setTimeBuffer i a).nb_spikes = n.nb_spikes ∧
    (n.setTimeBuffer i a).t_spike = n.t_spike ∧
    (n.setTimeBuffer i a).spike = n.spike ∧
    (n.setTimeBuffer i a).neuron_clock = n.neuron_clock ∧
    (n.setTimeBuffer i a).external_input = n.external_input ∧
    (n.setTimeBuffer i a).r_period = n.r_period ∧
    (n.setTimeBuffer i a).n_target = n.n_target ∧
    (n.setTimeBuffer i a).nb_excitatory_connections = n.nb_excitatory_connections ∧
    (n.setTimeBuffer i a).nb_inhibitory_connections = n.nb_inhibitory_connections := by
  unfold Neuron.setTimeBuffer
  split <;> simp

theorem getTimeBuffer_setTimeBuffer (n : Neuron K) (i j : Nat) (a : K) (hi : i < D + 1) :
    (n.setTimeBuffer i a).getTimeBuffer j = if j = i then a else n.getTimeBuffer j := by
  unfold Neuron.setTimeBuffer Neuron.getTimeBuffer
  by_cases hj : j < D + 1
  · by_cases hji : j = i
    · subst hji; simp [hj]
    · have : (⟨j, hj⟩ : Fin (D + 1)) ≠ ⟨i, hi⟩ := by
        intro hc; exact hji (Fin.mk.inj_iff.mp hc)
      simp [hj, hi, hji, Function.update_noteq this]
  · have hji : j ≠ i := by omega
    simp [hj, hi, hji]

theorem update_eq_map (exp : K → K) (net : Network K) (self : Nat) (dt : Int)
    (noise g : K) :
    update exp net self dt noise g =
      (if (net self).V_membrane > V_thr K then
        updateTargets
          (Function.update net self
            (({ net self with spike := false } : Neuron K).updateNeuronState
              ((net self).neuron_clock : Int)))
          self g
      else some (Function.update net self { net self with spike := false })).map
        fun net2 => Function.update net2 self ((net2 self).updateTail exp dt noise) := by
  unfold update
  simp only [Function.update_same, Function.update_idem]
  split <;> rename_i hc <;> simp only [hc] <;> rfl

theorem update_of_not_crossed (exp : K → K) (net : Network K) (self : Nat) (dt : Int)
    (noise g : K) (hV : ¬ (net self).V_membrane > V_thr K) :
    update exp net self dt noise g =
      some (Function.update net self
        (({ net self with spike := false } : Neuron K).updateTail exp dt noise)) := by
  rw [update_eq_map, if_neg hV]
  simp only [Option.map_some', Function.update_same, Function.update_idem]

theorem updateTail_fields (exp : K → K) (n : Neuron K) (dt : Int) (noise : K) :
    (n.updateTail exp dt noise).excitatory_neuron = n.excitatory_neuron ∧
    (n.updateTail exp dt noise).nb_spikes = n.nb_spikes ∧
    (n.updateTail exp dt noise).t_spike = n.t_spike ∧
    (n.updateTail exp dt noise).spike = n.spike ∧
    (n.updateTail exp dt noise).neuron_clock = Int.toNat ((n.neuron_clock : Int) + dt) ∧
    (n.updateTail exp dt noise).external_input = n.external_input ∧
    (n.updateTail exp dt noise).n_target = n.n_target ∧
    (n.updateTail exp dt noise).nb_excitatory_connections = n.nb_excitatory_connections ∧
    (n.updateTail exp dt noise).nb_inhibitory_connections = n.nb_inhibitory_connections := by
  unfold Neuron.updateTail
  by_cases hc : n.r_period = true ∧ (tau_rp : K) > (n.neuron_clock : K) - n.t_spike / h K
  · simp [hc, setTimeBuffer_fields]
  · simp only [hc, if_false, setTimeBuffer_fields, Neuron.solveMembraneEquation]
    simp

theorem updateTail_V_of_holds (exp : K → K) (n : Neuron K) (dt : Int) (noise : K)
    (hc : n.holds) :
    (n.updateTail exp dt noise).V_membrane = V_refractory K ∧
    (n.updateTail exp dt noise).r_period = true := by
  have hc' := hc
  unfold Neuron.holds at hc'
  unfold Neuron.updateTail
  simp only [hc', and_self, if_true, setTimeBuffer_fields]

theorem updateTail_V_of_not_holds (exp : K → K) (n : Neuron K) (dt : Int) (noise : K)
    (hc : ¬ n.holds) :
    (n.updateTail exp dt noise).V_membrane =
      const1 exp * n.V_membrane + const2 exp * n.external_input +
        n.getTimeBuffer (n.neuron_clock % (D + 1)) + noise ∧
    (n.updateTail exp dt noise).r_period = false := by
  unfold Neuron.holds at hc
  unfold Neuron.updateTail
  simp only [hc, if_false, setTimeBuffer_fields, Neuron.solveMembraneEquation]
  simp

theorem updateTail_readSlot (exp : K → K) (n : Neuron K) (dt : Int) (noise : K)
    (j : Nat) :
    (n.updateTail exp dt noise).getTimeBuffer j =
      if j = n.neuron_clock % (D + 1) then 0.0 else n.getTimeBuffer j := by
  have hlt : n.neuron_clock % (D + 1) < D + 1 := Nat.mod_lt _ (by decide)
  have key : ∀ m : Neuron K, m.neuron_clock = n.neuron_clock → m.t_buffer = n.t_buffer →
      Neuron.getTimeBuffer
        { m.setTimeBuffer (m.neuron_clock % (D + 1)) 0.0 with
          neuron_clock := Int.toNat ((m.neuron_clock : Int) + dt) } j =
        if j = n.neuron_clock % (D + 1) then 0.0 else n.getTimeBuffer j := by
    intro m hm hb
    have h1 := getTimeBuffer_setTimeBuffer m (n.neuron_clock % (D + 1)) j 0.0 hlt
    rw [hm]
    have h2 : m.getTimeBuffer j = n.getTimeBuffer j := by
      unfold Neuron.getTimeBuffer; rw [hb]
    rw [h2] at h1
    rw [← h1]
    unfold Neuron.getTimeBuffer
    simp [setTimeBuffer_fields]
  unfold Neuron.updateTail
  by_cases hc : n.r_period = true ∧ (tau_rp : K) > (n.neuron_clock : K) - n.t_spike / h K
  · simp only [hc, and_self, if_true]
    exact key _ rfl rfl
  · simp only [hc, if_false]
    exact key _ rfl rfl

/-! ## Successive deliveries to a buffer slot -/

theorem deliver_zero (n : Neuron K) (w : Nat) (a : K) : n.deliver w a 0 = n := rfl

theorem deliver_succ (n : Neuron K) (w : Nat) (a : K) (k : Nat) :
    n.deliver w a (k + 1) = (n.addTimeBuffer w a).deliver w a k := rfl

theorem deliver_fields (n : Neuron K) (w : Nat) (a : K) (k : Nat) :
    (n.deliver w a k).excitatory_neuron = n.excitatory_neuron ∧
    (n.deliver w a k).V_membrane = n.V_membrane ∧
    (n.deliver w a k).nb_spikes = n.nb_spikes ∧
    (n.deliver w a k).t_spike = n.t_spike ∧
    (n.deliver w a k).spike = n.spike ∧
    (n.deliver w a k).neuron_clock = n.neuron_clock ∧
    (n.deliver w a k).external_input = n.external_input ∧
    (n.deliver w a k).r_period = n.r_period ∧
    (n.deliver w a k).n_target = n.n_target ∧
    (n.deliver w a k).nb_excitatory_connections = n.nb_excitatory_connections ∧
    (n.deliver w a k).nb_inhibitory_connections = n.nb_inhibitory_connections := by
  induction k generalizing n with
  | zero => exact ⟨rfl, rfl, rfl, rfl, rfl, rfl, rfl, rfl, rfl, rfl, rfl⟩
  | succ k ih =>
    rw [deliver_succ]
    have h1 := ih (n.addTimeBuffer w a)
    have h2 := addTimeBuffer_fields n w a
    refine ⟨h1.1.trans h2.1, h1.2.1.trans h2.2.1, h1.2.2.1.trans h2.2.2.1,
      h1.2.2.2.1.trans h2.2.2.2.1, h1.2.2.2.2.1.trans h2.2.2.2.2.1,
      h1.2.2.2.2.2.1.trans h2.2.2.2.2.2.1, h1.2.2.2.2.2.2.1.trans h2.2.2.2.2.2.2.1,
      h1.2.2.2.2.2.2.2.1.trans h2.2.2.2.2.2.2.2.1,
      h1.2.2.2.2.2.2.2.2.1.trans h2.2.2.2.2.2.2.2.2.1,
      h1.2.2.2.2.2.2.2.2.2.1.trans h2.2.2.2.2.2.2.2.2.2.1,
      h1.2.2.2.2.2.2.2.2.2.2.trans h2.2.2.2.2.2.2.2.2.2.2⟩

theorem getTimeBuffer_deliver (n : Neuron K) (w j : Nat) (a : K) (k : Nat)
    (hw : w < D + 1) :
    (n.deliver w a k).getTimeBuffer j =
      if j = w then (fun x : K => x + a)^[k] (n.getTimeBuffer j) else n.getTimeBuffer j := by
  induction k generalizing n with
  | zero => simp [deliver_zero]
  | succ k ih =>
    rw [deliver_succ, ih, getTimeBuffer_addTimeBuffer n w j a hw]
    by_cases hj : j = w
    · simp only [hj, if_true, Function.iterate_succ_apply]
    · simp only [hj, if_false]

theorem foldlM_deliver (step : Network K → Option Nat → Option (Network K))
    (P : Network K → Prop) (w : Nat) (a : K)
    (hstep : ∀ net p, P net →
      step net (some p) = some (Function.update net p ((net p).addTimeBuffer w a)))
    (hP : ∀ net p, P net → P (Function.update net p ((net p).addTimeBuffer w a))) :
    ∀ (ts : List (Option Nat)) (net : Network K), P net → (∀ t ∈ ts, t ≠ none) →
      ts.foldlM step net = some (fun q => (net q).deliver w a (ts.count (some q))) := by
  intro ts
  induction ts with
  | nil =>
    intro net _ _
    rfl
  | cons t ts ih =>
    intro net hp hv
    obtain ⟨p, rfl⟩ : ∃ p, t = some p := by
      cases t with
      | none => exact absurd rfl (hv none (List.mem_cons_self _ _))
      | some p => exact ⟨p, rfl⟩
    rw [List.foldlM_cons, hstep net p hp]
    show List.foldlM step _ ts = _
    rw [ih _ (hP net p hp) (fun t ht => hv t (List.mem_cons_of_mem _ ht))]
    congr 1
    funext q
    by_cases hq : q = p
    · subst hq
      rw [Function.update_same, List.count_cons_self, deliver_succ]
    · have hne : (some p == some q) = false := by simp [Ne.symm hq]
      rw [Function.update_noteq hq, List.count_cons, hne]
      rfl

theorem updateTargets_deliver (net : Network K) (self : Nat) (g : K)
    (hv : (net self).targetsValid) :
    updateTargets net self g =
      some (fun q => (net q).deliver (((net self).neuron_clock + D) % (D + 1))
        ((net self).amplitude g) ((net self).n_target.count (some q))) := by
  have hlt : ((net self).neuron_clock + D) % (D + 1) < D + 1 := Nat.mod_lt _ (by decide)
  refine foldlM_deliver (updateTargetsStep self g)
    (fun m => (m self).neuron_clock = (net self).neuron_clock ∧
      (m self).excitatory_neuron = (net self).excitatory_neuron) _ _ ?_ ?_ _ net
    ⟨rfl, rfl⟩ hv
  · intro m p hm
    unfold updateTargetsStep Neuron.amplitude
    simp only [hm.1, hm.2, hlt, if_true]
    split <;> rfl
  · intro m p hm
    by_cases hps : self = p
    · subst hps
      rw [Function.update_same, (addTimeBuffer_fields _ _ _).2.2.2.2.2.1,
        (addTimeBuffer_fields _ _ _).1]
      exact hm
    · rw [Function.update_noteq hps]
      exact hm

/-! ## `update` in closed form, for every arithmetic -/

theorem fire_eq (n : Neuron K) :
    n.fire.neuron_clock = n.neuron_clock ∧ n.fire.n_target = n.n_target ∧
    n.fire.V_membrane = n.V_membrane ∧ n.fire.excitatory_neuron = n.excitatory_neuron ∧
    n.fire.t_buffer = n.t_buffer ∧ n.fire.external_input = n.external_input := by
  unfold Neuron.fire
  split <;> simp [Neuron.updateNeuronState]

theorem update_eq_updatedBy (exp : K → K) (net : Network K) (p : Nat) (dt : Int)
    (noise g : K) (hok : (net p).V_membrane > V_thr K → (net p).targetsValid) :
    update exp net p dt noise g = some (updatedBy exp net p dt noise g) := by
  by_cases hV : (net p).V_membrane > V_thr K
  · have hv : (Function.update net p
        (({ net p with spike := false } : Neuron K).updateNeuronState
          ((net p).neuron_clock : Int)) p).targetsValid := by
      rw [Function.update_same]
      exact hok hV
    have hfire : (net p).fire =
        ({ net p with spike := false } : Neuron K).updateNeuronState
          ((net p).neuron_clock : Int) := by
      unfold Neuron.fire
      rw [if_pos hV]
    rw [update_eq_map, if_pos hV, updateTargets_deliver _ _ _ hv]
    simp only [Option.map_some', Function.update_same]
    congr 1
    funext q
    unfold updatedBy Neuron.deliveries
    rw [if_pos hV, hfire]
    by_cases hq : q = p
    · subst hq
      rw [Function.update_same, if_pos rfl]
      rfl
    · rw [Function.update_noteq hq, if_neg hq, Function.update_noteq hq, if_pos hV]
      rfl
  · have hfire : (net p).fire = { net p with spike := false } := by
      unfold Neuron.fire
      rw [if_neg hV]
    rw [update_of_not_crossed exp net p dt noise g hV]
    congr 1
    funext q
    unfold updatedBy Neuron.deliveries
    rw [if_neg hV, hfire]
    by_cases hq : q = p
    · subst hq
      rw [Function.update_same, if_pos rfl]
      rfl
    · rw [Function.update_noteq hq, if_neg hq, if_neg hV]
      rfl

/-! ## `update32` in closed form -/

theorem toInt32_of_lt (c : Nat) (hc : c < 2 ^ 31) : toInt32 c = (c : Int) := by
  unfold toInt32
  have h1 : c % 2 ^ 32 = c := Nat.mod_eq_of_lt (by omega)
  rw [h1, if_pos hc]

theorem toUInt32_of_lt (z : Int) (h0 : 0 ≤ z) (h1 : z < 2 ^ 32) : toUInt32 z = z.toNat := by
  unfold toUInt32
  rw [Int.emod_eq_of_lt h0 h1]

theorem toUInt32_lt (z : Int) : toUInt32 z < 2 ^ 32 := by
  unfold toUInt32
  have h1 : 0 ≤ z % 2 ^ 32 := Int.emod_nonneg _ (by norm_num)
  have h2 : z % 2 ^ 32 < 2 ^ 32 := Int.emod_lt_of_pos _ (by norm_num)
  omega

theorem toInt32_index (i : Nat) (hi : i < D + 1) : toInt32 i = (i : Int) :=
  toInt32_of_lt i (by unfold D at hi; omega)

theorem getTimeBufferChecked_index (n : Neuron K) (i : Nat) (hi : i < D + 1) :
    n.getTimeBufferChecked (toInt32 i) = some (n.getTimeBuffer i) := by
  unfold Neuron.getTimeBufferChecked
  rw [toInt32_index i hi, if_pos ⟨by omega, by omega⟩, Int.toNat_ofNat]

theorem setTimeBufferChecked_index (n : Neuron K) (i : Nat) (val : K) (hi : i < D + 1) :
    n.setTimeBufferChecked (toInt32 i) val = some (n.setTimeBuffer i val) := by
  unfold Neuron.setTimeBufferChecked
  rw [toInt32_index i hi, if_pos ⟨by omega, by omega⟩, Int.toNat_ofNat]

theorem addTimeBufferChecked_index (n : Neuron K) (i : Nat) (val : K) (hi : i < D + 1) :
    n.addTimeBufferChecked (toInt32 i) val = some (n.addTimeBuffer i val) := by
  unfold Neuron.addTimeBufferChecked
  rw [toInt32_index i hi, if_pos ⟨by omega, by omega⟩, Int.toNat_ofNat]

/-- Without the modulo the index leaves the buffer: the checked accessor rejects a
clock from 16 on passed as it is. -/
theorem getTimeBufferChecked_none (n : Neuron K) (i : Nat) (hi : D + 1 ≤ i)
    (hi2 : i < 2 ^ 32) : n.getTimeBufferChecked (toInt32 i) = none := by
  unfold Neuron.getTimeBufferChecked toInt32
  have h1 : i % 2 ^ 32 = i := Nat.mod_eq_of_lt hi2
  rw [h1]
  split
  · rw [if_neg]
    intro hc
    omega
  · rw [if_neg]
    intro hc
    omega

theorem updateTargets32_deliver (net : Network K) (self : Nat) (g : K)
    (hv : (net self).targetsValid) :
    updateTargets32 net self g =
      some (fun q => (net q).deliver
        (toUInt32 (((net self).neuron_clock : Int) + (D : Int)) % (D + 1))
        ((net self).amplitude g) ((net self).n_target.count (some q))) := by
  have hlt : toUInt32 (((net self).neuron_clock : Int) + (D : Int)) % (D + 1) < D + 1 :=
    Nat.mod_lt _ (by decide)
  refine foldlM_deliver (updateTargetsStep32 self g)
    (fun m => (m self).neuron_clock = (net self).neuron_clock ∧
      (m self).excitatory_neuron = (net self).excitatory_neuron) _ _ ?_ ?_ _ net
    ⟨rfl, rfl⟩ hv
  · intro m p hm
    have hadd : ∀ v : K, (m p).addTimeBufferChecked
        (toInt32 (toUInt32 (((net self).neuron_clock : Int) + (D : Int)) % (D + 1))) v =
          some ((m p).addTimeBuffer
            (toUInt32 (((net self).neuron_clock : Int) + (D : Int)) % (D + 1)) v) :=
      fun v => addTimeBufferChecked_index (m p) _ v hlt
    unfold updateTargetsStep32 Neuron.amplitude
    simp only [hm.1, hm.2, hlt, if_true, hadd, Option.map_some']
    split <;> rfl
  · intro m p hm
    by_cases hps : self = p
    · subst hps
      rw [Function.update_same, (addTimeBuffer_fields _ _ _).2.2.2.2.2.1,
        (addTimeBuffer_fields _ _ _).1]
      exact hm
    · rw [Function.update_noteq hps]
      exact hm

theorem update32_eq_map (exp : K → K) (net : Network K) (self : Nat) (dt : Int)
    (noise g : K) :
    update32 exp net self dt noise g =
      (if (net self).V_membrane > V_thr K then
        updateTargets32
          (Function.update net self
            (({ net self with spike := false } : Neuron K).updateNeuronState32
              (toInt32 (net self).neuron_clock)))
          self g
      else some (Function.update net self { net self with spike := false })).map
        fun net2 => Function.update net2 self ((net2 self).updateTail32 exp dt noise) := by
  have hidx : ∀ c : Nat, c % (D + 1) < D + 1 := fun c => Nat.mod_lt _ (by decide)
  have htail : ∀ net2 : Network K,
      (match (if (net2 self).r_period = true ∧
            (tau_rp : K) > ((net2 self).neuron_clock : K) - (net2 self).t_spike / h K
          then some ({ net2 self with V_membrane := V_refractory K } : Neuron K)
          else ((net2 self).getTimeBufferChecked
              (toInt32 ((net2 self).neuron_clock % (D + 1)))).map fun ampl =>
            ({ net2 self with r_period := false } : Neuron K).solveMembraneEquation exp
              (net2 self).external_input ampl noise) with
        | none => none
        | some n1 =>
          match n1.setTimeBufferChecked (toInt32 (n1.neuron_clock % (D + 1))) 0.0 with
          | none => none
          | some n2 =>
            some (Function.update net2 self
              ({ n2 with neuron_clock := toUInt32 ((n2.neuron_clock : Int) + dt) } :
                Neuron K))) =
        some (Function.update net2 self ((net2 self).updateTail32 exp dt noise)) := by
    intro net2
    have key : ∀ m : Neuron K,
        (match m.setTimeBufferChecked (toInt32 (m.neuron_clock % (D + 1))) 0.0 with
          | none => none
          | some n2 =>
            some (Function.update net2 self
              ({ n2 with neuron_clock := toUInt32 ((n2.neuron_clock : Int) + dt) } :
                Neuron K))) =
          some (Function.update net2 self
            ({ ({ m.setTimeBuffer (m.neuron_clock % (D + 1)) 0.0 with
              neuron_clock := Int.toNat (((m.setTimeBuffer (m.neuron_clock % (D + 1))
                0.0).neuron_clock : Int) + dt) } : Neuron K) with
            neuron_clock := toUInt32 ((m.neuron_clock : Int) + dt) } : Neuron K)) := by
      intro m
      rw [setTimeBufferChecked_index m _ _ (hidx _)]
      simp [setTimeBuffer_fields]
    unfold Neuron.updateTail32 Neuron.updateTail
    by_cases hc : (net2 self).r_period = true ∧
        (tau_rp : K) > ((net2 self).neuron_clock : K) - (net2 self).t_spike / h K
    · rw [if_pos hc, if_pos hc]
      exact key _
    · rw [if_neg hc, if_neg hc, getTimeBufferChecked_index _ _ (hidx _), Option.map_some']
      exact key _
  unfold update32
  simp only [Function.update_same, Function.update_idem]
  generalize (if (net self).V_membrane > V_thr K then
        updateTargets32
          (Function.update net self
            (({ net self with spike := false } : Neuron K).updateNeuronState32
              (toInt32 (net self).neuron_clock)))
          self g
      else some (Function.update net self { net self with spike := false })) = o
  cases o with
  | none => rfl
  | some net2 => exact htail net2

theorem update32_eq_updatedBy32 (exp : K → K) (net : Network K) (p : Nat) (dt : Int)
    (noise g : K) (hok : (net p).V_membrane > V_thr K → (net p).targetsValid) :
    update32 exp net p dt noise g = some (updatedBy32 exp net p dt noise g) := by
  by_cases hV : (net p).V_membrane > V_thr K
  · have hv : (Function.update net p
        (({ net p with spike := false } : Neuron K).updateNeuronState32
          (toInt32 (net p).neuron_clock)) p).targetsValid := by
      rw [Function.update_same]
      exact hok hV
    have hfire : (net p).fire32 =
        ({ net p with spike := false } : Neuron K).updateNeuronState32
          (toInt32 (net p).neuron_clock) := by
      unfold Neuron.fire32
      rw [if_pos hV]
    rw [update32_eq_map, if_pos hV, updateTargets32_deliver _ _ _ hv]
    simp only [Option.map_some', Function.update_same]
    congr 1
    funext q
    unfold updatedBy32 Neuron.deliveries
    rw [if_pos hV, hfire]
    by_cases hq : q = p
    · subst hq
      rw [Function.update_same, if_pos rfl]
      rfl
    · rw [Function.update_noteq hq, if_neg hq, Function.update_noteq hq, if_pos hV]
      rfl
  · have hfire : (net p).fire32 = { net p with spike := false } := by
      unfold Neuron.fire32
      rw [if_neg hV]
    rw [update32_eq_map, if_neg hV]
    simp only [Option.map_some', Function.update_same, Function.update_idem]
    congr 1
    funext q
    unfold updatedBy32 Neuron.deliveries
    rw [if_neg hV, hfire]
    by_cases hq : q = p
    · subst hq
      rw [Function.update_same, if_pos rfl]
      rfl
    · rw [Function.update_noteq hq, if_neg hq, if_neg hV]
      rfl

theorem updateTail32_fields (exp : K → K) (n : Neuron K) (dt : Int) (noise : K) :
    (n.updateTail32 exp dt noise).excitatory_neuron = n.excitatory_neuron ∧
    (n.updateTail32 exp dt noise).nb_spikes = n.nb_spikes ∧
    (n.updateTail32 exp dt noise).t_spike = n.t_spike ∧
    (n.updateTail32 exp dt noise).spike = n.spike ∧
    (n.updateTail32 exp dt noise).neuron_clock = toUInt32 ((n.neuron_clock : Int) + dt) ∧
    (n.updateTail32 exp dt noise).external_input = n.external_input ∧
    (n.updateTail32 exp dt noise).n_target = n.n_target ∧
    (n.updateTail32 exp dt noise).V_membrane = (n.updateTail exp dt noise).V_membrane ∧
    (n.updateTail32 exp dt noise).r_period = (n.updateTail exp dt noise).r_period ∧
    (n.updateTail32 exp dt noise).t_buffer = (n.updateTail exp dt noise).t_buffer := by
  have hf := updateTail_fields exp n dt noise
  exact ⟨hf.1, hf.2.1, hf.2.2.1, hf.2.2.2.1, rfl, hf.2.2.2.2.2.1, hf.2.2.2.2.2.2.1, rfl, rfl,
    rfl⟩

theorem updateTail32_of_bounds (exp : K → K) (n : Neuron K) (dt : Int) (noise : K)
    (h0 : 0 ≤ (n.neuron_clock : Int) + dt) (h1 : (n.neuron_clock : Int) + dt < 2 ^ 32) :
    n.updateTail32 exp dt noise = n.updateTail exp dt noise := by
  have hc := (updateTail_fields exp n dt noise).2.2.2.2.1
  unfold Neuron.updateTail32
  rw [toUInt32_of_lt _ h0 h1, ← hc]

theorem fire32_of_bounds (n : Neuron K) (hc : n.neuron_clock < 2 ^ 31)
    (hn : n.nb_spikes + 1 < 2 ^ 32) : n.fire32 = n.fire := by
  unfold Neuron.fire32 Neuron.fire Neuron.updateNeuronState32 Neuron.updateNeuronState
  have h1 : toUInt32 ((n.nb_spikes : Int) + 1) = n.nb_spikes + 1 := by
    rw [toUInt32_of_lt _ (by omega) (by omega)]
    omega
  rw [toInt32_of_lt _ hc]
  simp only [h1]

/-- `update32` and `update` agree while the clock is below `2^31`, the spike count
below `2^32 - 1` and the advanced clock in the range of `unsigned int`. -/
theorem update32_eq_update (exp : K → K) (net : Network K) (p : Nat) (dt : Int)
    (noise g : K) (hok : (net p).V_membrane > V_thr K → (net p).targetsValid)
    (hc : (net p).neuron_clock < 2 ^ 31) (hn : (net p).nb_spikes + 1 < 2 ^ 32)
    (h0 : 0 ≤ ((net p).neuron_clock : Int) + dt)
    (h1 : ((net p).neuron_clock : Int) + dt < 2 ^ 32) :
    update32 exp net p dt noise g = update exp net p dt noise g := by
  have hw : toUInt32 (((net p).neuron_clock : Int) + (D : Int)) % (D + 1) =
      ((net p).neuron_clock + D) % (D + 1) := by
    rw [toUInt32_of_lt _ (by omega) (by unfold D; omega)]
    congr 1
  rw [update32_eq_updatedBy32 exp net p dt noise g hok,
    update_eq_updatedBy exp net p dt noise g hok]
  congr 1
  funext q
  unfold updatedBy32 updatedBy
  rw [hw, fire32_of_bounds _ hc hn]
  by_cases hq : q = p
  · rw [if_pos hq, if_pos hq]
    apply updateTail32_of_bounds
    · rw [(deliver_fields _ _ _ _).2.2.2.2.2.1, (fire_eq _).1]
      exact h0
    · rw [(deliver_fields _ _ _ _).2.2.2.2.2.1, (fire_eq _).1]
      exact h1
  · rw [if_neg hq, if_neg hq]

/-! ## Buffer indices, spike bookkeeping and clock with the integers of the source -/

theorem fire32_fields (n : Neuron K) :
    n.fire32.neuron_clock = n.neuron_clock ∧ n.fire32.n_target = n.n_target ∧
    n.fire32.V_membrane = n.V_membrane ∧ n.fire32.excitatory_neuron = n.excitatory_neuron ∧
    n.fire32.t_buffer = n.t_buffer ∧ n.fire32.external_input = n.external_input ∧
    (n.fire32.spike = true ↔ n.V_membrane > V_thr K) ∧
    n.fire32.nb_spikes =
      if n.V_membrane > V_thr K then toUInt32 ((n.nb_spikes : Int) + 1) else n.nb_spikes := by
  unfold Neuron.fire32
  split <;> rename_i hV <;> simp [Neuron.updateNeuronState32, hV]

theorem updatedBy32_self (exp : K → K) (net : Network K) (p : Nat) (dt : Int)
    (noise g : K) :
    updatedBy32 exp net p dt noise g p =
      (((net p).fire32).deliver
        (toUInt32 (((net p).neuron_clock : Int) + (D : Int)) % (D + 1)) ((net p).amplitude g)
        ((net p).deliveries p)).updateTail32 exp dt noise := by
  unfold updatedBy32
  rw [if_pos rfl]

theorem getTimeBuffer_congr (m n : Neuron K) (hb : m.t_buffer = n.t_buffer) (j : Nat) :
    m.getTimeBuffer j = n.getTimeBuffer j := by
  unfold Neuron.getTimeBuffer
  rw [hb]

/-- C16. Buffer indices stay in range. For every clock value `c`, the read index
`c % (D+1)` and the write index `(c + D) % (D+1)`, computed on `unsigned int` and
passed to the accessors as `int`, are at least 0 and below the size `D + 1` of the
buffer. Hence for every network state, when every pointer of the target list is
non-null, `updateTargets` and `update` return: no assertion fails and no access to the
buffer is out of bounds (`update32` gives `none` as soon as one is). -/
theorem C16_indices_in_range (exp : K → K) (net : Network K) (self : Nat)
    (dt : Int) (noise g : K) (c : Nat) (hv : (net self).targetsValid) :
    (0 ≤ toInt32 (c % (D + 1)) ∧ toInt32 (c % (D + 1)) < ((D + 1 : Nat) : Int)) ∧
    (0 ≤ toInt32 (toUInt32 ((c : Int) + (D : Int)) % (D + 1)) ∧
      toInt32 (toUInt32 ((c : Int) + (D : Int)) % (D + 1)) < ((D + 1 : Nat) : Int)) ∧
    (∃ net', updateTargets32 net self g = some net') ∧
    (∃ net', update32 exp net self dt noise g = some net') := by
  have hr : c % (D + 1) < D + 1 := Nat.mod_lt _ (by decide)
  have hw : toUInt32 ((c : Int) + (D : Int)) % (D + 1) < D + 1 := Nat.mod_lt _ (by decide)
  refine ⟨?_, ?_, ⟨_, updateTargets32_deliver net self g hv⟩,
    ⟨_, update32_eq_updatedBy32 exp net self dt noise g (fun _ => hv)⟩⟩
  · rw [toInt32_index _ hr]
    omega
  · rw [toInt32_index _ hw]
    omega

/-- C15 as amended. For every neuron state with local clock `c` and every call
`update(dt, noise, g)` with `dt ≥ 0` and `c + dt < 2^32` (whose assertions hold), in
each of the three branches the call returns, and after it the slot `c mod (D+1)` of
the neuron holds `0.0` and its local clock is `c + dt`. -/
theorem C15_slot_cleared_clock_advanced (exp : K → K) (net : Network K) (self : Nat)
    (dt : Int) (noise g : K) (hdt : 0 ≤ dt)
    (hok : (net self).V_membrane > V_thr K → (net self).targetsValid)
    (hb : ((net self).neuron_clock : Int) + dt < 2 ^ 32) :
    ∃ net', update32 exp net self dt noise g = some net' ∧
      (net' self).getTimeBuffer ((net self).neuron_clock % (D + 1)) = 0.0 ∧
      ((net' self).neuron_clock : Int) = (net self).neuron_clock + dt := by
  have hclock : ((net self).fire32.deliver
      (toUInt32 (((net self).neuron_clock : Int) + (D : Int)) % (D + 1))
      ((net self).amplitude g) ((net self).deliveries self)).neuron_clock =
        (net self).neuron_clock := by
    rw [(deliver_fields _ _ _ _).2.2.2.2.2.1, (fire32_fields _).1]
  refine ⟨_, update32_eq_updatedBy32 exp net self dt noise g hok, ?_, ?_⟩
  · rw [updatedBy32_self,
      getTimeBuffer_congr _ _ (updateTail32_fields exp _ dt noise).2.2.2.2.2.2.2.2.2,
      updateTail_readSlot, hclock, if_pos rfl]
  · rw [updatedBy32_self, (updateTail32_fields exp _ dt noise).2.2.2.2.1, hclock,
      toUInt32_of_lt _ (by omega) hb]
    omega

/-- C14 as amended. For every neuron state whose spike count is below `2^32 - 1` and
every call of `update` (whose assertions hold), the call returns; after it the spike
flag is true if and only if the potential was strictly above `V_thr` at the start of
the call, whatever the flag was before; and the spike count has grown by exactly one
when the flag is true and is unchanged otherwise, so it has not decreased. -/
theorem C14_spike_flag_and_count (exp : K → K) (net : Network K) (self : Nat)
    (dt : Int) (noise g : K)
    (hok : (net self).V_membrane > V_thr K → (net self).targetsValid)
    (hn : (net self).nb_spikes + 1 < 2 ^ 32) :
    ∃ net', update32 exp net self dt noise g = some net' ∧
      ((net' self).spike = true ↔ (net self).V_membrane > V_thr K) ∧
      (net' self).nb_spikes =
        (net self).nb_spikes + (if (net' self).spike = true then 1 else 0) ∧
      (net self).nb_spikes ≤ (net' self).nb_spikes := by
  have hcount : toUInt32 (((net self).nb_spikes : Int) + 1) = (net self).nb_spikes + 1 := by
    rw [toUInt32_of_lt _ (by omega) (by omega)]
    omega
  have hf := fire32_fields (net self)
  refine ⟨_, update32_eq_updatedBy32 exp net self dt noise g hok, ?_⟩
  rw [updatedBy32_self, (updateTail32_fields exp _ dt noise).2.2.2.1,
    (updateTail32_fields exp _ dt noise).2.1, (deliver_fields _ _ _ _).2.2.2.2.1,
    (deliver_fields _ _ _ _).2.2.1, hf.2.2.2.2.2.2.2]
  refine ⟨hf.2.2.2.2.2.2.1, ?_, ?_⟩
  · by_cases hV : (net self).V_membrane > V_thr K
    · rw [if_pos hV, if_pos (hf.2.2.2.2.2.2.1.mpr hV), hcount]
    · rw [if_neg hV, if_neg (fun hc => hV (hf.2.2.2.2.2.2.1.mp hc))]
      rfl
  · by_cases hV : (net self).V_membrane > V_thr K
    · rw [if_pos hV, hcount]
      omega
    · rw [if_neg hV]

theorem fire32_of_crossed (n : Neuron K) (hV : n.V_membrane > V_thr K) :
    n.fire32.r_period = true ∧ n.fire32.t_spike = ((toInt32 n.neuron_clock : Int) : K) * h K ∧
    n.fire32.spike = true ∧ n.fire32.nb_spikes = toUInt32 ((n.nb_spikes : Int) + 1) := by
  unfold Neuron.fire32
  rw [if_pos hV]
  exact ⟨rfl, rfl, rfl, rfl⟩

theorem write_slot_ne_read_slot (t : Nat) : (t + D) % (D + 1) ≠ t % (D + 1) := by
  unfold D; omega

theorem not_holds_of_r_period (n : Neuron K) (hr : n.r_period = false) : ¬ n.holds := by
  unfold Neuron.holds
  simp [hr]

/-! ## Delivery of a spike -/

theorem toUInt32_write_slot (c : Nat) :
    toUInt32 ((c : Int) + (D : Int)) % (D + 1) = (c + D) % (D + 1) := by
  unfold toUInt32 D
  omega

/-- C4 as amended. When the neuron `self`, with local clock `c`, spikes in `update`,
the slot `(c + D) mod (D+1)` of every neuron `T` receives `k` successive additions
`slot += a`, each one evaluated in the arithmetic of the program, where `k` is the
number of occurrences of `T` in the target list of `self` (so every neuron of the list
receives at least one amplitude, and a neuron that is not in the list receives
nothing) and `a` is `J_e` when `self` is excitatory and `-g*J_e` when it is
inhibitory: the amplitude is added to what the slot holds. -/
theorem C4_spike_delivery (exp : K → K) (net : Network K) (self : Nat)
    (dt : Int) (noise g : K)
    (hV : (net self).V_membrane > V_thr K) (hv : (net self).targetsValid) :
    ∃ net', update32 exp net self dt noise g = some net' ∧
      ∀ T : Nat,
        (net' T).getTimeBuffer (((net self).neuron_clock + D) % (D + 1)) =
          (fun x : K =>
            x + (if (net self).excitatory_neuron = true then J_e K else -g * J_e K))^[
              (net self).n_target.count (some T)]
            ((net T).getTimeBuffer (((net self).neuron_clock + D) % (D + 1))) ∧
        (some T ∈ (net self).n_target → 1 ≤ (net self).n_target.count (some T)) := by
  have hw : ((net self).neuron_clock + D) % (D + 1) < D + 1 := Nat.mod_lt _ (by decide)
  have hk : ∀ T, (net self).deliveries T = (net self).n_target.count (some T) := by
    intro T
    unfold Neuron.deliveries
    rw [if_pos hV]
  refine ⟨_, update32_eq_updatedBy32 exp net self dt noise g (fun _ => hv), ?_⟩
  intro T
  refine ⟨?_, fun hT => List.count_pos_iff.mpr hT⟩
  by_cases hT : T = self
  · rw [hT, updatedBy32_self,
      getTimeBuffer_congr _ _ (updateTail32_fields exp _ dt noise).2.2.2.2.2.2.2.2.2,
      updateTail_readSlot, (deliver_fields _ _ _ _).2.2.2.2.2.1, (fire32_fields _).1,
      if_neg (write_slot_ne_read_slot _), toUInt32_write_slot,
      getTimeBuffer_deliver _ _ _ _ _ hw, if_pos rfl,
      getTimeBuffer_congr _ _ (fire32_fields _).2.2.2.2.1, hk]
    rfl
  · unfold updatedBy32
    rw [if_neg hT, toUInt32_write_slot, getTimeBuffer_deliver _ _ _ _ _ hw, if_pos rfl, hk]
    rfl

/-! ## The one-neuron scenario -/

theorem fire32_of_not_crossed (n : Neuron K) (hV : ¬ n.V_membrane > V_thr K) :
    n.fire32 = { n with spike := false } := by
  unfold Neuron.fire32
  rw [if_neg hV]

theorem update32_noTargets (exp : K → K) (net : Network K) (p : Nat) (dt : Int)
    (noise g : K) (ht : (net p).n_target = []) :
    update32 exp net p dt noise g = some (updatedBy32 exp net p dt noise g) ∧
    updatedBy32 exp net p dt noise g p = (net p).fire32.updateTail32 exp dt noise := by
  refine ⟨update32_eq_updatedBy32 exp net p dt noise g (fun _ => ?_), ?_⟩
  · unfold Neuron.targetsValid
    rw [ht]
    simp
  · have hd : (net p).deliveries p = 0 := by
      unfold Neuron.deliveries
      rw [ht]
      simp
    rw [updatedBy32_self, hd, deliver_zero]

theorem runUpdates32_append (exp : K → K) (g : K) (l1 l2 : List (Nat × K)) :
    ∀ net : Network K, runUpdates32 exp g net (l1 ++ l2) =
      (runUpdates32 exp g net l1).bind fun net' => runUpdates32 exp g net' l2 := by
  induction l1 with
  | nil => intro net; rfl
  | cons e rest ih =>
    obtain ⟨p, noise⟩ := e
    intro net
    simp only [List.cons_append, runUpdates32]
    cases update32 exp net p 1 noise g with
    | none => rfl
    | some net' => exact ih net'

theorem runUpdates32_replicate_succ (exp : K → K) (g : K) (net : Network K) (p : Nat)
    (noise : K) (n : Nat) :
    runUpdates32 exp g net (List.replicate (n + 1) (p, noise)) =
      (runUpdates32 exp g net (List.replicate n (p, noise))).bind
        fun net' => update32 exp net' p 1 noise g := by
  rw [List.replicate_succ', runUpdates32_append]
  congr 1
  funext net'
  simp only [runUpdates32]
  cases update32 exp net' p 1 noise g with
  | none => rfl
  | some net2 => rfl

/-- The first update of the fresh neuron of the one-neuron scenario, for every
arithmetic in which `0.0` is not above the threshold: the potential is
`const1*0.0 + const2*I + 0.0 + 0.0`. -/
theorem first_update32 (exp : K → K) (garbage_e garbage_i : Int) (I g : K)
    (h0 : ¬ (0.0 : K) > V_thr K) :
    ∃ net', update32 exp (oneNeuronNet garbage_e garbage_i I) 0 1 0.0 g = some net' ∧
      (net' 0).V_membrane = const1 exp * 0.0 + const2 exp * I + 0.0 + 0.0 := by
  obtain ⟨hu, hself⟩ :=
    update32_noTargets exp (oneNeuronNet garbage_e garbage_i I) 0 1 0.0 g rfl
  have hV : ¬ (oneNeuronNet garbage_e garbage_i I 0).V_membrane > V_thr K := h0
  have hnh : ¬ ({ oneNeuronNet garbage_e garbage_i I 0 with spike := false } : Neuron K).holds :=
    not_holds_of_r_period _ rfl
  refine ⟨_, hu, ?_⟩
  rw [hself, (updateTail32_fields exp _ 1 0.0).2.2.2.2.2.2.2.1, fire32_of_not_crossed _ hV,
    (updateTail_V_of_not_holds exp _ 1 0.0 hnh).1]
  rfl

/-- A neuron without targets that integrates a constant input, for every arithmetic.
The neuron `self` is not refractory, its potential is `v0`, its external input `I`
and its buffer is empty. The run of `n` updates with zero noise returns and the
target list stays empty. While none of the values obtained from `v0` by fewer than `n`
assignments `V = const1*V + const2*I + 0.0 + 0.0` is above the threshold, the
potential after the run is the `n`-th of these values, and the neuron has not spiked:
its count is unchanged, its flag is false, it is not refractory and its buffer is
empty. -/
theorem integrating_run32 (exp : K → K) (g I v0 : K) (self : Nat) (net : Network K)
    (ht : (net self).n_target = []) (hr : (net self).r_period = false)
    (hV : (net self).V_membrane = v0) (he : (net self).external_input = I)
    (hb : ∀ j, j < D + 1 → (net self).getTimeBuffer j = 0.0)
    (hs : (net self).spike = false) :
    ∀ n : Nat, ∃ net', runUpdates32 exp g net (List.replicate n (self, 0.0)) = some net' ∧
      (net' self).n_target = [] ∧
      ((∀ k < n, ¬ (fun v : K => const1 exp * v + const2 exp * I + 0.0 + 0.0)^[k] v0 >
          V_thr K) →
        (net' self).V_membrane =
          (fun v : K => const1 exp * v + const2 exp * I + 0.0 + 0.0)^[n] v0 ∧
        (net' self).r_period = false ∧ (net' self).external_input = I ∧
        (∀ j, j < D + 1 → (net' self).getTimeBuffer j = 0.0) ∧
        (net' self).nb_spikes = (net self).nb_spikes ∧ (net' self).spike = false) := by
  intro n
  induction n with
  | zero => exact ⟨net, rfl, ht, fun _ => ⟨hV, hr, he, hb, rfl, hs⟩⟩
  | succ n ih =>
    obtain ⟨net1, hr1, ht1, hinv⟩ := ih
    obtain ⟨hu, hself⟩ := update32_noTargets exp net1 self 1 0.0 g ht1
    have hT := updateTail32_fields exp (net1 self).fire32 1 0.0
    refine ⟨updatedBy32 exp net1 self 1 0.0 g, ?_, ?_, ?_⟩
    · rw [runUpdates32_replicate_succ, hr1, Option.some_bind, hu]
    · rw [hself, hT.2.2.2.2.2.2.1, (fire32_fields _).2.1, ht1]
    · intro hle
      obtain ⟨h1V, h1r, h1e, h1b, h1n, -⟩ := hinv (fun k hk => hle k (by omega))
      have hVn : ¬ (net1 self).V_membrane > V_thr K := by
        rw [h1V]
        exact hle n (by omega)
      have hnh : ¬ ({ net1 self with spike := false } : Neuron K).holds :=
        not_holds_of_r_period _ h1r
      have hf := updateTail_V_of_not_holds exp _ 1 0.0 hnh
      rw [hself]
      rw [fire32_of_not_crossed _ hVn] at hT ⊢
      refine ⟨?_, by rw [hT.2.2.2.2.2.2.2.2.1, hf.2], by rw [hT.2.2.2.2.2.1]; exact h1e, ?_,
        by rw [hT.2.1]; exact h1n, by rw [hT.2.2.2.1]⟩
      · rw [hT.2.2.2.2.2.2.2.1, hf.1, Function.iterate_succ_apply']
        show const1 exp * (net1 self).V_membrane + const2 exp * (net1 self).external_input +
          (net1 self).getTimeBuffer ((net1 self).neuron_clock % (D + 1)) + 0.0 = _
        rw [h1V, h1e, h1b _ (Nat.mod_lt _ (by decide))]
      · intro j hj
        rw [getTimeBuffer_congr _ _ hT.2.2.2.2.2.2.2.2.2, updateTail_readSlot]
        split
        · rfl
        · exact h1b j hj

/-- The one-neuron scenario, for every arithmetic: `integrating_run32` from the fresh
neuron, whose potential is `0.0` and whose spike count is 0. -/
theorem oneNeuron_run32 (exp : K → K) (garbage_e garbage_i : Int) (I g : K) :
    ∀ n : Nat, ∃ net', runUpdates32 exp g (oneNeuronNet garbage_e garbage_i I)
        (List.replicate n (0, 0.0)) = some net' ∧
      (net' 0).n_target = [] ∧
      ((∀ k < n, ¬ (fun v : K => const1 exp * v + const2 exp * I + 0.0 + 0.0)^[k] 0.0 >
          V_thr K) →
        (net' 0).V_membrane =
          (fun v : K => const1 exp * v + const2 exp * I + 0.0 + 0.0)^[n] 0.0 ∧
        (net' 0).r_period = false ∧ (net' 0).external_input = I ∧
        (∀ j, j < D + 1 → (net' 0).getTimeBuffer j = 0.0) ∧
        (net' 0).nb_spikes = 0 ∧ (net' 0).spike = false) := by
  refine integrating_run32 exp g I 0.0 0 (oneNeuronNet garbage_e garbage_i I) rfl rfl rfl rfl
    ?_ rfl
  intro j hj
  unfold Neuron.getTimeBuffer
  rw [dif_pos hj]
  rfl

/-- In the one-neuron scenario, the update made when the potential obtained by `n`
assignments is the first one above the threshold sets the spike flag. -/
theorem oneNeuron_spike32 (exp : K → K) (garbage_e garbage_i : Int) (I g : K) (n : Nat)
    (hle : ∀ k < n, ¬ (fun v : K => const1 exp * v + const2 exp * I + 0.0 + 0.0)^[k] 0.0 >
      V_thr K)
    (hgt : (fun v : K => const1 exp * v + const2 exp * I + 0.0 + 0.0)^[n] 0.0 > V_thr K) :
    ∃ net', runUpdates32 exp g (oneNeuronNet garbage_e garbage_i I)
        (List.replicate (n + 1) (0, 0.0)) = some net' ∧ (net' 0).spike = true := by
  obtain ⟨net1, hr, ht, hinv⟩ := oneNeuron_run32 exp garbage_e garbage_i I g n
  obtain ⟨h1V, -⟩ := hinv hle
  obtain ⟨hu, hself⟩ := update32_noTargets exp net1 0 1 0.0 g ht
  refine ⟨updatedBy32 exp net1 0 1 0.0 g, ?_, ?_⟩
  · rw [runUpdates32_replicate_succ, hr, Option.some_bind, hu]
  · rw [hself, (updateTail32_fields exp _ 1 0.0).2.2.2.1]
    apply (fire32_fields _).2.2.2.2.2.2.1.mpr
    rw [h1V]
    exact hgt

/-- C25 as amended. A fresh neuron with constant external input `I`, zero noise and no
inbound spike is updated `n` times with increment 1: the run returns, and if no spike
has occurred during these `n` updates (the spike flag is false after each of them) the
potential after them is the value obtained from `0.0` by `n` successive assignments
`V = const1*V + const2*I + 0.0 + 0.0`, each evaluated in the arithmetic of the
program. -/
theorem C25_iterated_form (exp : K → K) (garbage_e garbage_i : Int) (I g : K) (n : Nat) :
    ∃ net', runUpdates32 exp g (oneNeuronNet garbage_e garbage_i I)
        (List.replicate n (0, 0.0)) = some net' ∧
      ((∀ k ≤ n, ∀ net_k, runUpdates32 exp g (oneNeuronNet garbage_e garbage_i I)
          (List.replicate k (0, 0.0)) = some net_k → (net_k 0).spike = false) →
        (net' 0).V_membrane =
          (fun v : K => const1 exp * v + const2 exp * I + 0.0 + 0.0)^[n] 0.0) := by
  obtain ⟨net', hr, -, hinv⟩ := oneNeuron_run32 exp garbage_e garbage_i I g n
  refine ⟨net', hr, fun hflag => (hinv ?_).1⟩
  intro k
  induction k using Nat.strong_induction_on with
  | _ k ih =>
    intro hk hgt
    obtain ⟨net2, hr2, hs2⟩ := oneNeuron_spike32 exp garbage_e garbage_i I g k
      (fun j hj => ih j hj (by omega)) hgt
    have hf := hflag (k + 1) (by omega) net2 hr2
    rw [hs2] at hf
    exact Bool.noConfusion hf

/-! ## Order of the updates of a step -/

theorem agreeOff_refl (w : Nat) (n : Neuron K) : n.agreeOff w n :=
  ⟨fun _ _ => rfl, rfl, rfl, rfl, rfl, rfl, rfl, rfl, rfl, rfl, rfl, rfl⟩

theorem agreeOff_symm (w : Nat) (m n : Neuron K) (hag : m.agreeOff w n) : n.agreeOff w m := by
  obtain ⟨hb, h1, h2, h3, h4, h5, h6, h7, h8, h9, h10, h11⟩ := hag
  exact ⟨fun j hj => (hb j hj).symm, h1.symm, h2.symm, h3.symm, h4.symm, h5.symm, h6.symm,
    h7.symm, h8.symm, h9.symm, h10.symm, h11.symm⟩

theorem agreeOff_trans (w : Nat) (m n o : Neuron K) (h1 : m.agreeOff w n)
    (h2 : n.agreeOff w o) : m.agreeOff w o := by
  obtain ⟨ab, a1, a2, a3, a4, a5, a6, a7, a8, a9, a10, a11⟩ := h1
  obtain ⟨bb, b1, b2, b3, b4, b5, b6, b7, b8, b9, b10, b11⟩ := h2
  exact ⟨fun j hj => (ab j hj).trans (bb j hj), a1.trans b1, a2.trans b2, a3.trans b3,
    a4.trans b4, a5.trans b5, a6.trans b6, a7.trans b7, a8.trans b8, a9.trans b9,
    a10.trans b10, a11.trans b11⟩

theorem agreeOff_deliver (n : Neuron K) (w : Nat) (a : K) (k : Nat) (hw : w < D + 1) :
    (n.deliver w a k).agreeOff w n :=
  ⟨fun j hj => by rw [getTimeBuffer_deliver _ _ _ _ _ hw, if_neg hj], deliver_fields n w a k⟩

theorem agreeOff_fire32 (w : Nat) (m n : Neuron K) (hag : m.agreeOff w n) :
    m.fire32.agreeOff w n.fire32 := by
  obtain ⟨hb, h1, h2, h3, h4, h5, h6, h7, h8, h9, h10, h11⟩ := hag
  cases m
  cases n
  simp only at h1 h2 h3 h4 h5 h6 h7 h8 h9 h10 h11
  subst h1 h2 h3 h4 h5 h6 h7 h8 h9 h10 h11
  unfold Neuron.fire32 Neuron.updateNeuronState32
  split
  · exact ⟨hb, rfl, rfl, rfl, rfl, rfl, rfl, rfl, rfl, rfl, rfl, rfl⟩
  · exact ⟨hb, rfl, rfl, rfl, rfl, rfl, rfl, rfl, rfl, rfl, rfl, rfl⟩

theorem agreeOff_sends (w : Nat) (m n : Neuron K) (hag : m.agreeOff w n) (g : K) (q : Nat) :
    m.deliveries q = n.deliveries q ∧ m.amplitude g = n.amplitude g := by
  obtain ⟨-, h1, h2, -, -, -, -, -, -, h9, -, -⟩ := hag
  unfold Neuron.deliveries Neuron.amplitude
  rw [h1, h2, h9]
  exact ⟨rfl, rfl⟩

theorem updateTail32_writeSlot (exp : K → K) (n : Neuron K) (dt : Int) (noise : K)
    (w : Nat) (hw : w ≠ n.neuron_clock % (D + 1)) :
    (n.updateTail32 exp dt noise).getTimeBuffer w = n.getTimeBuffer w := by
  rw [getTimeBuffer_congr _ _ (updateTail32_fields exp n dt noise).2.2.2.2.2.2.2.2.2,
    updateTail_readSlot, if_neg hw]

theorem agreeOff_updateTail32 (exp : K → K) (w : Nat) (m n : Neuron K) (dt : Int)
    (noise : K) (hag : m.agreeOff w n) (hw : w ≠ n.neuron_clock % (D + 1)) :
    (m.updateTail32 exp dt noise).agreeOff w (n.updateTail32 exp dt noise) := by
  obtain ⟨hb, h1, h2, h3, h4, h5, h6, h7, h8, h9, h10, h11⟩ := hag
  have hread : m.getTimeBuffer (n.neuron_clock % (D + 1)) =
      n.getTimeBuffer (n.neuron_clock % (D + 1)) := hb _ (Ne.symm hw)
  have hbuf : ∀ j, j ≠ w → (m.updateTail32 exp dt noise).getTimeBuffer j =
      (n.updateTail32 exp dt noise).getTimeBuffer j := by
    intro j hj
    rw [getTimeBuffer_congr _ _ (updateTail32_fields exp m dt noise).2.2.2.2.2.2.2.2.2,
      getTimeBuffer_congr _ _ (updateTail32_fields exp n dt noise).2.2.2.2.2.2.2.2.2,
      updateTail_readSlot, updateTail_readSlot, h6, hb j hj]
  cases m
  cases n
  simp only at h1 h2 h3 h4 h5 h6 h7 h8 h9 h10 h11 hread
  subst h1 h2 h3 h4 h5 h6 h7 h8 h9 h10 h11
  refine ⟨hbuf, ?_⟩
  unfold Neuron.updateTail32 Neuron.updateTail Neuron.setTimeBuffer
    Neuron.solveMembraneEquation
  simp only [hread]
  split <;> simp [Nat.mod_lt]

theorem updatedBy32_other (exp : K → K) (net : Network K) (p q : Nat) (dt : Int)
    (noise g : K) (hq : q ≠ p) :
    updatedBy32 exp net p dt noise g q =
      (net q).deliver (toUInt32 (((net p).neuron_clock : Int) + (D : Int)) % (D + 1))
        ((net p).amplitude g) ((net p).deliveries q) := by
  unfold updatedBy32
  rw [if_neg hq]

theorem foldlM_updateTargetsStep32_none (p : Nat) (g : K) (ts : List (Option Nat)) :
    ∀ net : Network K, none ∈ ts → List.foldlM (updateTargetsStep32 p g) net ts = none := by
  induction ts with
  | nil => intro n hm; simp at hm
  | cons t ts ih =>
    intro n hm
    rw [List.foldlM_cons]
    cases t with
    | none => rfl
    | some x =>
      have hm' : none ∈ ts := by simpa using hm
      cases hstep : updateTargetsStep32 p g n (some x) with
      | none => rfl
      | some n' => exact ih n' hm'

theorem update32_fail (exp : K → K) (net : Network K) (p : Nat) (dt : Int) (noise g : K)
    (hV : (net p).V_membrane > V_thr K) (hnv : ¬ (net p).targetsValid) :
    update32 exp net p dt noise g = none := by
  rw [update32_eq_map, if_pos hV]
  unfold Neuron.targetsValid at hnv
  have hnone : none ∈ (net p).n_target := by
    by_contra hc
    exact hnv fun t ht htn => hc (htn ▸ ht)
  unfold updateTargets32
  rw [foldlM_updateTargetsStep32_none _ _ _ _
    (by simpa [Neuron.updateNeuronState32] using hnone)]
  rfl

theorem foldl_replicate_add (a x : K) (k : Nat) :
    (List.replicate k a).foldl (fun x a => x + a) x = (fun x : K => x + a)^[k] x := by
  induction k generalizing x with
  | zero => rfl
  | succ k ih =>
    rw [List.replicate_succ, List.foldl_cons, ih, Function.iterate_succ_apply]

/-- One update of a step. The neuron `p` has the clock `c` and agrees with its state
`n0` at the start of the step except possibly in the slot `w = (c + D) % (D + 1)`, and
no assertion fails: the update of `p` returns; it leaves `p` as the update of `n0`
does, except possibly in the slot `w`; it changes nothing but the slot `w` in the
other neurons; and the slot `w` of every neuron has received the amplitudes of `p` one
after the other. -/
theorem step32_closed (exp : K → K) (g noise : K) (c p : Nat) (n0 : Neuron K)
    (net : Network K) (hc : n0.neuron_clock = c)
    (hag : (net p).agreeOff ((c + D) % (D + 1)) n0)
    (hok : n0.V_membrane > V_thr K → n0.targetsValid) :
    update32 exp net p 1 noise g = some (updatedBy32 exp net p 1 noise g) ∧
    (updatedBy32 exp net p 1 noise g p).agreeOff ((c + D) % (D + 1))
      (n0.fire32.updateTail32 exp 1 noise) ∧
    (∀ q, q ≠ p → (updatedBy32 exp net p 1 noise g q).agreeOff ((c + D) % (D + 1)) (net q)) ∧
    ∀ q, (updatedBy32 exp net p 1 noise g q).getTimeBuffer ((c + D) % (D + 1)) =
      (fun x : K => x + n0.amplitude g)^[n0.deliveries q]
        ((net q).getTimeBuffer ((c + D) % (D + 1))) := by
  have hw : (c + D) % (D + 1) < D + 1 := Nat.mod_lt _ (by decide)
  have hcp : (net p).neuron_clock = c := hag.2.2.2.2.2.2.1.trans hc
  have hw32 : toUInt32 (((net p).neuron_clock : Int) + (D : Int)) % (D + 1) =
      (c + D) % (D + 1) := by rw [toUInt32_write_slot, hcp]
  have hsend := agreeOff_sends _ _ _ hag g
  have hok' : (net p).V_membrane > V_thr K → (net p).targetsValid := by
    intro hV
    unfold Neuron.targetsValid
    rw [hag.2.2.2.2.2.2.2.2.2.1]
    exact hok (hag.2.2.1 ▸ hV)
  have hclock : ((net p).fire32.deliver ((c + D) % (D + 1)) ((net p).amplitude g)
      ((net p).deliveries p)).neuron_clock = c := by
    rw [(deliver_fields _ _ _ _).2.2.2.2.2.1, (fire32_fields _).1, hcp]
  have hne : (c + D) % (D + 1) ≠ n0.fire32.neuron_clock % (D + 1) := by
    rw [(fire32_fields _).1, hc]
    exact write_slot_ne_read_slot c
  refine ⟨update32_eq_updatedBy32 exp net p 1 noise g hok', ?_, ?_, ?_⟩
  · rw [updatedBy32_self, hw32]
    exact agreeOff_updateTail32 exp _ _ _ 1 noise
      (agreeOff_trans _ _ _ _ (agreeOff_deliver _ _ _ _ hw) (agreeOff_fire32 _ _ _ hag)) hne
  · intro q hq
    rw [updatedBy32_other exp net p q 1 noise g hq, hw32]
    exact agreeOff_deliver _ _ _ _ hw
  · intro q
    by_cases hq : q = p
    · rw [hq, updatedBy32_self, hw32, updateTail32_writeSlot exp _ 1 noise _
        (by rw [hclock]; exact write_slot_ne_read_slot c),
        getTimeBuffer_deliver _ _ _ _ _ hw, if_pos rfl,
        getTimeBuffer_congr _ _ (fire32_fields _).2.2.2.2.1, (hsend p).1, (hsend p).2]
    · rw [updatedBy32_other exp net p q 1 noise g hq, hw32,
        getTimeBuffer_deliver _ _ _ _ _ hw, if_pos rfl, (hsend q).1, (hsend q).2]

/-- The updates of a step in closed form. The neurons of the list `l`, without
repetition, have the clock `c` at the start of the step, and no assertion fails. The
run of their updates returns: each neuron of the list is left as its own update
leaves it, the others are unchanged, except possibly in the slot
`w = (c + D) % (D + 1)`; and the slot `w` of every neuron has received the amplitudes
sent to it, one after the other in the order of the list. -/
theorem run32_closed (exp : K → K) (g : K) (noise : Nat → K) (c : Nat) (net0 : Network K) :
    ∀ (l : List Nat) (net : Network K), l.Nodup →
      (∀ p ∈ l, (net0 p).neuron_clock = c) →
      (∀ p ∈ l, (net p).agreeOff ((c + D) % (D + 1)) (net0 p)) →
      (∀ p ∈ l, (net0 p).V_membrane > V_thr K → (net0 p).targetsValid) →
      ∃ net', runUpdates32 exp g net (l.map fun p => (p, noise p)) = some net' ∧
        ∀ q,
          (net' q).agreeOff ((c + D) % (D + 1))
            (if q ∈ l then (net0 q).fire32.updateTail32 exp 1 (noise q) else net q) ∧
          (net' q).getTimeBuffer ((c + D) % (D + 1)) =
            (arrivals net0 g q l).foldl (fun x a => x + a)
              ((net q).getTimeBuffer ((c + D) % (D + 1))) := by
  intro l
  induction l with
  | nil =>
    intro net _ _ _ _
    refine ⟨net, rfl, fun q => ⟨?_, rfl⟩⟩
    rw [if_neg (List.not_mem_nil q)]
    exact agreeOff_refl _ _
  | cons p rest ih =>
    intro net hnd hclock hag hok
    obtain ⟨hp, hnd'⟩ := List.nodup_cons.mp hnd
    obtain ⟨hu, hself, hother, hslot⟩ := step32_closed exp g (noise p) c p (net0 p) net
      (hclock p (List.mem_cons_self _ _)) (hag p (List.mem_cons_self _ _))
      (hok p (List.mem_cons_self _ _))
    obtain ⟨net', hrun, hall⟩ := ih (updatedBy32 exp net p 1 (noise p) g) hnd'
      (fun q hq => hclock q (List.mem_cons_of_mem _ hq))
      (fun q hq => agreeOff_trans _ _ _ _
        (hother q (fun hqp => hp (hqp ▸ hq))) (hag q (List.mem_cons_of_mem _ hq)))
      (fun q hq => hok q (List.mem_cons_of_mem _ hq))
    refine ⟨net', ?_, ?_⟩
    · simp only [List.map_cons, runUpdates32, hu]
      exact hrun
    · intro q
      refine ⟨?_, ?_⟩
      · by_cases hq : q = p
        · have h1 := (hall p).1
          rw [if_neg hp] at h1
          rw [hq, if_pos (List.mem_cons_self _ _)]
          exact agreeOff_trans _ _ _ _ h1 hself
        · have h1 := (hall q).1
          by_cases hqr : q ∈ rest
          · rw [if_pos hqr] at h1
            rw [if_pos (List.mem_cons_of_mem _ hqr)]
            exact h1
          · rw [if_neg hqr] at h1
            rw [if_neg (fun hm => (List.mem_cons.mp hm).elim hq hqr)]
            exact agreeOff_trans _ _ _ _ h1 (hother q hq)
      · rw [(hall q).2, hslot q]
        unfold arrivals
        rw [List.flatMap_cons, List.foldl_append, foldl_replicate_add]

/-- A failed assertion in a step. When a neuron of the list is above the threshold and
has a null pointer in its target list, the run of the updates fails, wherever the
neuron stands in the list. -/
theorem run32_fails (exp : K → K) (g : K) (noise : Nat → K) (c : Nat) (net0 : Network K) :
    ∀ (l : List Nat) (net : Network K), l.Nodup →
      (∀ p ∈ l, (net0 p).neuron_clock = c) →
      (∀ p ∈ l, (net p).agreeOff ((c + D) % (D + 1)) (net0 p)) →
      (∃ p ∈ l, (net0 p).V_membrane > V_thr K ∧ ¬ (net0 p).targetsValid) →
      runUpdates32 exp g net (l.map fun p => (p, noise p)) = none := by
  intro l
  induction l with
  | nil =>
    intro net _ _ _ hbad
    obtain ⟨p, hp, -⟩ := hbad
    exact absurd hp (List.not_mem_nil p)
  | cons p rest ih =>
    intro net hnd hclock hag hbad
    obtain ⟨hp, hnd'⟩ := List.nodup_cons.mp hnd
    have hagp := hag p (List.mem_cons_self _ _)
    by_cases hb : (net0 p).V_membrane > V_thr K ∧ ¬ (net0 p).targetsValid
    · have hV : (net p).V_membrane > V_thr K := hagp.2.2.1 ▸ hb.1
      have hnv : ¬ (net p).targetsValid := by
        unfold Neuron.targetsValid
        rw [hagp.2.2.2.2.2.2.2.2.2.1]
        exact hb.2
      simp only [List.map_cons, runUpdates32, update32_fail exp net p 1 (noise p) g hV hnv]
    · have hok : (net0 p).V_membrane > V_thr K → (net0 p).targetsValid := by
        intro hV
        by_contra hnv
        exact hb ⟨hV, hnv⟩
      obtain ⟨hu, -, hother, -⟩ := step32_closed exp g (noise p) c p (net0 p) net
        (hclock p (List.mem_cons_self _ _)) hagp hok
      simp only [List.map_cons, runUpdates32, hu]
      refine ih (updatedBy32 exp net p 1 (noise p) g) hnd'
        (fun q hq => hclock q (List.mem_cons_of_mem _ hq))
        (fun q hq => agreeOff_trans _ _ _ _
          (hother q (fun hqp => hp (hqp ▸ hq))) (hag q (List.mem_cons_of_mem _ hq))) ?_
      obtain ⟨q, hq, hqb⟩ := hbad
      rcases List.mem_cons.mp hq with hqp | hqr
      · exact absurd (hqp ▸ hqb) hb
      · exact ⟨q, hqr, hqb⟩

/-- Two processing orders of the neurons of a step give the same outcome, except
possibly in the slot `(c + D) % (D + 1)` of the buffers. -/
theorem order_independence32 (exp : K → K) (g : K) (net : Network K) (noise : Nat → K)
    (c : Nat) (l1 l2 : List Nat)
    (hnd : l1.Nodup) (hperm : l1.Perm l2) (hclock : ∀ p ∈ l1, (net p).neuron_clock = c) :
    agreeOffResults ((c + D) % (D + 1))
      (runUpdates32 exp g net (l1.map fun p => (p, noise p)))
      (runUpdates32 exp g net (l2.map fun p => (p, noise p))) := by
  have hnd2 : l2.Nodup := hperm.nodup_iff.mp hnd
  have hclock2 : ∀ p ∈ l2, (net p).neuron_clock = c :=
    fun p hp => hclock p (hperm.mem_iff.mpr hp)
  by_cases hbad : ∃ p ∈ l1, (net p).V_membrane > V_thr K ∧ ¬ (net p).targetsValid
  · have hbad2 : ∃ p ∈ l2, (net p).V_membrane > V_thr K ∧ ¬ (net p).targetsValid := by
      obtain ⟨p, hp, hb⟩ := hbad
      exact ⟨p, hperm.mem_iff.mp hp, hb⟩
    rw [run32_fails exp g noise c net l1 net hnd hclock (fun p _ => agreeOff_refl _ _) hbad,
      run32_fails exp g noise c net l2 net hnd2 hclock2 (fun p _ => agreeOff_refl _ _) hbad2]
    trivial
  · have hok : ∀ p ∈ l1, (net p).V_membrane > V_thr K → (net p).targetsValid := by
      intro p hp hV
      by_contra hnv
      exact hbad ⟨p, hp, hV, hnv⟩
    obtain ⟨net1, hr1, h1⟩ := run32_closed exp g noise c net l1 net hnd hclock
      (fun p _ => agreeOff_refl _ _) hok
    obtain ⟨net2, hr2, h2⟩ := run32_closed exp g noise c net l2 net hnd2 hclock2
      (fun p _ => agreeOff_refl _ _) (fun p hp => hok p (hperm.mem_iff.mpr hp))
    rw [hr1, hr2]
    intro q
    have ha := (h1 q).1
    have hb := (h2 q).1
    by_cases hq : q ∈ l1
    · rw [if_pos hq] at ha
      rw [if_pos (hperm.mem_iff.mp hq)] at hb
      exact agreeOff_trans _ _ _ _ ha (agreeOff_symm _ _ _ hb)
    · rw [if_neg hq] at ha
      rw [if_neg (fun hm => hq (hperm.mem_iff.mpr hm))] at hb
      exact agreeOff_trans _ _ _ _ ha (agreeOff_symm _ _ _ hb)

/-- The slot `(c + D) % (D + 1)` after the updates of a step: when the run returns,
the slot of every neuron holds its old value to which the amplitudes sent to the
neuron have been added one after the other, in the processing order. -/
theorem written_slot32 (exp : K → K) (g : K) (net : Network K) (noise : Nat → K)
    (c : Nat) (l : List Nat) (hnd : l.Nodup) (hclock : ∀ p ∈ l, (net p).neuron_clock = c)
    (net' : Network K)
    (hrun : runUpdates32 exp g net (l.map fun p => (p, noise p)) = some net') (q : Nat) :
    (net' q).getTimeBuffer ((c + D) % (D + 1)) =
      (arrivals net g q l).foldl (fun x a => x + a)
        ((net q).getTimeBuffer ((c + D) % (D + 1))) := by
  by_cases hbad : ∃ p ∈ l, (net p).V_membrane > V_thr K ∧ ¬ (net p).targetsValid
  · rw [run32_fails exp g noise c net l net hnd hclock (fun p _ => agreeOff_refl _ _) hbad]
      at hrun
    exact Option.noConfusion hrun
  · have hok : ∀ p ∈ l, (net p).V_membrane > V_thr K → (net p).targetsValid := by
      intro p hp hV
      by_contra hnv
      exact hbad ⟨p, hp, hV, hnv⟩
    obtain ⟨net1, hr1, h1⟩ := run32_closed exp g noise c net l net hnd hclock
      (fun p _ => agreeOff_refl _ _) hok
    rw [hr1] at hrun
    rw [← Option.some.inj hrun]
    exact (h1 q).2

/-- C7 as amended. Order independence of a step, up to the slot written during the
step. In a network state in which the neurons of a list `l1` without repetition all
have the same local clock `c`, performing `update(1, noise p, g)` once on each neuron
`p` of the list gives, for every processing order `l2` of these neurons, a failed
assertion in both orders or the same network state (potentials, clocks, spike
bookkeeping, target lists, counters and buffers of all neurons) except possibly in
the slot `(c + D) mod (D+1)` of the buffers. This slot receives the same amplitudes
in both orders, but added one after the other in the processing order: it holds its
old value to which the amplitudes of `arrivals` have been added from left to right,
and the two lists of amplitudes are permutations of each other. In particular
updating two distinct neurons `i` then `j` gives the same as updating `j` then `i`,
except possibly in that slot. -/
theorem C7_order_independence (exp : K → K) (g : K) (net : Network K) (noise : Nat → K)
    (c : Nat) (l1 l2 : List Nat)
    (hnd : l1.Nodup) (hperm : l1.Perm l2) (hclock : ∀ p ∈ l1, (net p).neuron_clock = c) :
    agreeOffResults ((c + D) % (D + 1))
      (runUpdates32 exp g net (l1.map fun p => (p, noise p)))
      (runUpdates32 exp g net (l2.map fun p => (p, noise p))) ∧
    (∀ q, (arrivals net g q l1).Perm (arrivals net g q l2)) ∧
    (∀ net1, runUpdates32 exp g net (l1.map fun p => (p, noise p)) = some net1 →
      ∀ q, (net1 q).getTimeBuffer ((c + D) % (D + 1)) =
        (arrivals net g q l1).foldl (fun x a => x + a)
          ((net q).getTimeBuffer ((c + D) % (D + 1)))) ∧
    (∀ net2, runUpdates32 exp g net (l2.map fun p => (p, noise p)) = some net2 →
      ∀ q, (net2 q).getTimeBuffer ((c + D) % (D + 1)) =
        (arrivals net g q l2).foldl (fun x a => x + a)
          ((net q).getTimeBuffer ((c + D) % (D + 1)))) ∧
    ∀ i j : Nat, i ∈ l1 → j ∈ l1 → i ≠ j →
      agreeOffResults ((c + D) % (D + 1))
        (runUpdates32 exp g net [(i, noise i), (j, noise j)])
        (runUpdates32 exp g net [(j, noise j), (i, noise i)]) := by
  refine ⟨order_independence32 exp g net noise c l1 l2 hnd hperm hclock,
    fun q => hperm.flatMap_right _,
    fun net1 hr => written_slot32 exp g net noise c l1 hnd hclock net1 hr,
    fun net2 hr => written_slot32 exp g net noise c l2 (hperm.nodup_iff.mp hnd)
      (fun p hp => hclock p (hperm.mem_iff.mpr hp)) net2 hr, ?_⟩
  intro i j hi hj hij
  refine order_independence32 exp g net noise c [i, j] [j, i] ?_ (List.Perm.swap j i [])
    ?_
  · simp [hij]
  · intro p hp
    rcases List.mem_cons.mp hp with h1 | h2
    · exact h1 ▸ hclock i hi
    · rw [List.mem_singleton.mp h2]
      exact hclock j hj

end Generic

/-! # Part 2: exact arithmetic

The theorems of this part are proved for an ordered field, that is with the exact
arithmetic that `double` approximates. Those about `update` and `runUpdates` are about
the integers without bound: they are theorems about the program while the clock is
below `2^31` and the spike count below `2^32 - 1`, where `update32` and `update` agree
(`update32_eq_update`). -/

section Exact

variable {K : Type} [LinearOrderedField K]

/-! ## Buffer accessors -/

theorem updateTail_getTimeBuffer (exp : K → K) (n : Neuron K) (dt : Int) (noise : K)
    (j : Nat) :
    (n.updateTail exp dt noise).getTimeBuffer j =
      if j = n.neuron_clock % (D + 1) then 0 else n.getTimeBuffer j := by
  have h3 : (0.0 : K) = 0 := by norm_num
  rw [updateTail_readSlot, h3]

theorem addTimeBuffer_zero (n : Neuron K) (i : Nat) : n.addTimeBuffer i 0 = n := by
  unfold Neuron.addTimeBuffer
  split <;> simp

theorem addTimeBuffer_add (n : Neuron K) (i : Nat) (a b : K) :
    (n.addTimeBuffer i a).addTimeBuffer i b = n.addTimeBuffer i (a + b) := by
  unfold Neuron.addTimeBuffer
  split <;> simp [add_assoc]

/-! ## `updateTargets` -/

theorem foldlM_updateTargetsStep (self : Nat) (g : K) (ts : List (Option Nat)) :
    ∀ net : Network K, (∀ t ∈ ts, t ≠ none) →
      List.foldlM (updateTargetsStep self g) net ts =
        some (fun q => (net q).addTimeBuffer (((net self).neuron_clock + D) % (D + 1))
          ((ts.count (some q) : K) * (net self).amplitude g)) := by
  induction ts with
  | nil =>
    intro net _
    simp [addTimeBuffer_zero]
  | cons t ts ih =>
    intro net hv
    obtain ⟨p, rfl⟩ : ∃ p, t = some p := by
      cases t with
      | none => exact absurd rfl (hv none (List.mem_cons_self _ _))
      | some p => exact ⟨p, rfl⟩
    have hlt : ((net self).neuron_clock + D) % (D + 1) < D + 1 := Nat.mod_lt _ (by decide)
    have hstep : updateTargetsStep self g net (some p) =
        some (Function.update net p
          ((net p).addTimeBuffer (((net self).neuron_clock + D) % (D + 1))
            ((net self).amplitude g))) := by
      unfold updateTargetsStep Neuron.amplitude
      simp only [hlt, if_true]
      split <;> rfl
    rw [List.foldlM_cons, hstep]
    show List.foldlM (updateTargetsStep self g) _ ts = _
    rw [ih _ (fun t ht => hv t (List.mem_cons_of_mem _ ht))]
    have hself : ∀ (a : K) (i : Nat),
        (Function.update net p ((net p).addTimeBuffer i a) self).neuron_clock =
          (net self).neuron_clock ∧
        (Function.update net p ((net p).addTimeBuffer i a) self).amplitude g =
          (net self).amplitude g := by
      intro a i
      by_cases hps : self = p
      · subst hps; simp [Neuron.amplitude]
      · simp [Function.update_noteq hps]
    congr 1
    funext q
    rw [(hself _ _).1, (hself _ _).2]
    by_cases hq : q = p
    · subst hq
      simp only [Function.update_same, addTimeBuffer_add, List.count_cons_self]
      congr 1
      push_cast
      ring
    · have : (some p == some q) = false := by
        simp [Ne.symm hq]
      simp [Function.update_noteq hq, List.count_cons, this]

theorem updateTargets_eq (net : Network K) (self : Nat) (g : K)
    (hv : (net self).targetsValid) :
    updateTargets net self g =
      some (fun q => (net q).addTimeBuffer (((net self).neuron_clock + D) % (D + 1))
        (((net self).n_target.count (some q) : K) * (net self).amplitude g)) :=
  foldlM_updateTargetsStep self g _ net hv

/-! ## `update` in closed form -/

theorem update_of_crossed (exp : K → K) (net : Network K) (self : Nat) (dt : Int)
    (noise g : K) (hV : (net self).V_membrane > V_thr K) (hv : (net self).targetsValid) :
    update exp net self dt noise g =
      some (Function.update (spikeNet net self g) self
        ((spikeNet net self g self).updateTail exp dt noise)) := by
  rw [update_eq_map, if_pos hV, updateTargets_eq _ _ _ (by
    simpa [Neuron.targetsValid, Neuron.updateNeuronState] using hv)]
  simp only [Option.map_some', Function.update_same, spikeNet, Neuron.updateNeuronState,
    Neuron.amplitude]
  rfl

/-! ## What `update` does to each member -/

theorem h_pos : (0 : K) < h K := by
  unfold h; norm_num

theorem spikeNet_self (net : Network K) (self : Nat) (g : K) :
    (spikeNet net self g self).excitatory_neuron = (net self).excitatory_neuron ∧
    (spikeNet net self g self).V_membrane = (net self).V_membrane ∧
    (spikeNet net self g self).nb_spikes = (net self).nb_spikes + 1 ∧
    (spikeNet net self g self).t_spike = ((net self).neuron_clock : K) * h K ∧
    (spikeNet net self g self).spike = true ∧
    (spikeNet net self g self).neuron_clock = (net self).neuron_clock ∧
    (spikeNet net self g self).external_input = (net self).external_input ∧
    (spikeNet net self g self).r_period = true ∧
    (spikeNet net self g self).n_target = (net self).n_target ∧
    (spikeNet net self g self).nb_excitatory_connections =
      (net self).nb_excitatory_connections ∧
    (spikeNet net self g self).nb_inhibitory_connections =
      (net self).nb_inhibitory_connections := by
  simp [spikeNet, Neuron.updateNeuronState]

theorem spikeNet_getTimeBuffer (net : Network K) (p q : Nat) (g : K) (j : Nat) :
    (spikeNet net p g q).getTimeBuffer j =
      if j = ((net p).neuron_clock + D) % (D + 1) then
        (net q).getTimeBuffer j + ((net p).n_target.count (some q) : K) * (net p).amplitude g
      else (net q).getTimeBuffer j := by
  have hlt : ((net p).neuron_clock + D) % (D + 1) < D + 1 := Nat.mod_lt _ (by decide)
  unfold spikeNet
  rw [getTimeBuffer_addTimeBuffer _ _ _ _ hlt]
  by_cases hq : q = p
  · subst hq
    simp [Neuron.getTimeBuffer, Neuron.updateNeuronState]
  · simp [Function.update_noteq hq]

theorem spikeNet_other (net : Network K) (p q : Nat) (g : K) (hq : q ≠ p) :
    spikeNet net p g q =
      (net q).addTimeBuffer (((net p).neuron_clock + D) % (D + 1))
        (((net p).n_target.count (some q) : K) * (net p).amplitude g) := by
  simp [spikeNet, Function.update_noteq hq]

theorem spikeNet_self_holds (net : Network K) (self : Nat) (g : K) :
    (spikeNet net self g self).holds := by
  have hs := spikeNet_self net self g
  unfold Neuron.holds
  rw [hs.2.2.2.2.2.1, hs.2.2.2.1, hs.2.2.2.2.2.2.2.1]
  refine ⟨rfl, ?_⟩
  rw [mul_div_assoc, div_self (ne_of_gt h_pos), mul_one, sub_self]
  simp [tau_rp]

/-- C1. A neuron that is not refractory (the refractory test of `update` fails, in
particular when the flag `r_period_` is false) and whose potential is not above
`V_thr` is integrated by `update`, for every `dt`, `noise` and `g`: the call returns,
and the new potential is `const1*V_old + const2*externalInput + b + noise`, with `b`
the content of the slot `neuron_clock mod (D+1)` before the call,
`const1 = exp(-1/tau)` and `const2 = R*(1 - const1)`. -/
theorem C1_update_membrane_equation (exp : K → K) (net : Network K) (self : Nat)
    (dt : Int) (noise g : K)
    (hr : (net self).r_period = false ∨ ¬ (net self).holds)
    (hV : (net self).V_membrane ≤ V_thr K) :
    ∃ net', update exp net self dt noise g = some net' ∧
      (net' self).V_membrane =
        exp (-1 / (tau : K)) * (net self).V_membrane
          + R K * (1 - exp (-1 / (tau : K))) * (net self).external_input
          + (net self).getTimeBuffer ((net self).neuron_clock % (D + 1)) + noise ∧
      const1 exp = exp (-1 / (tau : K)) ∧ const2 exp = R K * (1 - exp (-1 / (tau : K))) := by
  have hc1 : const1 exp = exp (-1 / (tau : K)) := by
    unfold const1
    congr 1
    have hh : h K ≠ 0 := ne_of_gt h_pos
    have ht : (tau : K) ≠ 0 := by simp [tau]
    field_simp
    ring
  have hc2 : const2 exp = R K * (1 - exp (-1 / (tau : K))) := by
    unfold const2; rw [hc1]
  refine ⟨_, update_of_not_crossed exp net self dt noise g (not_lt.mpr hV), ?_, hc1, hc2⟩
  rw [Function.update_same]
  have hn : ¬ ({ net self with spike := false } : Neuron K).holds := by
    rcases hr with hr | hr
    · unfold Neuron.holds
      simp [hr]
    · exact hr
  rw [(updateTail_V_of_not_holds exp _ dt noise hn).1, hc1, hc2]
  rfl

/-- A witness of C1: a freshly constructed neuron, on the reals with the real
exponential. -/
theorem C1_witness :
    ∃ net', update Real.exp (oneNeuronNet 0 0 (1.01 : ℝ)) 0 1 0 5 = some net' ∧
      (net' 0).V_membrane =
        Real.exp (-1 / (tau : ℝ)) * (oneNeuronNet 0 0 (1.01 : ℝ) 0).V_membrane
          + R ℝ * (1 - Real.exp (-1 / (tau : ℝ))) *
              (oneNeuronNet 0 0 (1.01 : ℝ) 0).external_input
          + (oneNeuronNet 0 0 (1.01 : ℝ) 0).getTimeBuffer
              ((oneNeuronNet 0 0 (1.01 : ℝ) 0).neuron_clock % (D + 1)) + 0 ∧
      const1 Real.exp = Real.exp (-1 / (tau : ℝ)) ∧
      const2 Real.exp = R ℝ * (1 - Real.exp (-1 / (tau : ℝ))) :=
  C1_update_membrane_equation Real.exp (oneNeuronNet 0 0 (1.01 : ℝ)) 0 1 0 5 (Or.inl rfl)
    (by norm_num [oneNeuronNet, Neuron.setExternalInput, Neuron.fresh, V_thr])

/-! ## Frame of `update` and runs of updates -/

theorem update_some (exp : K → K) (net : Network K) (p : Nat) (dt : Int) (noise g : K)
    (hv : (net p).targetsValid) :
    ∃ net', update exp net p dt noise g = some net' ∧
      (∀ q, q ≠ p → net' q =
        (net q).addTimeBuffer (((net p).neuron_clock + D) % (D + 1))
          (if (net p).V_membrane > V_thr K then
            ((net p).n_target.count (some q) : K) * (net p).amplitude g else 0)) ∧
      (net' p =
        if (net p).V_membrane > V_thr K then
          (spikeNet net p g p).updateTail exp dt noise
        else ({ net p with spike := false } : Neuron K).updateTail exp dt noise) := by
  by_cases hV : (net p).V_membrane > V_thr K
  · refine ⟨_, update_of_crossed exp net p dt noise g hV hv, ?_, ?_⟩
    · intro q hq
      rw [Function.update_noteq hq, spikeNet_other net p q g hq, if_pos hV]
    · rw [Function.update_same, if_pos hV]
  · refine ⟨_, update_of_not_crossed exp net p dt noise g hV, ?_, ?_⟩
    · intro q hq
      rw [Function.update_noteq hq, if_neg hV, addTimeBuffer_zero]
    · rw [Function.update_same, if_neg hV]

theorem update_n_target (exp : K → K) (net net' : Network K) (p : Nat) (dt : Int)
    (noise g : K) (hu : update exp net p dt noise g = some net') (q : Nat) :
    (net' q).n_target = (net q).n_target := by
  by_cases hV : (net p).V_membrane > V_thr K
  · have hv : (net p).targetsValid := by
      by_contra hv
      rw [update_eq_map, if_pos hV] at hu
      unfold Neuron.targetsValid at hv
      push_neg at hv
      obtain ⟨t, ht, htn⟩ := hv
      subst htn
      have : ∀ (ts : List (Option Nat)) (n : Network K), none ∈ ts →
          List.foldlM (updateTargetsStep p g) n ts = none := by
        intro ts
        induction ts with
        | nil => intro n hm; simp at hm
        | cons t ts ih =>
          intro n hm
          rw [List.foldlM_cons]
          cases t with
          | none => rfl
          | some x =>
            have hm' : none ∈ ts := by simpa using hm
            cases hstep : updateTargetsStep p g n (some x) with
            | none => rfl
            | some n' => exact ih n' hm'
      unfold updateTargets at hu
      rw [this _ _ (by simpa [Neuron.updateNeuronState] using ht)] at hu
      simp at hu
    obtain ⟨n', h1, h2, h3⟩ := update_some exp net p dt noise g hv
    rw [hu] at h1
    cases h1
    by_cases hq : q = p
    · subst hq
      rw [h3, if_pos hV, (updateTail_fields exp _ dt noise).2.2.2.2.2.2.1,
        (spikeNet_self net q g).2.2.2.2.2.2.2.2.1]
    · rw [h2 q hq]; simp
  · rw [update_of_not_crossed exp net p dt noise g hV] at hu
    cases hu
    by_cases hq : q = p
    · subst hq
      rw [Function.update_same, (updateTail_fields exp _ dt noise).2.2.2.2.2.2.1]
    · rw [Function.update_noteq hq]

theorem updatesOf_cons (self p : Nat) (noise : K) (rest : List (Nat × K)) :
    updatesOf self ((p, noise) :: rest) =
      updatesOf self rest + if p = self then 1 else 0 := by
  unfold updatesOf
  rw [List.countP_cons]
  simp

theorem tau_rp_gt_iff (c k : Nat) :
    ((tau_rp : K) > ((c + k : Nat) : K) - ((c : K) * h K) / h K) ↔ k < tau_rp := by
  rw [mul_div_assoc, div_self (ne_of_gt h_pos), mul_one]
  push_cast
  rw [add_sub_cancel_left]
  exact Nat.cast_lt

/-- While fewer than `tau_rp` updates of a neuron that spiked at clock `c` have been
made, every run of updates of the network leaves it refractory at potential
`V_refractory`, whatever the noise and the spikes it receives. -/
theorem runUpdates_refractory (exp : K → K) (g : K) (self c : Nat) (ext : K) :
    ∀ (sched : List (Nat × K)) (net : Network K) (k : Nat),
      (∀ p, (net p).targetsValid) →
      (net self).r_period = true → (net self).t_spike = (c : K) * h K →
      (net self).V_membrane = V_refractory K → (net self).neuron_clock = c + 1 + k →
      (net self).external_input = ext →
      k + updatesOf self sched < tau_rp →
      ∃ net', runUpdates exp g net sched = some net' ∧
        (∀ p, (net' p).targetsValid) ∧
        (net' self).r_period = true ∧ (net' self).t_spike = (c : K) * h K ∧
        (net' self).V_membrane = V_refractory K ∧
        (net' self).neuron_clock = c + 1 + (k + updatesOf self sched) ∧
        (net' self).external_input = ext := by
  intro sched
  induction sched with
  | nil =>
    intro net k hv hr ht hV hc he _
    exact ⟨net, rfl, hv, hr, ht, hV, by simpa [updatesOf] using hc, he⟩
  | cons e rest ih =>
    obtain ⟨p, noise⟩ := e
    intro net k hv hr ht hV hc he hk
    rw [updatesOf_cons] at hk ⊢
    obtain ⟨net1, hu, hother, hself⟩ := update_some exp net p 1 noise g (hv p)
    have hv1 : ∀ q, (net1 q).targetsValid := by
      intro q
      unfold Neuron.targetsValid
      rw [update_n_target exp net net1 p 1 noise g hu q]
      exact hv q
    have hrun : runUpdates exp g net ((p, noise) :: rest) = runUpdates exp g net1 rest := by
      simp only [runUpdates, hu]
    rw [hrun]
    by_cases hp : p = self
    · subst hp
      rw [if_pos rfl] at hk ⊢
      have hnc : ¬ (net p).V_membrane > V_thr K := by
        rw [hV]; unfold V_refractory V_thr; norm_num
      rw [if_neg hnc] at hself
      have hholds : ({ net p with spike := false } : Neuron K).holds := by
        unfold Neuron.holds
        refine ⟨hr, ?_⟩
        show (tau_rp : K) > ((net p).neuron_clock : K) - (net p).t_spike / h K
        rw [hc, ht, add_assoc]
        exact (tau_rp_gt_iff c (1 + k)).mpr (by omega)
      have hf := updateTail_fields exp ({ net p with spike := false } : Neuron K) 1 noise
      have hh := updateTail_V_of_holds exp _ 1 noise hholds
      rw [← hself] at hf hh
      obtain ⟨net', hr', hv', h1, h2, h3, h4, h5⟩ :=
        ih net1 (k + 1) hv1 hh.2 (by rw [hf.2.2.1]; exact ht) hh.1
          (by rw [hf.2.2.2.2.1]; show Int.toNat (((net p).neuron_clock : Int) + 1) = _
              rw [hc]; omega)
          (by rw [hf.2.2.2.2.2.1]; exact he) (by omega)
      refine ⟨net', hr', hv', h1, h2, h3, ?_, h5⟩
      rw [h4]; omega
    · have hsp : self ≠ p := fun hc => hp hc.symm
      rw [if_neg hp] at hk ⊢
      have hs := hother self hsp
      have hfs := addTimeBuffer_fields (net self)
        (((net p).neuron_clock + D) % (D + 1))
        (if (net p).V_membrane > V_thr K then
          ((net p).n_target.count (some self) : K) * (net p).amplitude g else 0)
      rw [← hs] at hfs
      exact ih net1 k hv1 (by rw [hfs.2.2.2.2.2.2.2.1]; exact hr)
        (by rw [hfs.2.2.2.1]; exact ht) (by rw [hfs.2.1]; exact hV)
        (by rw [hfs.2.2.2.2.2.1]; exact hc) (by rw [hfs.2.2.2.2.2.2.1]; exact he) hk

/-- C8. For every clock value `t` the slot written by a spike at clock `t`,
`(t + D) mod (D+1)`, differs from the slot read at clock `t`, `t mod (D+1)`, and
`D = 15 > 0`; hence an update of a neuron `p` at clock `t` leaves unchanged the
value that any other neuron reads in an update at the same clock value `t`. -/
theorem C8_write_read_separation (exp : K → K) (net : Network K) (p q : Nat)
    (dt : Int) (noise g : K) (t : Nat)
    (hv : (net p).targetsValid) (hc : (net p).neuron_clock = t) (hq : q ≠ p) :
    (t + D) % (D + 1) ≠ t % (D + 1) ∧ D = 15 ∧ 0 < D ∧
    ∃ net', update exp net p dt noise g = some net' ∧
      (net' q).getTimeBuffer (t % (D + 1)) = (net q).getTimeBuffer (t % (D + 1)) := by
  refine ⟨write_slot_ne_read_slot t, rfl, by decide, ?_⟩
  obtain ⟨net', hu, hother, -⟩ := update_some exp net p dt noise g hv
  refine ⟨net', hu, ?_⟩
  rw [hother q hq, hc, getTimeBuffer_addTimeBuffer _ _ _ _ (Nat.mod_lt _ (by decide)),
    if_neg (Ne.symm (write_slot_ne_read_slot t))]

/-- A witness of C8: the neuron at address 0 spikes at clock 0 with the neuron at
address 1 as its target. -/
theorem C8_witness :
    (0 + D) % (D + 1) ≠ 0 % (D + 1) ∧ D = 15 ∧ 0 < D ∧
    ∃ net', update expQ (spikingNet true [some 1]) 0 1 0 5 = some net' ∧
      (net' 1).getTimeBuffer (0 % (D + 1)) =
        (spikingNet true [some 1] 1).getTimeBuffer (0 % (D + 1)) :=
  C8_write_read_separation expQ (spikingNet true [some 1]) 0 1 1 0 5 0
    (by simp [Neuron.targetsValid, spikingNet]) rfl (by decide)

/-! ## The two-neuron scenario -/

theorem runUpdates_append (exp : K → K) (g : K) (l1 l2 : List (Nat × K)) :
    ∀ net : Network K, runUpdates exp g net (l1 ++ l2) =
      (runUpdates exp g net l1).bind fun net' => runUpdates exp g net' l2 := by
  induction l1 with
  | nil => intro net; rfl
  | cons e rest ih =>
    obtain ⟨p, noise⟩ := e
    intro net
    simp only [List.cons_append, runUpdates]
    cases update exp net p 1 noise g with
    | none => rfl
    | some net' => exact ih net'

theorem tail_integrate (exp : K → K) (n : Neuron K) (noise : K)
    (hr : n.r_period = false) :
    (({ n with spike := false } : Neuron K).updateTail exp 1 noise).V_membrane =
      const1 exp * n.V_membrane + const2 exp * n.external_input +
        n.getTimeBuffer (n.neuron_clock % (D + 1)) + noise ∧
    (({ n with spike := false } : Neuron K).updateTail exp 1 noise).r_period = false ∧
    (({ n with spike := false } : Neuron K).updateTail exp 1 noise).neuron_clock =
      n.neuron_clock + 1 ∧
    (({ n with spike := false } : Neuron K).updateTail exp 1 noise).external_input =
      n.external_input ∧
    (∀ j, (({ n with spike := false } : Neuron K).updateTail exp 1 noise).getTimeBuffer j =
      if j = n.neuron_clock % (D + 1) then 0 else n.getTimeBuffer j) := by
  have hn : ¬ ({ n with spike := false } : Neuron K).holds := by
    unfold Neuron.holds; simp [hr]
  have hf := updateTail_fields exp ({ n with spike := false } : Neuron K) 1 noise
  have hV := updateTail_V_of_not_holds exp _ 1 noise hn
  refine ⟨hV.1, hV.2, ?_, hf.2.2.2.2.2.1, ?_⟩
  · rw [hf.2.2.2.2.1]
    show Int.toNat ((n.neuron_clock : Int) + 1) = _
    omega
  · intro j
    rw [updateTail_getTimeBuffer]
    rfl

theorem tail_hold (exp : K → K) (n : Neuron K) (noise : K) (c k : Nat)
    (hr : n.r_period = true) (ht : n.t_spike = (c : K) * h K)
    (hc : n.neuron_clock = c + k) (hk : k < tau_rp) :
    (({ n with spike := false } : Neuron K).updateTail exp 1 noise).V_membrane =
      V_refractory K ∧
    (({ n with spike := false } : Neuron K).updateTail exp 1 noise).r_period = true ∧
    (({ n with spike := false } : Neuron K).updateTail exp 1 noise).neuron_clock =
      n.neuron_clock + 1 ∧
    (({ n with spike := false } : Neuron K).updateTail exp 1 noise).t_spike = n.t_spike := by
  have hn : ({ n with spike := false } : Neuron K).holds := by
    unfold Neuron.holds
    refine ⟨hr, ?_⟩
    show (tau_rp : K) > (n.neuron_clock : K) - n.t_spike / h K
    rw [hc, ht]
    exact (tau_rp_gt_iff c k).mpr hk
  have hf := updateTail_fields exp ({ n with spike := false } : Neuron K) 1 noise
  have hV := updateTail_V_of_holds exp _ 1 noise hn
  refine ⟨hV.1, hV.2, ?_, hf.2.2.1⟩
  rw [hf.2.2.2.2.1]
  show Int.toNat ((n.neuron_clock : Int) + 1) = _
  omega

theorem V_refractory_le_V_thr : ¬ V_refractory K > V_thr K := by
  unfold V_refractory V_thr; norm_num

theorem runUpdates_pair (exp : K → K) (g : K) (net : Network K) (p q : Nat)
    (n1 n2 : K) :
    runUpdates exp g net [(p, n1), (q, n2)] =
      (update exp net p 1 n1 g).bind fun net' => update exp net' q 1 n2 g := by
  simp only [runUpdates]
  cases update exp net p 1 n1 g with
  | none => rfl
  | some net' =>
    simp only [Option.some_bind]
    cases update exp net' q 1 n2 g <;> rfl

theorem zero_le_V_thr : ¬ (0 : K) > V_thr K := by
  unfold V_thr; norm_num

theorem delay_step (exp : K → K) (g : K) (S T t : Nat) (a : K) (k : Nat)
    (net : Network K) (hST : S ≠ T) (hkD : k ≤ D)
    (hinv : delayInv S T t a k net) :
    ∃ net', runUpdates exp g net [(S, 0.0), (T, 0.0)] = some net' ∧
      delayInv S T t a (k + 1) net' := by
  obtain ⟨hSr, hSt, hSV, hSc, hTc, hTe, hTr, hTV, hTb⟩ := hinv
  have hTS : T ≠ S := fun hc => hST hc.symm
  have hSnc : ¬ (net S).V_membrane > V_thr K := by
    rw [hSV]; exact V_refractory_le_V_thr
  have hu1 := update_of_not_crossed exp net S 1 0.0 g hSnc
  have hT1 : Function.update net S
      (({ net S with spike := false } : Neuron K).updateTail exp 1 0.0) T = net T :=
    Function.update_noteq hTS _ _
  have hTnc : ¬ (Function.update net S
      (({ net S with spike := false } : Neuron K).updateTail exp 1 0.0) T).V_membrane
        > V_thr K := by
    rw [hT1, hTV, if_pos hkD]; exact zero_le_V_thr
  have hu2 := update_of_not_crossed exp _ T 1 0.0 g hTnc
  refine ⟨_, (runUpdates_pair exp g net S T 0.0 0.0).trans (by rw [hu1]; exact hu2), ?_⟩
  have hS2 := tail_hold exp (net S) 0.0 t k hSr hSt hSc (by unfold tau_rp; unfold D at hkD; omega)
  have hT2 := tail_integrate exp (net T) 0.0 hTr
  unfold delayInv
  rw [Function.update_noteq hST, Function.update_same, Function.update_same, hT1]
  refine ⟨hS2.2.1, by rw [hS2.2.2.2, hSt], hS2.1, by rw [hS2.2.2.1, hSc]; omega,
    by rw [hT2.2.2.1, hTc]; omega, by rw [hT2.2.2.2.1, hTe], hT2.2.1, ?_, ?_⟩
  · rw [hT2.1, hTV, if_pos hkD, hTe, hTb, hTc]
    have h0 : (0.0 : K) = 0 := by norm_num
    rw [h0, mul_zero, mul_zero, zero_add, zero_add, add_zero]
    by_cases hk : k = D
    · subst hk
      rw [if_pos ⟨rfl, le_refl _⟩, if_neg (by omega)]
    · have hne : (t + k) % (D + 1) ≠ (t + D) % (D + 1) := by
        unfold D at hkD hk ⊢; omega
      rw [if_neg (fun hc => hne hc.1), if_pos (by omega)]
  · intro j
    rw [hT2.2.2.2.2 j, hTb, hTc]
    by_cases hj : j = (t + k) % (D + 1)
    · rw [if_pos hj, if_neg]
      rintro ⟨hj2, hk2⟩
      rw [hj] at hj2
      unfold D at hkD hj2 hk2; omega
    · rw [if_neg hj]
      by_cases hj2 : j = (t + D) % (D + 1)
      · have hk : k ≠ D := by
          intro hk; subst hk; exact hj hj2
        have e1 : (j = (t + D) % (D + 1) ∧ k ≤ D) := ⟨hj2, hkD⟩
        have e2 : (j = (t + D) % (D + 1) ∧ k + 1 ≤ D) := ⟨hj2, by omega⟩
        rw [if_pos e1, if_pos e2]
      · rw [if_neg (fun hc => hj2 hc.1), if_neg (fun hc => hj2 hc.1)]

theorem delay_first_step (exp : K → K) (g : K) (S T t : Nat) (net : Network K)
    (hST : S ≠ T) (hSn : (net S).n_target = [some T])
    (hSc : (net S).neuron_clock = t) (hTc : (net T).neuron_clock = t)
    (hSV : (net S).V_membrane > V_thr K)
    (hTe : (net T).external_input = 0) (hTV : (net T).V_membrane = 0)
    (hTb : ∀ i, (net T).t_buffer i = 0) (hTr : (net T).r_period = false) :
    ∃ net', runUpdates exp g net [(S, 0.0), (T, 0.0)] = some net' ∧
      delayInv S T t ((net S).amplitude g) 1 net' := by
  have hTS : T ≠ S := fun hc => hST hc.symm
  have hv : (net S).targetsValid := by
    unfold Neuron.targetsValid; rw [hSn]; simp
  have hu1 := update_of_crossed exp net S 1 0.0 g hSV hv
  have hcount : (((net S).n_target.count (some T) : Nat) : K) = 1 := by
    rw [hSn]; simp
  have hT1 : Function.update (spikeNet net S g) S
      ((spikeNet net S g S).updateTail exp 1 0.0) T =
        (net T).addTimeBuffer ((t + D) % (D + 1)) ((net S).amplitude g) := by
    rw [Function.update_noteq hTS, spikeNet_other net S T g hTS, hcount, one_mul, hSc]
  have hlt : (t + D) % (D + 1) < D + 1 := Nat.mod_lt _ (by decide)
  have hTf := addTimeBuffer_fields (net T) ((t + D) % (D + 1)) ((net S).amplitude g)
  have hTnc : ¬ (Function.update (spikeNet net S g) S
      ((spikeNet net S g S).updateTail exp 1 0.0) T).V_membrane > V_thr K := by
    rw [hT1, hTf.2.1, hTV]; exact zero_le_V_thr
  have hu2 := update_of_not_crossed exp _ T 1 0.0 g hTnc
  refine ⟨_, (runUpdates_pair exp g net S T 0.0 0.0).trans (by rw [hu1]; exact hu2), ?_⟩
  have hs := spikeNet_self net S g
  have hf := updateTail_fields exp (spikeNet net S g S) 1 0.0
  have hh := updateTail_V_of_holds exp _ 1 0.0 (spikeNet_self_holds net S g)
  have hT2 := tail_integrate exp
    ((net T).addTimeBuffer ((t + D) % (D + 1)) ((net S).amplitude g)) 0.0
    (by rw [hTf.2.2.2.2.2.2.2.1, hTr])
  have hget : ∀ j, ((net T).addTimeBuffer ((t + D) % (D + 1))
      ((net S).amplitude g)).getTimeBuffer j =
        if j = (t + D) % (D + 1) then (net S).amplitude g else 0 := by
    intro j
    have hz : (net T).getTimeBuffer j = 0 := by
      unfold Neuron.getTimeBuffer; split
      · exact hTb _
      · rfl
    rw [getTimeBuffer_addTimeBuffer _ _ _ _ hlt, hz, zero_add]
  unfold delayInv
  rw [Function.update_noteq hST, Function.update_same, Function.update_same, hT1]
  refine ⟨hh.2, by rw [hf.2.2.1, hs.2.2.2.1, hSc], hh.1,
    by rw [hf.2.2.2.2.1, hs.2.2.2.2.2.1, hSc]; omega,
    by rw [hT2.2.2.1, hTf.2.2.2.2.2.1, hTc], by rw [hT2.2.2.2.1, hTf.2.2.2.2.2.2.1, hTe],
    hT2.2.1, ?_, ?_⟩
  · rw [hT2.1, hTf.2.1, hTf.2.2.2.2.2.2.1, hTf.2.2.2.2.2.1, hTV, hTe, hget, hTc,
      if_neg (Ne.symm (write_slot_ne_read_slot t)), if_pos (by decide)]
    norm_num
  · intro j
    rw [hT2.2.2.2.2 j, hTf.2.2.2.2.2.1, hTc, hget]
    by_cases hj : j = t % (D + 1)
    · rw [if_pos hj, if_neg]
      rintro ⟨hj2, -⟩
      rw [hj] at hj2
      exact write_slot_ne_read_slot t hj2.symm
    · rw [if_neg hj]
      by_cases hj2 : j = (t + D) % (D + 1)
      · rw [if_pos hj2, if_pos ⟨hj2, by decide⟩]
      · rw [if_neg hj2, if_neg (fun hc => hj2 hc.1)]

theorem delay_run (exp : K → K) (g : K) (S T t : Nat) (net : Network K)
    (hST : S ≠ T) (hSn : (net S).n_target = [some T])
    (hSc : (net S).neuron_clock = t) (hTc : (net T).neuron_clock = t)
    (hSV : (net S).V_membrane > V_thr K)
    (hTe : (net T).external_input = 0) (hTV : (net T).V_membrane = 0)
    (hTb : ∀ i, (net T).t_buffer i = 0) (hTr : (net T).r_period = false) :
    ∀ m : Nat, m ≤ D →
      ∃ net', runUpdates exp g net (twoNeuronsSchedule S T (m + 1)) = some net' ∧
        delayInv S T t ((net S).amplitude g) (m + 1) net' := by
  intro m
  induction m with
  | zero =>
    intro _
    have hsched : twoNeuronsSchedule (K := K) S T (0 + 1) = [(S, 0.0), (T, 0.0)] := rfl
    rw [hsched]
    exact delay_first_step exp g S T t net hST hSn hSc hTc hSV hTe hTV hTb hTr
  | succ m ih =>
    intro hm
    obtain ⟨net1, hrun, hinv⟩ := ih (by omega)
    obtain ⟨net2, hrun2, hinv2⟩ :=
      delay_step exp g S T t ((net S).amplitude g) (m + 1) net1 hST hm hinv
    refine ⟨net2, ?_, hinv2⟩
    have hsched : twoNeuronsSchedule (K := K) S T (m + 1 + 1) =
        twoNeuronsSchedule S T (m + 1) ++ [(S, 0.0), (T, 0.0)] := rfl
    rw [hsched, runUpdates_append, hrun]
    exact hrun2

/-- C5 (amended). Delay delivery. An excitatory source `S` has the single target
`T ≠ S`; both have local clock `t` and are updated once per step with increment 1 and
zero noise; `T` has zero external input, zero potential, an all-zero buffer and is
not refractory. If the potential of `S` is above the threshold, so that it spikes in
its update at clock `t`, then the run returns and the potential of `T` is exactly `0`
after each of its `D` updates at clocks `t, ..., t+D-1` and is `J_e = 0.1` after its
next update, at clock `t+D`. -/
theorem C5_delay_delivery (exp : K → K) (g : K) (S T t : Nat) (net : Network K)
    (hST : S ≠ T) (hSe : (net S).excitatory_neuron = true)
    (hSn : (net S).n_target = [some T])
    (hSc : (net S).neuron_clock = t) (hTc : (net T).neuron_clock = t)
    (hSV : (net S).V_membrane > V_thr K)
    (hTe : (net T).external_input = 0) (hTV : (net T).V_membrane = 0)
    (hTb : ∀ i, (net T).t_buffer i = 0) (hTr : (net T).r_period = false) :
    (∀ k : Nat, 1 ≤ k → k ≤ D →
      ∃ net', runUpdates exp g net (twoNeuronsSchedule S T k) = some net' ∧
        (net' T).neuron_clock = t + k ∧ (net' T).V_membrane = 0) ∧
    (∃ net', runUpdates exp g net (twoNeuronsSchedule S T (D + 1)) = some net' ∧
      (net' T).neuron_clock = t + D + 1 ∧ (net' T).V_membrane = J_e K) ∧
    J_e K = 0.1 := by
  have hrun := delay_run exp g S T t net hST hSn hSc hTc hSV hTe hTV hTb hTr
  have hamp : (net S).amplitude g = J_e K := by
    unfold Neuron.amplitude; rw [hSe]; rfl
  refine ⟨?_, ?_, rfl⟩
  · intro k hk1 hkD
    obtain ⟨net', hr, hinv⟩ := hrun (k - 1) (by omega)
    have hk : k - 1 + 1 = k := by omega
    rw [hk] at hr hinv
    exact ⟨net', hr, hinv.2.2.2.2.1, by rw [hinv.2.2.2.2.2.2.2.1, if_pos hkD]⟩
  · obtain ⟨net', hr, hinv⟩ := hrun D (le_refl _)
    exact ⟨net', hr, hinv.2.2.2.2.1,
      by rw [hinv.2.2.2.2.2.2.2.1, if_neg (by omega), hamp]⟩

/-- A witness of the amended C5: the two-neuron network of the delay test with an
excitatory source. -/
theorem C5_witness :
    (∀ k : Nat, 1 ≤ k → k ≤ D →
      ∃ net', runUpdates expQ 5 (delayNet true) (twoNeuronsSchedule 0 1 k) = some net' ∧
        (net' 1).neuron_clock = 0 + k ∧ (net' 1).V_membrane = 0) ∧
    (∃ net', runUpdates expQ 5 (delayNet true) (twoNeuronsSchedule 0 1 (D + 1)) = some net' ∧
      (net' 1).neuron_clock = 0 + D + 1 ∧ (net' 1).V_membrane = J_e ℚ) ∧
    J_e ℚ = 0.1 :=
  C5_delay_delivery expQ 5 0 1 0 (delayNet true) (by decide) rfl rfl rfl rfl
    (by norm_num [delayNet, V_thr]) (by norm_num [delayNet, Neuron.fresh])
    (by norm_num [delayNet, Neuron.fresh]) (by intro i; norm_num [delayNet, Neuron.fresh]) rfl

/-- The claim C5 as stated fails on a refractory target. In `refractoryTargetNet true`
the source is excitatory with the single target 1, both neurons have clock 1, the
source is above the threshold, the target has zero external input, zero potential and
an all-zero buffer; yet after `D + 1` steps the potential of the target is not `J_e`:
the target, which spiked at clock 0, is still refractory when the amplitude is read. -/
theorem C5_counterexample :
    (refractoryTargetNet true 0).excitatory_neuron = true ∧
    (refractoryTargetNet true 0).n_target = [some 1] ∧
    (refractoryTargetNet true 0).neuron_clock = 1 ∧
    (refractoryTargetNet true 1).neuron_clock = 1 ∧
    (refractoryTargetNet true 0).V_membrane > V_thr ℚ ∧
    (refractoryTargetNet true 1).external_input = 0 ∧
    (refractoryTargetNet true 1).V_membrane = 0 ∧
    (∀ i, (refractoryTargetNet true 1).t_buffer i = 0) ∧
    ∃ net', runUpdates expQ 5 (refractoryTargetNet true) (twoNeuronsSchedule 0 1 (D + 1))
        = some net' ∧
      (net' 1).neuron_clock = 1 + D + 1 ∧ (net' 1).V_membrane = 0 ∧
      (net' 1).V_membrane ≠ J_e ℚ := by
  refine ⟨rfl, rfl, rfl, rfl, by norm_num [refractoryTargetNet, V_thr],
    by norm_num [refractoryTargetNet, Neuron.fresh],
    by norm_num [refractoryTargetNet, Neuron.fresh],
    by intro i; norm_num [refractoryTargetNet, Neuron.fresh], ?_⟩
  have hcount : updatesOf 1 (twoNeuronsSchedule (K := ℚ) 0 1 (D + 1)) = 16 := by
    simp [updatesOf, twoNeuronsSchedule, D]
  obtain ⟨net', hrun, -, -, -, hV, hc, -⟩ :=
    runUpdates_refractory expQ 5 1 0 (refractoryTargetNet true 1).external_input
      (twoNeuronsSchedule 0 1 (D + 1)) (refractoryTargetNet true) 0
      (by intro p; unfold Neuron.targetsValid refractoryTargetNet; split <;> simp [Neuron.fresh])
      rfl (by norm_num [refractoryTargetNet, Neuron.fresh]) rfl rfl rfl
      (by rw [hcount]; decide)
  have hV0 : (net' 1).V_membrane = 0 := by
    rw [hV]; norm_num [V_refractory]
  refine ⟨net', hrun, by rw [hc, hcount]; rfl, hV0, ?_⟩
  rw [hV0]; norm_num [J_e]

/-- C6 (amended). Inhibitory delivery. In the two-neuron setting of C5 (single
target `T ≠ S`, common clock `t`, one update of each per step with increment 1 and
zero noise, `T` with zero external input, zero potential, an all-zero buffer and not
refractory) with an inhibitory source and ratio `g`, the run returns and the
potential of `T` after its update at clock `t+D` is `-g*J_e`; for `g = 5` this is
`-0.5`. -/
theorem C6_inhibitory_delivery (exp : K → K) (g : K) (S T t : Nat) (net : Network K)
    (hST : S ≠ T) (hSe : (net S).excitatory_neuron = false)
    (hSn : (net S).n_target = [some T])
    (hSc : (net S).neuron_clock = t) (hTc : (net T).neuron_clock = t)
    (hSV : (net S).V_membrane > V_thr K)
    (hTe : (net T).external_input = 0) (hTV : (net T).V_membrane = 0)
    (hTb : ∀ i, (net T).t_buffer i = 0) (hTr : (net T).r_period = false) :
    (∃ net', runUpdates exp g net (twoNeuronsSchedule S T (D + 1)) = some net' ∧
      (net' T).neuron_clock = t + D + 1 ∧ (net' T).V_membrane = -g * J_e K) ∧
    (g = 5 → -g * J_e K = -0.5) := by
  have hamp : (net S).amplitude g = -g * J_e K := by
    unfold Neuron.amplitude; rw [hSe]; rfl
  refine ⟨?_, ?_⟩
  · obtain ⟨net', hr, hinv⟩ :=
      delay_run exp g S T t net hST hSn hSc hTc hSV hTe hTV hTb hTr D (le_refl _)
    exact ⟨net', hr, hinv.2.2.2.2.1,
      by rw [hinv.2.2.2.2.2.2.2.1, if_neg (by omega), hamp]⟩
  · intro hg
    rw [hg]; unfold J_e; norm_num

/-- A witness of the amended C6: the two-neuron network of the inhibitory test, with
`g = 5`. -/
theorem C6_witness :
    (∃ net', runUpdates expQ 5 (delayNet false) (twoNeuronsSchedule 0 1 (D + 1)) = some net' ∧
      (net' 1).neuron_clock = 0 + D + 1 ∧ (net' 1).V_membrane = -5 * J_e ℚ) ∧
    ((5 : ℚ) = 5 → -5 * J_e ℚ = -0.5) :=
  C6_inhibitory_delivery expQ 5 0 1 0 (delayNet false) (by decide) rfl rfl rfl rfl
    (by norm_num [delayNet, V_thr]) (by norm_num [delayNet, Neuron.fresh])
    (by norm_num [delayNet, Neuron.fresh]) (by intro i; norm_num [delayNet, Neuron.fresh]) rfl

/-- The claim C6 as stated fails on a refractory target. In `refractoryTargetNet false`
the source is inhibitory with the single target 1, both neurons have clock 1, the
source is above the threshold, the target has zero external input, zero potential and
an all-zero buffer; yet with `g = 5` the potential of the target after its update at
clock `1 + D` is `0`, not `-0.5`: the target is still refractory when the amplitude
is read. -/
theorem C6_counterexample :
    (refractoryTargetNet false 0).excitatory_neuron = false ∧
    (refractoryTargetNet false 0).n_target = [some 1] ∧
    (refractoryTargetNet false 0).neuron_clock = 1 ∧
    (refractoryTargetNet false 1).neuron_clock = 1 ∧
    (refractoryTargetNet false 0).V_membrane > V_thr ℚ ∧
    (refractoryTargetNet false 1).external_input = 0 ∧
    (refractoryTargetNet false 1).V_membrane = 0 ∧
    (∀ i, (refractoryTargetNet false 1).t_buffer i = 0) ∧
    ∃ net', runUpdates expQ 5 (refractoryTargetNet false) (twoNeuronsSchedule 0 1 (D + 1))
        = some net' ∧
      (net' 1).neuron_clock = 1 + D + 1 ∧ (net' 1).V_membrane = 0 ∧
      (net' 1).V_membrane ≠ -5 * J_e ℚ ∧ (net' 1).V_membrane ≠ -0.5 := by
  refine ⟨rfl, rfl, rfl, rfl, by norm_num [refractoryTargetNet, V_thr],
    by norm_num [refractoryTargetNet, Neuron.fresh],
    by norm_num [refractoryTargetNet, Neuron.fresh],
    by intro i; norm_num [refractoryTargetNet, Neuron.fresh], ?_⟩
  have hcount : updatesOf 1 (twoNeuronsSchedule (K := ℚ) 0 1 (D + 1)) = 16 := by
    simp [updatesOf, twoNeuronsSchedule, D]
  obtain ⟨net', hrun, -, -, -, hV, hc, -⟩ :=
    runUpdates_refractory expQ 5 1 0 (refractoryTargetNet false 1).external_input
      (twoNeuronsSchedule 0 1 (D + 1)) (refractoryTargetNet false) 0
      (by intro p; unfold Neuron.targetsValid refractoryTargetNet; split <;> simp [Neuron.fresh])
      rfl (by norm_num [refractoryTargetNet, Neuron.fresh]) rfl rfl rfl
      (by rw [hcount]; decide)
  have hV0 : (net' 1).V_membrane = 0 := by
    rw [hV]; norm_num [V_refractory]
  refine ⟨net', hrun, by rw [hc, hcount]; rfl, hV0, ?_, ?_⟩
  · rw [hV0]; norm_num [J_e]
  · rw [hV0]; norm_num

/-! ## Order independence -/

theorem updateTail_addTimeBuffer (exp : K → K) (n : Neuron K) (dt : Int) (noise : K)
    (i : Nat) (a : K) (hi : i < D + 1) (hne : i ≠ n.neuron_clock % (D + 1)) :
    (n.addTimeBuffer i a).updateTail exp dt noise =
      (n.updateTail exp dt noise).addTimeBuffer i a := by
  have hlt : n.neuron_clock % (D + 1) < D + 1 := Nat.mod_lt _ (by decide)
  have hfin : (⟨i, hi⟩ : Fin (D + 1)) ≠ ⟨n.neuron_clock % (D + 1), hlt⟩ := by
    intro hc; exact hne (Fin.mk.inj_iff.mp hc)
  unfold Neuron.updateTail Neuron.addTimeBuffer Neuron.setTimeBuffer Neuron.getTimeBuffer
    Neuron.solveMembraneEquation
  simp only [hi, hlt, dite_true]
  split_ifs <;>
    simp [Function.update_comm hfin, Function.update_noteq hfin, Function.update_noteq hfin.symm]

theorem fire_fields (n : Neuron K) :
    n.fire.neuron_clock = n.neuron_clock ∧ n.fire.n_target = n.n_target ∧
    n.fire.V_membrane = n.V_membrane ∧ n.fire.excitatory_neuron = n.excitatory_neuron ∧
    n.fire.t_buffer = n.t_buffer := by
  unfold Neuron.fire
  split <;> simp [Neuron.updateNeuronState]

theorem fire_addTimeBuffer (n : Neuron K) (i : Nat) (a : K) :
    (n.addTimeBuffer i a).fire = n.fire.addTimeBuffer i a := by
  unfold Neuron.fire Neuron.addTimeBuffer Neuron.updateNeuronState
  split_ifs <;> simp_all

theorem sent_addTimeBuffer (n : Neuron K) (i : Nat) (a g : K) (q : Nat) :
    (n.addTimeBuffer i a).sent g q = n.sent g q := by
  unfold Neuron.sent Neuron.amplitude
  simp

theorem update_ok (exp : K → K) (net : Network K) (p : Nat) (dt : Int) (noise g : K)
    (hok : (net p).V_membrane > V_thr K → (net p).targetsValid) :
    update exp net p dt noise g = some (updated exp net p dt noise g) := by
  have hlt : ((net p).neuron_clock + D) % (D + 1) < D + 1 := Nat.mod_lt _ (by decide)
  by_cases hV : (net p).V_membrane > V_thr K
  · rw [update_of_crossed exp net p dt noise g hV (hok hV)]
    congr 1
    funext q
    unfold updated
    by_cases hq : q = p
    · subst hq
      rw [Function.update_same, Function.update_same,
        ← updateTail_addTimeBuffer exp _ dt noise _ _ hlt
          (by rw [(fire_fields (net q)).1]; exact write_slot_ne_read_slot _)]
      congr 1
      unfold spikeNet Neuron.fire Neuron.sent
      rw [Function.update_same, if_pos hV, if_pos hV]
    · rw [Function.update_noteq hq, Function.update_noteq hq, spikeNet_other net p q g hq]
      unfold Neuron.sent
      rw [if_pos hV]
  · rw [update_of_not_crossed exp net p dt noise g hV]
    congr 1
    funext q
    unfold updated Neuron.sent
    rw [if_neg hV, addTimeBuffer_zero]
    by_cases hq : q = p
    · subst hq
      rw [Function.update_same, Function.update_same]
      unfold Neuron.fire
      rw [if_neg hV]
    · rw [Function.update_noteq hq, Function.update_noteq hq]

theorem foldlM_updateTargetsStep_none (p : Nat) (g : K) (ts : List (Option Nat)) :
    ∀ net : Network K, none ∈ ts → List.foldlM (updateTargetsStep p g) net ts = none := by
  induction ts with
  | nil => intro n hm; simp at hm
  | cons t ts ih =>
    intro n hm
    rw [List.foldlM_cons]
    cases t with
    | none => rfl
    | some x =>
      have hm' : none ∈ ts := by simpa using hm
      cases hstep : updateTargetsStep p g n (some x) with
      | none => rfl
      | some n' => exact ih n' hm'

theorem update_fail (exp : K → K) (net : Network K) (p : Nat) (dt : Int) (noise g : K)
    (hV : (net p).V_membrane > V_thr K) (hnv : ¬ (net p).targetsValid) :
    update exp net p dt noise g = none := by
  rw [update_eq_map, if_pos hV]
  unfold Neuron.targetsValid at hnv
  push_neg at hnv
  obtain ⟨t, ht, htn⟩ := hnv
  subst htn
  unfold updateTargets
  rw [foldlM_updateTargetsStep_none _ _ _ _ (by simpa [Neuron.updateNeuronState] using ht)]
  rfl

theorem updated_other (exp : K → K) (net : Network K) (p q : Nat) (dt : Int)
    (noise g : K) (hq : q ≠ p) :
    updated exp net p dt noise g q =
      (net q).addTimeBuffer (((net p).neuron_clock + D) % (D + 1)) ((net p).sent g q) := by
  unfold updated
  rw [Function.update_noteq hq]

theorem updated_updated (exp : K → K) (net : Network K) (i j : Nat)
    (noise_i noise_j g : K) (hij : i ≠ j)
    (hc : (net i).neuron_clock = (net j).neuron_clock) :
    updated exp (updated exp net i 1 noise_i g) j 1 noise_j g =
      fun q =>
        (Function.update (Function.update net i ((net i).fire.updateTail exp 1 noise_i))
          j ((net j).fire.updateTail exp 1 noise_j) q).addTimeBuffer
          (((net i).neuron_clock + D) % (D + 1)) ((net i).sent g q + (net j).sent g q) := by
  have hji : j ≠ i := fun hc => hij hc.symm
  have hlt : ((net i).neuron_clock + D) % (D + 1) < D + 1 := Nat.mod_lt _ (by decide)
  have hAj := updated_other exp net i j 1 noise_i g hji
  funext q
  show (Function.update (updated exp net i 1 noise_i g) j
      ((updated exp net i 1 noise_i g j).fire.updateTail exp 1 noise_j) q).addTimeBuffer
        (((updated exp net i 1 noise_i g j).neuron_clock + D) % (D + 1))
        ((updated exp net i 1 noise_i g j).sent g q) = _
  rw [hAj, sent_addTimeBuffer, (addTimeBuffer_fields _ _ _).2.2.2.2.2.1, ← hc,
    fire_addTimeBuffer,
    updateTail_addTimeBuffer exp _ 1 noise_j _ _ hlt
      (by rw [(fire_fields (net j)).1, ← hc]; exact write_slot_ne_read_slot _)]
  by_cases hqj : q = j
  · subst hqj
    rw [Function.update_same, Function.update_same, addTimeBuffer_add]
  · rw [Function.update_noteq hqj, Function.update_noteq hqj]
    unfold updated
    rw [addTimeBuffer_add]

theorem updated_comm (exp : K → K) (net : Network K) (i j : Nat)
    (noise_i noise_j g : K) (hij : i ≠ j)
    (hc : (net i).neuron_clock = (net j).neuron_clock) :
    updated exp (updated exp net i 1 noise_i g) j 1 noise_j g =
      updated exp (updated exp net j 1 noise_j g) i 1 noise_i g := by
  rw [updated_updated exp net i j noise_i noise_j g hij hc,
    updated_updated exp net j i noise_j noise_i g (fun h => hij h.symm) hc.symm]
  funext q
  rw [Function.update_comm hij, hc, add_comm ((net i).sent g q)]

theorem update_eq_updated (exp : K → K) (net net' : Network K) (p : Nat) (dt : Int)
    (noise g : K) (hu : update exp net p dt noise g = some net') :
    net' = updated exp net p dt noise g ∧
      ((net p).V_membrane > V_thr K → (net p).targetsValid) := by
  have hok : (net p).V_membrane > V_thr K → (net p).targetsValid := by
    intro hV
    by_contra hnv
    rw [update_fail exp net p dt noise g hV hnv] at hu
    cases hu
  rw [update_ok exp net p dt noise g hok] at hu
  exact ⟨(Option.some.inj hu).symm, hok⟩

theorem updated_other_fields (exp : K → K) (net : Network K) (p q : Nat) (dt : Int)
    (noise g : K) (hq : q ≠ p) :
    (updated exp net p dt noise g q).V_membrane = (net q).V_membrane ∧
    (updated exp net p dt noise g q).n_target = (net q).n_target ∧
    (updated exp net p dt noise g q).neuron_clock = (net q).neuron_clock := by
  rw [updated_other exp net p q dt noise g hq]
  simp

theorem update_bind_comm (exp : K → K) (net : Network K) (i j : Nat)
    (noise_i noise_j g : K) (hij : i ≠ j)
    (hc : (net i).neuron_clock = (net j).neuron_clock) :
    ((update exp net i 1 noise_i g).bind fun n => update exp n j 1 noise_j g) =
      (update exp net j 1 noise_j g).bind fun n => update exp n i 1 noise_i g := by
  have hji : j ≠ i := fun h => hij h.symm
  have hfj := updated_other_fields exp net i j 1 noise_i g hji
  have hfi := updated_other_fields exp net j i 1 noise_j g hij
  by_cases hoi : (net i).V_membrane > V_thr K → (net i).targetsValid
  · rw [update_ok exp net i 1 noise_i g hoi, Option.some_bind]
    by_cases hoj : (net j).V_membrane > V_thr K → (net j).targetsValid
    · rw [update_ok exp net j 1 noise_j g hoj, Option.some_bind,
        update_ok exp _ j 1 noise_j g (by unfold Neuron.targetsValid; rw [hfj.1, hfj.2.1]; exact hoj),
        update_ok exp _ i 1 noise_i g (by unfold Neuron.targetsValid; rw [hfi.1, hfi.2.1]; exact hoi),
        updated_comm exp net i j noise_i noise_j g hij hc]
    · rw [Classical.not_imp] at hoj
      rw [update_fail exp net j 1 noise_j g hoj.1 hoj.2, Option.none_bind,
        update_fail exp _ j 1 noise_j g (by rw [hfj.1]; exact hoj.1)
          (by unfold Neuron.targetsValid; rw [hfj.2.1]; exact hoj.2)]
  · rw [Classical.not_imp] at hoi
    rw [update_fail exp net i 1 noise_i g hoi.1 hoi.2, Option.none_bind]
    cases hu : update exp net j 1 noise_j g with
    | none => rfl
    | some net' =>
      rw [Option.some_bind, (update_eq_updated exp net net' j 1 noise_j g hu).1,
        update_fail exp _ i 1 noise_i g (by rw [hfi.1]; exact hoi.1)
          (by unfold Neuron.targetsValid; rw [hfi.2.1]; exact hoi.2)]

theorem runUpdates_cons_cons (exp : K → K) (g : K) (net : Network K)
    (x y : Nat × K) (l : List (Nat × K)) :
    runUpdates exp g net (x :: y :: l) =
      ((update exp net x.1 1 x.2 g).bind fun n => update exp n y.1 1 y.2 g).bind
        fun n => runUpdates exp g n l := by
  obtain ⟨p, n1⟩ := x
  obtain ⟨q, n2⟩ := y
  simp only [runUpdates]
  cases update exp net p 1 n1 g with
  | none => rfl
  | some net' =>
    simp only [Option.some_bind]
    cases update exp net' q 1 n2 g <;> rfl

theorem runUpdates_perm (exp : K → K) (g : K) (c : Nat) {l1 l2 : List (Nat × K)}
    (hp : l1.Perm l2) :
    ∀ net : Network K, (l1.map Prod.fst).Nodup →
      (∀ e ∈ l1, (net e.1).neuron_clock = c) →
      runUpdates exp g net l1 = runUpdates exp g net l2 := by
  induction hp with
  | nil => intro net _ _; rfl
  | cons x _ ih =>
    intro net hnd hcl
    obtain ⟨p, noise⟩ := x
    simp only [runUpdates]
    cases hu : update exp net p 1 noise g with
    | none => rfl
    | some net' =>
      simp only []
      rw [List.map_cons, List.nodup_cons] at hnd
      refine ih net' hnd.2 ?_
      intro e he
      have hep : e.1 ≠ p := by
        intro hc
        exact hnd.1 (List.mem_map.mpr ⟨e, he, hc⟩)
      rw [(update_eq_updated exp net net' p 1 noise g hu).1,
        (updated_other_fields exp net p e.1 1 noise g hep).2.2]
      exact hcl e (List.mem_cons_of_mem _ he)
  | swap x y l =>
    intro net hnd hcl
    rw [runUpdates_cons_cons, runUpdates_cons_cons]
    have hxy : y.1 ≠ x.1 := by
      simp only [List.map_cons, List.nodup_cons, List.mem_cons] at hnd
      exact fun hc => hnd.1 (Or.inl hc)
    rw [update_bind_comm exp net y.1 x.1 y.2 x.2 g hxy
      ((hcl y (List.mem_cons_self _ _)).trans
        (hcl x (List.mem_cons_of_mem _ (List.mem_cons_self _ _))).symm)]
  | trans h1 _ ih1 ih2 =>
    intro net hnd hcl
    rw [ih1 net hnd hcl]
    exact ih2 net ((h1.map Prod.fst).nodup_iff.mp hnd)
      (fun e he => hcl e (h1.mem_iff.mpr he))

/-! ## One neuron with a constant input -/

theorem run_integrating (exp : K → K) (g I : K) (self : Nat) (net : Network K)
    (hr : (net self).r_period = false) (hV : (net self).V_membrane = 0)
    (he : (net self).external_input = I) (hb : ∀ j, (net self).getTimeBuffer j = 0)
    (hs : (net self).spike = false) :
    ∀ n : Nat, (∀ m < n, R K * I * (1 - const1 exp ^ m) ≤ V_thr K) →
      ∃ net', runUpdates exp g net (List.replicate n (self, 0.0)) = some net' ∧
        (net' self).V_membrane = R K * I * (1 - const1 exp ^ n) ∧
        (net' self).r_period = false ∧ (net' self).external_input = I ∧
        (∀ j, (net' self).getTimeBuffer j = 0) ∧ (net' self).spike = false ∧
        (net' self).nb_spikes = (net self).nb_spikes ∧
        (net' self).neuron_clock = (net self).neuron_clock + n ∧
        (net' self).n_target = (net self).n_target := by
  intro n
  induction n with
  | zero =>
    intro _
    exact ⟨net, rfl, by rw [hV]; simp, hr, he, hb, hs, rfl, rfl, rfl⟩
  | succ n ih =>
    intro hle
    obtain ⟨net1, hrun, h1V, h1r, h1e, h1b, h1s, h1n, h1c, h1t⟩ :=
      ih (fun m hm => hle m (by omega))
    have hnc : ¬ (net1 self).V_membrane > V_thr K := by
      rw [h1V]; exact not_lt.mpr (hle n (by omega))
    have hu := update_of_not_crossed exp net1 self 1 0.0 g hnc
    have hT := tail_integrate exp (net1 self) 0.0 h1r
    have hf := updateTail_fields exp ({ net1 self with spike := false } : Neuron K) 1 0.0
    refine ⟨Function.update net1 self
      (({ net1 self with spike := false } : Neuron K).updateTail exp 1 0.0), ?_, ?_⟩
    · rw [List.replicate_succ', runUpdates_append, hrun, Option.some_bind]
      simp only [runUpdates, hu]
    · rw [Function.update_same]
      refine ⟨?_, hT.2.1, by rw [hT.2.2.2.1, h1e], ?_, by rw [hf.2.2.2.1], by rw [hf.2.1]; exact h1n,
        by rw [hT.2.2.1, h1c]; omega, by rw [hf.2.2.2.2.2.2.1]; exact h1t⟩
      · rw [hT.1, h1V, h1e, h1b]
        have h0 : (0.0 : K) = 0 := by norm_num
        rw [h0]
        unfold const2
        ring
      · intro j
        rw [hT.2.2.2.2 j, h1b]
        simp

theorem exp_923_le : Real.exp (923 / 1000) ≤ 2.51685 := by
  have hb := Real.exp_bound' (x := 923 / 1000) (by norm_num) (by norm_num) (n := 8)
    (by norm_num)
  refine hb.trans ?_
  simp only [Finset.sum_range_succ, Finset.sum_range_zero, Nat.factorial]
  norm_num

theorem exp_924_le : Real.exp (924 / 1000) ≤ 2.5194 := by
  have hb := Real.exp_bound' (x := 924 / 1000) (by norm_num) (by norm_num) (n := 8)
    (by norm_num)
  refine hb.trans ?_
  simp only [Finset.sum_range_succ, Finset.sum_range_zero, Nat.factorial]
  norm_num

theorem exp_924_ge : (2.5193 : ℝ) ≤ Real.exp (924 / 1000) := by
  have hb := Real.sum_le_exp_of_nonneg (x := 924 / 1000) (by norm_num) 8
  refine le_trans ?_ hb
  simp only [Finset.sum_range_succ, Finset.sum_range_zero, Nat.factorial]
  norm_num

theorem exp_923_200_le : Real.exp (923 / 200) ≤ 101 := by
  have he : Real.exp (923 / 200) = Real.exp (923 / 1000) ^ 5 := by
    rw [← Real.exp_nat_mul]; congr 1; norm_num
  rw [he]
  calc Real.exp (923 / 1000) ^ 5 ≤ (2.51685 : ℝ) ^ 5 :=
        pow_le_pow_left₀ (Real.exp_pos _).le exp_923_le 5
    _ ≤ 101 := by norm_num

theorem exp_924_200_gt : 101 < Real.exp (924 / 200) := by
  have he : Real.exp (924 / 200) = Real.exp (924 / 1000) ^ 5 := by
    rw [← Real.exp_nat_mul]; congr 1; norm_num
  rw [he]
  calc (101 : ℝ) < (2.5193 : ℝ) ^ 5 := by norm_num
    _ ≤ Real.exp (924 / 1000) ^ 5 := pow_le_pow_left₀ (by norm_num) exp_924_ge 5

theorem exp_924_200_lt : 0.199 * Real.exp (924 / 200) < 20.2 := by
  have he : Real.exp (924 / 200) = Real.exp (924 / 1000) ^ 5 := by
    rw [← Real.exp_nat_mul]; congr 1; norm_num
  rw [he]
  have hp : Real.exp (924 / 1000) ^ 5 ≤ (2.5194 : ℝ) ^ 5 :=
    pow_le_pow_left₀ (Real.exp_pos _).le exp_924_le 5
  calc 0.199 * Real.exp (924 / 1000) ^ 5 ≤ 0.199 * (2.5194 : ℝ) ^ 5 :=
        mul_le_mul_of_nonneg_left hp (by norm_num)
    _ < 20.2 := by norm_num

theorem const1_real_pow (n : Nat) :
    const1 Real.exp ^ n = (Real.exp ((n : ℝ) / 200))⁻¹ := by
  unfold const1 h tau
  rw [← Real.exp_nat_mul, ← Real.exp_neg]
  congr 1
  norm_num
  ring

theorem oneNeuronNet_fields (garbage_e garbage_i : Int) (I : K) (p : Nat) :
    (oneNeuronNet garbage_e garbage_i I p).r_period = false ∧
    (oneNeuronNet garbage_e garbage_i I p).V_membrane = 0 ∧
    (oneNeuronNet garbage_e garbage_i I p).external_input = I ∧
    (∀ j, (oneNeuronNet garbage_e garbage_i I p).getTimeBuffer j = 0) ∧
    (oneNeuronNet garbage_e garbage_i I p).spike = false ∧
    (oneNeuronNet garbage_e garbage_i I p).nb_spikes = 0 ∧
    (oneNeuronNet garbage_e garbage_i I p).neuron_clock = 0 ∧
    (oneNeuronNet garbage_e garbage_i I p).n_target = [] := by
  refine ⟨rfl, ?_, rfl, ?_, rfl, rfl, rfl, rfl⟩
  · show (0.0 : K) = 0
    norm_num
  · intro j
    unfold Neuron.getTimeBuffer
    split
    · show (0.0 : K) = 0
      norm_num
    · rfl

theorem closed_form_le_V_thr (m : Nat) (hm : m < 924) :
    R ℝ * 1.01 * (1 - const1 Real.exp ^ m) ≤ V_thr ℝ := by
  rw [const1_real_pow]
  have hmono : Real.exp ((m : ℝ) / 200) ≤ Real.exp (923 / 200) := by
    apply Real.exp_le_exp.mpr
    have : (m : ℝ) ≤ 923 := by exact_mod_cast Nat.le_of_lt_succ hm
    linarith
  have hle : Real.exp ((m : ℝ) / 200) ≤ 101 := hmono.trans exp_923_200_le
  have hpos : 0 < Real.exp ((m : ℝ) / 200) := Real.exp_pos _
  have hinv : (1 : ℝ) / 101 ≤ (Real.exp ((m : ℝ) / 200))⁻¹ := by
    rw [← one_div]
    exact one_div_le_one_div_of_le hpos hle
  unfold R V_thr
  norm_num at hinv ⊢
  linarith

/-- C9. First spike time. A freshly constructed excitatory neuron with external
input 1.01 is updated with `update(1, 0.0, 5)`, with the real exponential. After each
of the first 924 updates the spike flag is false and the spike count is 0; after the
924 updates the local clock is 924 and the potential is within 0.001 of the threshold
20.0; the next update is the first spike: it sets the flag and the count to 1, records
the last spike time `924*h = 92.4` and leaves the potential at 0.0. -/
theorem C9_first_spike_time (garbage_e garbage_i : Int) :
    (∀ n : Nat, n ≤ 924 →
      ∃ net', runUpdates Real.exp 5 (oneNeuronNet garbage_e garbage_i (1.01 : ℝ))
          (List.replicate n (0, 0.0)) = some net' ∧
        (net' 0).neuron_clock = n ∧ (net' 0).spike = false ∧ (net' 0).nb_spikes = 0) ∧
    ∃ net', runUpdates Real.exp 5 (oneNeuronNet garbage_e garbage_i (1.01 : ℝ))
        (List.replicate 924 (0, 0.0)) = some net' ∧
      (net' 0).neuron_clock = 924 ∧
      |(net' 0).V_membrane - V_thr ℝ| < 0.001 ∧ V_thr ℝ = 20.0 ∧
      ∃ net'', update Real.exp net' 0 1 0.0 5 = some net'' ∧
        (net'' 0).spike = true ∧ (net'' 0).nb_spikes = 1 ∧
        (net'' 0).t_spike = 924 * h ℝ ∧ (net'' 0).t_spike = 92.4 ∧
        (net'' 0).V_membrane = 0.0 := by
  have hf := oneNeuronNet_fields garbage_e garbage_i (1.01 : ℝ) 0
  have hrun := run_integrating Real.exp 5 (1.01 : ℝ) 0
    (oneNeuronNet garbage_e garbage_i (1.01 : ℝ)) hf.1 hf.2.1 hf.2.2.1 hf.2.2.2.1 hf.2.2.2.2.1
  refine ⟨?_, ?_⟩
  · intro n hn
    obtain ⟨net', hr, -, -, -, -, hs, hnb, hc, -⟩ :=
      hrun n (fun m hm => closed_form_le_V_thr m (by omega))
    exact ⟨net', hr, by rw [hc, hf.2.2.2.2.2.2.1, zero_add], hs,
      by rw [hnb, hf.2.2.2.2.2.1]⟩
  · obtain ⟨net', hr, hV, -, -, -, -, hnb, hc, ht⟩ :=
      hrun 924 (fun m hm => closed_form_le_V_thr m hm)
    have hc' : (net' 0).neuron_clock = 924 := by rw [hc, hf.2.2.2.2.2.2.1]
    have hE1 := exp_924_200_gt
    have hE2 := exp_924_200_lt
    have hpos : 0 < Real.exp (924 / 200) := Real.exp_pos _
    have hVval : (net' 0).V_membrane = 20.2 - 20.2 * (Real.exp (924 / 200))⁻¹ := by
      rw [hV, const1_real_pow]
      unfold R
      norm_num
      ring
    have hinv1 : (Real.exp (924 / 200))⁻¹ < 1 / 101 := by
      rw [← one_div]
      exact one_div_lt_one_div_of_lt (by norm_num) hE1
    have hinv2 : (0.199 : ℝ) / 20.2 < (Real.exp (924 / 200))⁻¹ := by
      rw [← one_div, div_lt_div_iff₀ (by norm_num) hpos]
      linarith
    have hgt : (net' 0).V_membrane > V_thr ℝ := by
      rw [hVval]; unfold V_thr; norm_num at hinv1 ⊢; linarith
    refine ⟨net', hr, hc', ?_, rfl, ?_⟩
    · rw [hVval, abs_lt]
      unfold V_thr
      norm_num at hinv1 hinv2 ⊢
      constructor <;> linarith
    · have hv : (net' 0).targetsValid := by
        unfold Neuron.targetsValid; rw [ht, hf.2.2.2.2.2.2.2]; simp
      refine ⟨_, update_of_crossed Real.exp net' 0 1 0.0 5 hgt hv, ?_⟩
      rw [Function.update_same]
      have hs := spikeNet_self net' 0 5
      have hfl := updateTail_fields Real.exp (spikeNet net' 0 5 0) 1 0.0
      have hh := updateTail_V_of_holds Real.exp _ 1 0.0 (spikeNet_self_holds net' 0 5)
      have hts : (Neuron.updateTail Real.exp (spikeNet net' 0 5 0) 1 0.0).t_spike =
          924 * h ℝ := by
        rw [hfl.2.2.1, hs.2.2.2.1, hc']; norm_num
      refine ⟨by rw [hfl.2.2.2.1, hs.2.2.2.2.1], by rw [hfl.2.1, hs.2.2.1, hnb, hf.2.2.2.2.2.1],
        hts, ?_, ?_⟩
      · rw [hts]; unfold h; norm_num
      · rw [hh.1]; rfl

/-! ## `addConnections` -/

theorem foldl_connectExcitatory_counters (self : Nat) (neurons : Nat → Nat)
    (dis_e : Nat → Fin excitatory_neurons) (l : List Nat) :
    ∀ net : Network K,
      (l.foldl (connectExcitatory self neurons dis_e) net self).nb_excitatory_connections =
        (net self).nb_excitatory_connections + l.length ∧
      (l.foldl (connectExcitatory self neurons dis_e) net self).nb_inhibitory_connections =
        (net self).nb_inhibitory_connections := by
  induction l with
  | nil => intro net; simp
  | cons i l ih =>
    intro net
    rw [List.foldl_cons]
    obtain ⟨h1, h2⟩ := ih (connectExcitatory self neurons dis_e net i)
    rw [h1, h2]
    unfold connectExcitatory
    simp only [Function.update_same]
    by_cases hs : self = neurons (dis_e i)
    · rw [← hs]
      simp only [Function.update_same, Neuron.addTargetNeuron, List.length_cons]
      push_cast
      exact ⟨by ring, trivial⟩
    · simp only [Function.update_noteq hs, List.length_cons]
      push_cast
      exact ⟨by ring, trivial⟩

theorem foldl_connectInhibitory_counters (self : Nat) (neurons : Nat → Nat)
    (dis_i : Nat → Fin inhibitory_neurons) (l : List Nat) :
    ∀ net : Network K,
      (l.foldl (connectInhibitory self neurons dis_i) net self).nb_excitatory_connections =
        (net self).nb_excitatory_connections ∧
      (l.foldl (connectInhibitory self neurons dis_i) net self).nb_inhibitory_connections =
        (net self).nb_inhibitory_connections + l.length := by
  induction l with
  | nil => intro net; simp
  | cons i l ih =>
    intro net
    rw [List.foldl_cons]
    obtain ⟨h1, h2⟩ := ih (connectInhibitory self neurons dis_i net i)
    rw [h1, h2]
    unfold connectInhibitory
    simp only [Function.update_same]
    by_cases hs : self = neurons (excitatory_neurons + dis_i i)
    · rw [← hs]
      simp only [Function.update_same, Neuron.addTargetNeuron, List.length_cons]
      push_cast
      exact ⟨trivial, by ring⟩
    · simp only [Function.update_noteq hs, List.length_cons]
      push_cast
      exact ⟨trivial, by ring⟩

theorem addConnections_counters (net : Network K) (self : Nat) (neurons : Nat → Nat)
    (dis_e : Nat → Fin excitatory_neurons) (dis_i : Nat → Fin inhibitory_neurons) :
    (addConnections net self neurons dis_e dis_i self).nb_excitatory_connections =
      (net self).nb_excitatory_connections + c_e ∧
    (addConnections net self neurons dis_e dis_i self).nb_inhibitory_connections =
      (net self).nb_inhibitory_connections + c_i := by
  unfold addConnections
  obtain ⟨h1, h2⟩ := foldl_connectInhibitory_counters self neurons dis_i (List.range c_i)
    ((List.range c_e).foldl (connectExcitatory self neurons dis_e) net)
  obtain ⟨h3, h4⟩ := foldl_connectExcitatory_counters self neurons dis_e (List.range c_e) net
  rw [h1, h2, h3, h4, List.length_range, List.length_range]
  exact ⟨rfl, rfl⟩

/-- C10 on the code: the constructor leaves the two inbound counters uninitialised
and `addConnections` only increments them. In the freshly built collection in which
these members hold 7 and -3, for every neuron `self` and every outcome of the random
draws, the counters of `self` after its `addConnections` are 1007 and 247, not
`c_e = 1000` and `c_i = 250`. -/
theorem C10_counters_uninitialised (self : Nat)
    (dis_e : Nat → Fin excitatory_neurons) (dis_i : Nat → Fin inhibitory_neurons) :
    (addConnections (initializeNeurons 7 (-3) 7 (-3) : Network ℚ) self id dis_e dis_i
      self).nb_excitatory_connections = 1007 ∧
    (addConnections (initializeNeurons 7 (-3) 7 (-3) : Network ℚ) self id dis_e dis_i
      self).nb_inhibitory_connections = 247 ∧
    (1007 : Int) ≠ c_e ∧ (247 : Int) ≠ c_i := by
  obtain ⟨h1, h2⟩ := addConnections_counters
    (initializeNeurons 7 (-3) 7 (-3) : Network ℚ) self id dis_e dis_i
  rw [h1, h2]
  unfold initializeNeurons c_e c_i
  split <;> simp [Neuron.fresh]

/-! ## The first update of a fresh neuron -/

theorem first_update (exp : K → K) (garbage_e garbage_i : Int) (I g : K) :
    ∃ net', update exp (oneNeuronNet garbage_e garbage_i I) 0 1 0.0 g = some net' ∧
      (net' 0).V_membrane = const2 exp * I := by
  have hf := oneNeuronNet_fields garbage_e garbage_i I 0
  have hnc : ¬ (oneNeuronNet garbage_e garbage_i I 0).V_membrane > V_thr K := by
    rw [hf.2.1]; exact zero_le_V_thr
  refine ⟨_, update_of_not_crossed exp _ 0 1 0.0 g hnc, ?_⟩
  rw [Function.update_same, (tail_integrate exp _ 0.0 hf.1).1, hf.2.1, hf.2.2.1,
    hf.2.2.2.1]
  norm_num

theorem const2_real : const2 Real.exp = R ℝ * (1 - Real.exp (-h ℝ / 20)) := by
  unfold const2 const1 tau h
  norm_num

theorem const2_real_pos : 0 < const2 Real.exp := by
  rw [const2_real]
  have hneg : -h ℝ / 20 < 0 := by
    unfold h; norm_num
  have hlt : Real.exp (-h ℝ / 20) < 1 :=
    lt_of_lt_of_eq (Real.exp_lt_exp.mpr hneg) Real.exp_zero
  exact mul_pos (by unfold R; norm_num) (sub_pos.mpr hlt)

/-- C19. A freshly constructed neuron (potential 0, clock 0, not refractory, all
slots 0) with any constant external input `I` and zero noise has, after one
`update(1, 0.0, g)`, the potential `const2 * I = R*(1 - exp(-h/20))*I`, where 20 is
the membrane time constant in milliseconds; for `I = 1.0` this is
`20*(1 - exp(-0.1/20))`. -/
theorem C19_one_step_potential (garbage_e garbage_i : Int) (I g : ℝ) :
    ∃ net', update Real.exp (oneNeuronNet garbage_e garbage_i I) 0 1 0.0 g = some net' ∧
      (net' 0).V_membrane = const2 Real.exp * I ∧
      (net' 0).V_membrane = R ℝ * (1 - Real.exp (-h ℝ / 20)) * I ∧
      (I = 1.0 → (net' 0).V_membrane = 20 * (1 - Real.exp (-0.1 / 20))) := by
  obtain ⟨net', hu, hV⟩ := first_update Real.exp garbage_e garbage_i I g
  refine ⟨net', hu, hV, by rw [hV, const2_real], ?_⟩
  intro hI
  rw [hV, const2_real, hI]
  unfold R h
  norm_num

/-! ## Connectivity of the whole network -/

theorem connectExcitatory_n_target (self : Nat) (neurons : Nat → Nat)
    (dis_e : Nat → Fin excitatory_neurons) (net : Network K) (i s : Nat) :
    (connectExcitatory self neurons dis_e net i s).n_target =
      if s = neurons (dis_e i) then (net s).n_target ++ [some self]
      else (net s).n_target := by
  unfold connectExcitatory
  by_cases hs : s = self
  · subst hs
    simp only [Function.update_same]
    by_cases ha : s = neurons (dis_e i)
    · rw [if_pos ha, ← ha, Function.update_same]; rfl
    · rw [if_neg ha, Function.update_noteq ha]
  · simp only [Function.update_noteq hs]
    by_cases ha : s = neurons (dis_e i)
    · rw [if_pos ha, ← ha, Function.update_same]; rfl
    · rw [if_neg ha, Function.update_noteq ha]

theorem connectInhibitory_n_target (self : Nat) (neurons : Nat → Nat)
    (dis_i : Nat → Fin inhibitory_neurons) (net : Network K) (i s : Nat) :
    (connectInhibitory self neurons dis_i net i s).n_target =
      if s = neurons (excitatory_neurons + dis_i i) then (net s).n_target ++ [some self]
      else (net s).n_target := by
  unfold connectInhibitory
  by_cases hs : s = self
  · subst hs
    simp only [Function.update_same]
    by_cases ha : s = neurons (excitatory_neurons + dis_i i)
    · rw [if_pos ha, ← ha, Function.update_same]; rfl
    · rw [if_neg ha, Function.update_noteq ha]
  · simp only [Function.update_noteq hs]
    by_cases ha : s = neurons (excitatory_neurons + dis_i i)
    · rw [if_pos ha, ← ha, Function.update_same]; rfl
    · rw [if_neg ha, Function.update_noteq ha]

theorem sum_weight_step (w : List (Option Nat) → Nat) (x : Option Nat) (d : Nat)
    (hw : ∀ l, w (l ++ [x]) = w l + d) (net net' : Network K) (a : Nat)
    (hn : ∀ s, (net' s).n_target =
      if s = a then (net s).n_target ++ [x] else (net s).n_target)
    (S : Finset Nat) :
    ∑ s ∈ S, w (net' s).n_target =
      ∑ s ∈ S, w (net s).n_target + if a ∈ S then d else 0 := by
  have hpt : ∀ s, w (net' s).n_target =
      w (net s).n_target + if s = a then d else 0 := by
    intro s
    rw [hn s]
    split
    · rw [hw]
    · rfl
  simp only [hpt]
  rw [Finset.sum_add_distrib, Finset.sum_ite_eq']

theorem foldl_steps_sum (w : List (Option Nat) → Nat) (x : Option Nat) (d : Nat)
    (hw : ∀ l, w (l ++ [x]) = w l + d)
    (step : Network K → Nat → Network K) (addr : Nat → Nat)
    (hstep : ∀ net i s, (step net i s).n_target =
      if s = addr i then (net s).n_target ++ [x] else (net s).n_target)
    (S : Finset Nat) (m : Nat) (l : List Nat)
    (hm : ∀ i ∈ l, (addr i ∈ S ∧ m = 1) ∨ (addr i ∉ S ∧ m = 0)) :
    ∀ net : Network K,
      ∑ s ∈ S, w (l.foldl step net s).n_target =
        ∑ s ∈ S, w (net s).n_target + d * (m * l.length) := by
  induction l with
  | nil => intro net; simp
  | cons i l ih =>
    intro net
    rw [List.foldl_cons, ih (fun j hj => hm j (List.mem_cons_of_mem _ hj)) (step net i),
      sum_weight_step w x d hw net (step net i) (addr i) (hstep net i) S, List.length_cons]
    rcases hm i (List.mem_cons_self _ _) with ⟨ha, hi⟩ | ⟨ha, hi⟩
    · rw [if_pos ha]
      subst hi
      ring
    · rw [if_neg ha]
      subst hi
      ring

theorem addConnections_sum (w : List (Option Nat) → Nat) (self d : Nat)
    (hw : ∀ l, w (l ++ [some self]) = w l + d) (net : Network K)
    (dis_e : Nat → Fin excitatory_neurons) (dis_i : Nat → Fin inhibitory_neurons)
    (S : Finset Nat) (me mi : Nat)
    (he : ∀ i, ((dis_e i : Nat) ∈ S ∧ me = 1) ∨ ((dis_e i : Nat) ∉ S ∧ me = 0))
    (hi : ∀ i, (excitatory_neurons + (dis_i i : Nat) ∈ S ∧ mi = 1) ∨
      (excitatory_neurons + (dis_i i : Nat) ∉ S ∧ mi = 0)) :
    ∑ s ∈ S, w (addConnections net self id dis_e dis_i s).n_target =
      ∑ s ∈ S, w (net s).n_target + d * (me * c_e + mi * c_i) := by
  unfold addConnections
  rw [foldl_steps_sum w (some self) d hw (connectInhibitory self id dis_i)
      (fun i => excitatory_neurons + (dis_i i : Nat))
      (fun net i s => connectInhibitory_n_target self id dis_i net i s) S mi
      (List.range c_i) (fun i _ => hi i),
    foldl_steps_sum w (some self) d hw (connectExcitatory self id dis_e)
      (fun i => (dis_e i : Nat))
      (fun net i s => connectExcitatory_n_target self id dis_e net i s) S me
      (List.range c_e) (fun i _ => he i),
    List.length_range, List.length_range]
  ring

theorem foldl_addConnections_sum (w : List (Option Nat) → Nat) (d : Nat → Nat)
    (hw : ∀ k l, w (l ++ [some k]) = w l + d k)
    (dis_e : Nat → Nat → Fin excitatory_neurons)
    (dis_i : Nat → Nat → Fin inhibitory_neurons)
    (S : Finset Nat) (me mi : Nat)
    (he : ∀ k i, ((dis_e k i : Nat) ∈ S ∧ me = 1) ∨ ((dis_e k i : Nat) ∉ S ∧ me = 0))
    (hi : ∀ k i, (excitatory_neurons + (dis_i k i : Nat) ∈ S ∧ mi = 1) ∨
      (excitatory_neurons + (dis_i k i : Nat) ∉ S ∧ mi = 0))
    (l : List Nat) :
    ∀ net : Network K,
      ∑ s ∈ S, w (l.foldl (fun net k => addConnections net k id (dis_e k) (dis_i k))
          net s).n_target =
        ∑ s ∈ S, w (net s).n_target + (l.map d).sum * (me * c_e + mi * c_i) := by
  induction l with
  | nil => intro net; simp
  | cons k l ih =>
    intro net
    rw [List.foldl_cons, ih (addConnections net k id (dis_e k) (dis_i k)),
      addConnections_sum w k (d k) (hw k) net (dis_e k) (dis_i k) S me mi (he k) (hi k),
      List.map_cons, List.sum_cons]
    ring

theorem sum_indicator_range (n m : Nat) :
    ((List.range m).map fun k => if k = n then 1 else 0).sum = if n < m then 1 else 0 := by
  induction m with
  | zero => simp
  | succ m ih =>
    rw [List.range_succ, List.map_append, List.sum_append, ih]
    by_cases h1 : n < m
    · have h2 : m ≠ n := by omega
      simp [h1, h2, Nat.lt_succ_of_lt h1]
    · by_cases h2 : m = n
      · subst h2; simp
      · have h3 : ¬ n < m + 1 := by omega
        simp [h1, h2, h3]

theorem sum_ones_range (m : Nat) : ((List.range m).map fun _ => 1).sum = m := by
  induction m with
  | zero => simp
  | succ m ih => rw [List.range_succ, List.map_append, List.sum_append, ih]; simp

theorem draws_excitatory_range (dis_e : Nat → Nat → Fin excitatory_neurons)
    (dis_i : Nat → Nat → Fin inhibitory_neurons) :
    (∀ k i, ((dis_e k i : Nat) ∈ Finset.range excitatory_neurons ∧ 1 = 1) ∨
      ((dis_e k i : Nat) ∉ Finset.range excitatory_neurons ∧ 1 = 0)) ∧
    (∀ k i, (excitatory_neurons + (dis_i k i : Nat) ∈ Finset.range excitatory_neurons ∧
        0 = 1) ∨
      (excitatory_neurons + (dis_i k i : Nat) ∉ Finset.range excitatory_neurons ∧ 0 = 0)) := by
  constructor
  · intro k i
    exact Or.inl ⟨Finset.mem_range.mpr (dis_e k i).isLt, rfl⟩
  · intro k i
    exact Or.inr ⟨by rw [Finset.mem_range]; omega, rfl⟩

theorem draws_inhibitory_range (dis_e : Nat → Nat → Fin excitatory_neurons)
    (dis_i : Nat → Nat → Fin inhibitory_neurons) :
    (∀ k i, ((dis_e k i : Nat) ∈ Finset.Ico excitatory_neurons total_neurons ∧ 0 = 1) ∨
      ((dis_e k i : Nat) ∉ Finset.Ico excitatory_neurons total_neurons ∧ 0 = 0)) ∧
    (∀ k i, (excitatory_neurons + (dis_i k i : Nat) ∈
        Finset.Ico excitatory_neurons total_neurons ∧ 1 = 1) ∨
      (excitatory_neurons + (dis_i k i : Nat) ∉
        Finset.Ico excitatory_neurons total_neurons ∧ 1 = 0)) := by
  constructor
  · intro k i
    have hlt := (dis_e k i).isLt
    exact Or.inr ⟨by rw [Finset.mem_Ico]; omega, rfl⟩
  · intro k i
    have hlt : (dis_i k i : Nat) < 2500 := (dis_i k i).isLt
    exact Or.inl ⟨by rw [Finset.mem_Ico]; unfold excitatory_neurons total_neurons; omega, rfl⟩

theorem draws_total_range (dis_e : Nat → Nat → Fin excitatory_neurons)
    (dis_i : Nat → Nat → Fin inhibitory_neurons) :
    (∀ k i, ((dis_e k i : Nat) ∈ Finset.range total_neurons ∧ 1 = 1) ∨
      ((dis_e k i : Nat) ∉ Finset.range total_neurons ∧ 1 = 0)) ∧
    (∀ k i, (excitatory_neurons + (dis_i k i : Nat) ∈ Finset.range total_neurons ∧ 1 = 1) ∨
      (excitatory_neurons + (dis_i k i : Nat) ∉ Finset.range total_neurons ∧ 1 = 0)) := by
  constructor
  · intro k i
    have hlt : (dis_e k i : Nat) < 10000 := (dis_e k i).isLt
    exact Or.inl ⟨by rw [Finset.mem_range]; unfold total_neurons; omega, rfl⟩
  · intro k i
    have hlt : (dis_i k i : Nat) < 2500 := (dis_i k i).isLt
    exact Or.inl ⟨by rw [Finset.mem_range]; unfold excitatory_neurons total_neurons; omega, rfl⟩

theorem count_append_some (n k : Nat) (l : List (Option Nat)) :
    (l ++ [some k]).count (some n) = l.count (some n) + if k = n then 1 else 0 := by
  rw [List.count_append]
  by_cases hk : k = n
  · subst hk; simp
  · have : (some k == some n) = false := by simp [hk]
    simp [List.count_cons, this, hk]

theorem buildConnections_occurrences (net : Network K)
    (dis_e : Nat → Nat → Fin excitatory_neurons)
    (dis_i : Nat → Nat → Fin inhibitory_neurons) (n : Nat) (hn : n < total_neurons) :
    inboundExcitatory (buildConnections net dis_e dis_i) n = inboundExcitatory net n + c_e ∧
    inboundInhibitory (buildConnections net dis_e dis_i) n = inboundInhibitory net n + c_i := by
  have he := draws_excitatory_range dis_e dis_i
  have hi := draws_inhibitory_range dis_e dis_i
  have hE := foldl_addConnections_sum (fun l => l.count (some n))
    (fun k => if k = n then 1 else 0) (fun k l => count_append_some n k l) dis_e dis_i
    (Finset.range excitatory_neurons) 1 0 he.1 he.2 (List.range total_neurons) net
  have hI := foldl_addConnections_sum (fun l => l.count (some n))
    (fun k => if k = n then 1 else 0) (fun k l => count_append_some n k l) dis_e dis_i
    (Finset.Ico excitatory_neurons total_neurons) 0 1 hi.1 hi.2 (List.range total_neurons) net
  rw [sum_indicator_range, if_pos hn] at hE hI
  unfold inboundExcitatory inboundInhibitory occurrences buildConnections
  rw [hE, hI]
  constructor <;> ring

theorem buildConnections_totalTargets (net : Network K)
    (dis_e : Nat → Nat → Fin excitatory_neurons)
    (dis_i : Nat → Nat → Fin inhibitory_neurons) :
    totalTargets (buildConnections net dis_e dis_i) =
      totalTargets net + total_neurons * (c_e + c_i) := by
  have ht := draws_total_range dis_e dis_i
  have hT := foldl_addConnections_sum (fun l => l.length) (fun _ => 1)
    (fun k l => List.length_append l [some k]) dis_e dis_i
    (Finset.range total_neurons) 1 1 ht.1 ht.2 (List.range total_neurons) net
  rw [sum_ones_range] at hT
  unfold totalTargets buildConnections
  rw [hT]
  ring

/-- C11. Exact in-degree. In a network whose target lists are all empty, after
`addConnections` has run exactly once for every neuron, for every neuron `n` of the
network and every outcome of the random draws, the number of occurrences of `n` in
the target lists of the excitatory neurons (indices `0 .. excitatory_neurons-1`) is
exactly `c_e = 1000` and the number of its occurrences in the target lists of the
inhibitory neurons (indices `excitatory_neurons .. total_neurons-1`) is exactly
`c_i = 250`. -/
theorem C11_exact_in_degree (net : Network K)
    (dis_e : Nat → Nat → Fin excitatory_neurons)
    (dis_i : Nat → Nat → Fin inhibitory_neurons) (n : Nat)
    (hn : n < total_neurons) (hempty : ∀ s, s < total_neurons → (net s).n_target = []) :
    inboundExcitatory (buildConnections net dis_e dis_i) n = c_e ∧
    inboundInhibitory (buildConnections net dis_e dis_i) n = c_i ∧
    c_e = 1000 ∧ c_i = 250 := by
  obtain ⟨h1, h2⟩ := buildConnections_occurrences net dis_e dis_i n hn
  have z1 : inboundExcitatory net n = 0 := by
    unfold inboundExcitatory occurrences
    apply Finset.sum_eq_zero
    intro s hs
    rw [hempty s (by rw [Finset.mem_range] at hs; unfold excitatory_neurons at hs
                     unfold total_neurons; omega)]
    rfl
  have z2 : inboundInhibitory net n = 0 := by
    unfold inboundInhibitory occurrences
    apply Finset.sum_eq_zero
    intro s hs
    rw [hempty s (Finset.mem_Ico.mp hs).2]
    rfl
  rw [h1, h2, z1, z2]
  exact ⟨zero_add _, zero_add _, rfl, rfl⟩

/-- A witness of C11: the freshly initialised collection, every draw equal to 0, and
the neuron 12499. -/
theorem C11_witness :
    inboundExcitatory (buildConnections (initializeNeurons 0 0 0 0 : Network ℚ)
      (fun _ _ => ⟨0, by decide⟩) (fun _ _ => ⟨0, by decide⟩)) 12499 = c_e ∧
    inboundInhibitory (buildConnections (initializeNeurons 0 0 0 0 : Network ℚ)
      (fun _ _ => ⟨0, by decide⟩) (fun _ _ => ⟨0, by decide⟩)) 12499 = c_i ∧
    c_e = 1000 ∧ c_i = 250 :=
  C11_exact_in_degree (initializeNeurons 0 0 0 0 : Network ℚ)
    (fun _ _ => ⟨0, by decide⟩) (fun _ _ => ⟨0, by decide⟩) 12499 (by decide)
    (by intro s _; unfold initializeNeurons; split <;> rfl)

/-- C12. In a network whose target lists are all empty, after `addConnections` has
run exactly once for every neuron, the sum over all neurons of the sizes of the
target lists is `total_neurons * (c_e + c_i) = 12500 * 1250`, for every outcome of
the random draws. -/
theorem C12_total_targets (net : Network K)
    (dis_e : Nat → Nat → Fin excitatory_neurons)
    (dis_i : Nat → Nat → Fin inhibitory_neurons)
    (hempty : ∀ s, s < total_neurons → (net s).n_target = []) :
    totalTargets (buildConnections net dis_e dis_i) = total_neurons * (c_e + c_i) ∧
    total_neurons * (c_e + c_i) = 12500 * 1250 := by
  have z : totalTargets net = 0 := by
    unfold totalTargets
    apply Finset.sum_eq_zero
    intro s hs
    rw [hempty s (Finset.mem_range.mp hs)]
    rfl
  rw [buildConnections_totalTargets, z]
  exact ⟨zero_add _, rfl⟩

/-- A witness of C12: the freshly initialised collection, every draw equal to 0. -/
theorem C12_witness :
    totalTargets (buildConnections (initializeNeurons 0 0 0 0 : Network ℚ)
      (fun _ _ => ⟨0, by decide⟩) (fun _ _ => ⟨0, by decide⟩)) =
        total_neurons * (c_e + c_i) ∧
    total_neurons * (c_e + c_i) = 12500 * 1250 :=
  C12_total_targets (initializeNeurons 0 0 0 0 : Network ℚ)
    (fun _ _ => ⟨0, by decide⟩) (fun _ _ => ⟨0, by decide⟩)
    (by intro s _; unfold initializeNeurons; split <;> rfl)

theorem foldl_connectExcitatory_other (self : Nat) (neurons : Nat → Nat)
    (dis_e : Nat → Fin excitatory_neurons) (s : Nat) (hs : s ≠ self) (l : List Nat) :
    ∀ net : Network K,
      (l.foldl (connectExcitatory self neurons dis_e) net s).nb_excitatory_connections =
        (net s).nb_excitatory_connections ∧
      (l.foldl (connectExcitatory self neurons dis_e) net s).nb_inhibitory_connections =
        (net s).nb_inhibitory_connections := by
  induction l with
  | nil => intro net; exact ⟨rfl, rfl⟩
  | cons i l ih =>
    intro net
    rw [List.foldl_cons]
    obtain ⟨h1, h2⟩ := ih (connectExcitatory self neurons dis_e net i)
    rw [h1, h2]
    unfold connectExcitatory
    simp only [Function.update_noteq hs]
    by_cases ha : s = neurons (dis_e i)
    · rw [← ha, Function.update_same]; exact ⟨rfl, rfl⟩
    · rw [Function.update_noteq ha]; exact ⟨rfl, rfl⟩

theorem foldl_connectInhibitory_other (self : Nat) (neurons : Nat → Nat)
    (dis_i : Nat → Fin inhibitory_neurons) (s : Nat) (hs : s ≠ self) (l : List Nat) :
    ∀ net : Network K,
      (l.foldl (connectInhibitory self neurons dis_i) net s).nb_excitatory_connections =
        (net s).nb_excitatory_connections ∧
      (l.foldl (connectInhibitory self neurons dis_i) net s).nb_inhibitory_connections =
        (net s).nb_inhibitory_connections := by
  induction l with
  | nil => intro net; exact ⟨rfl, rfl⟩
  | cons i l ih =>
    intro net
    rw [List.foldl_cons]
    obtain ⟨h1, h2⟩ := ih (connectInhibitory self neurons dis_i net i)
    rw [h1, h2]
    unfold connectInhibitory
    simp only [Function.update_noteq hs]
    by_cases ha : s = neurons (excitatory_neurons + dis_i i)
    · rw [← ha, Function.update_same]; exact ⟨rfl, rfl⟩
    · rw [Function.update_noteq ha]; exact ⟨rfl, rfl⟩

theorem addConnections_counters_at (net : Network K) (self : Nat) (neurons : Nat → Nat)
    (dis_e : Nat → Fin excitatory_neurons) (dis_i : Nat → Fin inhibitory_neurons)
    (s : Nat) :
    (addConnections net self neurons dis_e dis_i s).nb_excitatory_connections =
      (net s).nb_excitatory_connections + (if self = s then 1 else 0 : Nat) * c_e ∧
    (addConnections net self neurons dis_e dis_i s).nb_inhibitory_connections =
      (net s).nb_inhibitory_connections + (if self = s then 1 else 0 : Nat) * c_i := by
  by_cases hs : self = s
  · subst hs
    obtain ⟨h1, h2⟩ := addConnections_counters net self neurons dis_e dis_i
    rw [h1, h2, if_pos rfl]
    push_cast
    exact ⟨by ring, by ring⟩
  · have hs' : s ≠ self := fun hc => hs hc.symm
    unfold addConnections
    obtain ⟨h1, h2⟩ := foldl_connectInhibitory_other self neurons dis_i s hs' (List.range c_i)
      ((List.range c_e).foldl (connectExcitatory self neurons dis_e) net)
    obtain ⟨h3, h4⟩ := foldl_connectExcitatory_other self neurons dis_e s hs'
      (List.range c_e) net
    rw [h1, h2, h3, h4, if_neg hs]
    push_cast
    exact ⟨by ring, by ring⟩

theorem buildConnections_counters (net : Network K)
    (dis_e : Nat → Nat → Fin excitatory_neurons)
    (dis_i : Nat → Nat → Fin inhibitory_neurons) (n : Nat) (hn : n < total_neurons) :
    (buildConnections net dis_e dis_i n).nb_excitatory_connections =
      (net n).nb_excitatory_connections + c_e ∧
    (buildConnections net dis_e dis_i n).nb_inhibitory_connections =
      (net n).nb_inhibitory_connections + c_i := by
  have key : ∀ (l : List Nat) (net : Network K),
      (l.foldl (fun net k => addConnections net k id (dis_e k) (dis_i k)) net
          n).nb_excitatory_connections =
        (net n).nb_excitatory_connections +
          ((l.map fun k => if k = n then 1 else 0).sum : Nat) * c_e ∧
      (l.foldl (fun net k => addConnections net k id (dis_e k) (dis_i k)) net
          n).nb_inhibitory_connections =
        (net n).nb_inhibitory_connections +
          ((l.map fun k => if k = n then 1 else 0).sum : Nat) * c_i := by
    intro l
    induction l with
    | nil => intro net; simp
    | cons k l ih =>
      intro net
      rw [List.foldl_cons]
      obtain ⟨h1, h2⟩ := ih (addConnections net k id (dis_e k) (dis_i k))
      obtain ⟨h3, h4⟩ := addConnections_counters_at net k id (dis_e k) (dis_i k) n
      rw [h1, h2, h3, h4, List.map_cons, List.sum_cons]
      push_cast
      exact ⟨by ring, by ring⟩
  obtain ⟨h1, h2⟩ := key (List.range total_neurons) net
  rw [sum_indicator_range, if_pos hn] at h1 h2
  unfold buildConnections
  rw [h1, h2]
  push_cast
  exact ⟨by ring, by ring⟩

/-- C13 on the code. Connectivity building is not idempotent: in a second run of
`addConnections` for every neuron, for every outcome of the draws of both runs, the
number of occurrences of every neuron `n` in the target lists of the excitatory and
of the inhibitory neurons doubles to `2*c_e` and `2*c_i`, and the total number of
outbound edges doubles. The inbound counters of the neurons do not double: the
constructor leaves them uninitialised (the defect of C10), so in the collection in
which they hold 7 and -3 they are 1007 and 247 after the first run and 2007 and 497
after the second, not `2*c_e = 2000` and `2*c_i = 500`. -/
theorem C13_second_build
    (dis_e dis_e' : Nat → Nat → Fin excitatory_neurons)
    (dis_i dis_i' : Nat → Nat → Fin inhibitory_neurons) (n : Fin total_neurons) :
    inboundExcitatory (buildConnections (buildConnections
      (initializeNeurons 7 (-3) 7 (-3) : Network ℚ) dis_e dis_i) dis_e' dis_i') n = 2 * c_e ∧
    inboundInhibitory (buildConnections (buildConnections
      (initializeNeurons 7 (-3) 7 (-3) : Network ℚ) dis_e dis_i) dis_e' dis_i') n = 2 * c_i ∧
    totalTargets (buildConnections (buildConnections
      (initializeNeurons 7 (-3) 7 (-3) : Network ℚ) dis_e dis_i) dis_e' dis_i') =
        2 * totalTargets (buildConnections
          (initializeNeurons 7 (-3) 7 (-3) : Network ℚ) dis_e dis_i) ∧
    (buildConnections (initializeNeurons 7 (-3) 7 (-3) : Network ℚ) dis_e dis_i
      n).nb_excitatory_connections = 1007 ∧
    (buildConnections (initializeNeurons 7 (-3) 7 (-3) : Network ℚ) dis_e dis_i
      n).nb_inhibitory_connections = 247 ∧
    (buildConnections (buildConnections
      (initializeNeurons 7 (-3) 7 (-3) : Network ℚ) dis_e dis_i) dis_e' dis_i'
      n).nb_excitatory_connections = 2007 ∧
    (buildConnections (buildConnections
      (initializeNeurons 7 (-3) 7 (-3) : Network ℚ) dis_e dis_i) dis_e' dis_i'
      n).nb_inhibitory_connections = 497 ∧
    (2007 : Int) ≠ 2 * c_e ∧ (2007 : Int) ≠ 2 * 1007 ∧
    (497 : Int) ≠ 2 * c_i ∧ (497 : Int) ≠ 2 * 247 := by
  have hg : ((initializeNeurons 7 (-3) 7 (-3) : Network ℚ) n).nb_excitatory_connections = 7 ∧
      ((initializeNeurons 7 (-3) 7 (-3) : Network ℚ) n).nb_inhibitory_connections = -3 := by
    unfold initializeNeurons; split <;> exact ⟨rfl, rfl⟩
  obtain ⟨o1, o2⟩ := buildConnections_occurrences
    (initializeNeurons 7 (-3) 7 (-3) : Network ℚ) dis_e dis_i n n.isLt
  obtain ⟨o3, o4⟩ := buildConnections_occurrences
    (buildConnections (initializeNeurons 7 (-3) 7 (-3) : Network ℚ) dis_e dis_i)
    dis_e' dis_i' n n.isLt
  have t1 := buildConnections_totalTargets
    (initializeNeurons 7 (-3) 7 (-3) : Network ℚ) dis_e dis_i
  have t2 := buildConnections_totalTargets
    (buildConnections (initializeNeurons 7 (-3) 7 (-3) : Network ℚ) dis_e dis_i)
    dis_e' dis_i'
  obtain ⟨c1, c2⟩ := buildConnections_counters
    (initializeNeurons 7 (-3) 7 (-3) : Network ℚ) dis_e dis_i n n.isLt
  obtain ⟨c3, c4⟩ := buildConnections_counters
    (buildConnections (initializeNeurons 7 (-3) 7 (-3) : Network ℚ) dis_e dis_i)
    dis_e' dis_i' n n.isLt
  have z1 : inboundExcitatory (initializeNeurons 7 (-3) 7 (-3) : Network ℚ) n = 0 := by
    unfold inboundExcitatory occurrences
    apply Finset.sum_eq_zero
    intro s _
    unfold initializeNeurons; split <;> rfl
  have z2 : inboundInhibitory (initializeNeurons 7 (-3) 7 (-3) : Network ℚ) n = 0 := by
    unfold inboundInhibitory occurrences
    apply Finset.sum_eq_zero
    intro s _
    unfold initializeNeurons; split <;> rfl
  have z3 : totalTargets (initializeNeurons 7 (-3) 7 (-3) : Network ℚ) = 0 := by
    unfold totalTargets
    apply Finset.sum_eq_zero
    intro s _
    unfold initializeNeurons; split <;> rfl
  rw [o3, o4, o1, o2, z1, z2, t2, t1, z3, c3, c4, c1, c2, hg.1, hg.2]
  unfold c_e c_i
  refine ⟨by norm_num, by norm_num, by ring, by norm_num, by norm_num, by norm_num,
    by norm_num, by norm_num, by norm_num, by norm_num, by norm_num⟩

/-! ## The records of the network simulation -/

theorem neuronStep_of_update (exp : K → K) (g : K) (i : Nat) (noise : K)
    (net net' : Network K) (records : List (K × Nat))
    (hu : update exp net i N noise g = some net') :
    neuronStep exp g i noise (net, records) =
      if (net' i).spike = true then some (net', records ++ [((net' i).t_spike / h K, i)])
      else some (net', records) := by
  unfold neuronStep
  simp only [hu]

theorem randomSpikes_first {G : Type} (poisson : K → G → Nat × G) (pois : K) (gen : G) :
    randomSpikes poisson pois { gen := gen, dis_ext := none } =
      (J_e K * ((poisson pois gen).1 : K),
        { gen := (poisson pois gen).2, dis_ext := some pois }) := rfl

theorem randomSpikes_later {G : Type} (poisson : K → G → Nat × G) (pois rate : K)
    (gen : G) :
    randomSpikes poisson pois { gen := gen, dis_ext := some rate } =
      (J_e K * ((poisson rate gen).1 : K),
        { gen := (poisson rate gen).2, dis_ext := some rate }) := rfl

/-- C18 on the code. The first call of `randomSpikes` in a process returns `J_e * k`
with `k` drawn from the distribution constructed with the rate given to that call.
A later call with another rate does not: after `randomSpikes(2)`, the call
`randomSpikes(4)` returns `J_e * k` with `k` drawn from the distribution constructed
with rate 2, because the static distribution is constructed in the first call only;
the rate 4 is ignored, and stays ignored in every later call. -/
theorem C18_rate_of_first_call {G : Type} (poisson : ℚ → G → Nat × G) (gen : G) :
    (randomSpikes poisson 2 { gen := gen, dis_ext := none }).1 =
      J_e ℚ * ((poisson 2 gen).1 : ℚ) ∧
    (randomSpikes poisson 4
      (randomSpikes poisson 2 { gen := gen, dis_ext := none }).2).1 =
      J_e ℚ * ((poisson 2 (poisson 2 gen).2).1 : ℚ) ∧
    (randomSpikes poisson 4
      (randomSpikes poisson 2 { gen := gen, dis_ext := none }).2).2.dis_ext = some 2 ∧
    (2 : ℚ) ≠ 4 := by
  rw [randomSpikes_first, randomSpikes_later]
  exact ⟨rfl, rfl, rfl, by norm_num⟩

/-! ## The one-neuron scenario for every input -/

theorem closed_form_zero (exp : K → K) (m : Nat) :
    R K * 0 * (1 - const1 exp ^ m) ≤ V_thr K := by
  rw [mul_zero, zero_mul]
  exact not_lt.mp zero_le_V_thr

/-- C21. A freshly constructed neuron with zero external input, zero noise on every
update and no inbound spike: for every number `n` of updates the run returns, the
potential after it is 0, the spike flag is false and the spike count is 0. -/
theorem C21_zero_input (exp : K → K) (garbage_e garbage_i : Int) (g : K) (n : Nat) :
    ∃ net', runUpdates exp g (oneNeuronNet garbage_e garbage_i (0 : K))
        (List.replicate n (0, 0.0)) = some net' ∧
      (net' 0).V_membrane = 0 ∧ (net' 0).spike = false ∧ (net' 0).nb_spikes = 0 := by
  have hf := oneNeuronNet_fields garbage_e garbage_i (0 : K) 0
  obtain ⟨net', hr, hV, -, -, -, hs, hnb, -, -⟩ :=
    run_integrating exp g (0 : K) 0 (oneNeuronNet garbage_e garbage_i (0 : K))
      hf.1 hf.2.1 hf.2.2.1 hf.2.2.2.1 hf.2.2.2.2.1 n (fun m _ => closed_form_zero exp m)
  refine ⟨net', hr, ?_, hs, by rw [hnb, hf.2.2.2.2.2.1]⟩
  rw [hV, mul_zero, zero_mul]

theorem const1_real_pow_bounds (m : Nat) :
    0 < const1 Real.exp ^ m ∧ const1 Real.exp ^ m ≤ 1 := by
  have hpos : 0 < const1 Real.exp := Real.exp_pos _
  have hle : const1 Real.exp ≤ 1 := by
    unfold const1
    rw [← Real.exp_zero]
    apply Real.exp_le_exp.mpr
    unfold h tau
    norm_num
  exact ⟨pow_pos hpos m, pow_le_one₀ hpos.le hle⟩

/-- C22. In the one-neuron scenario (fresh neuron, zero noise, no inbound spike, step
increment 1, real exponential), for every constant external input `I` with
`0 ≤ I ≤ 1` and every number `n` of updates, the run returns, the potential after it
does not exceed the threshold, the spike flag is false and the spike count is 0. -/
theorem C22_no_spike_below_one (garbage_e garbage_i : Int) (I g : ℝ) (n : Nat)
    (hI0 : 0 ≤ I) (hI1 : I ≤ 1) :
    ∃ net', runUpdates Real.exp g (oneNeuronNet garbage_e garbage_i I)
        (List.replicate n (0, 0.0)) = some net' ∧
      (net' 0).V_membrane ≤ V_thr ℝ ∧ (net' 0).spike = false ∧ (net' 0).nb_spikes = 0 := by
  have hf := oneNeuronNet_fields garbage_e garbage_i I 0
  have hcf : ∀ m : Nat, R ℝ * I * (1 - const1 Real.exp ^ m) ≤ V_thr ℝ := by
    intro m
    obtain ⟨hp, -⟩ := const1_real_pow_bounds m
    have h1 : I * (1 - const1 Real.exp ^ m) ≤ 1 := by nlinarith
    unfold R V_thr
    norm_num
    nlinarith
  obtain ⟨net', hr, hV, -, -, -, hs, hnb, -, -⟩ :=
    run_integrating Real.exp g I 0 (oneNeuronNet garbage_e garbage_i I)
      hf.1 hf.2.1 hf.2.2.1 hf.2.2.2.1 hf.2.2.2.2.1 n (fun m _ => hcf m)
  exact ⟨net', hr, by rw [hV]; exact hcf n, hs, by rw [hnb, hf.2.2.2.2.2.1]⟩

/-- A witness of C22: the input 1 and 5000 updates. -/
theorem C22_witness :
    ∃ net', runUpdates Real.exp 5 (oneNeuronNet 0 0 (1 : ℝ))
        (List.replicate 5000 (0, 0.0)) = some net' ∧
      (net' 0).V_membrane ≤ V_thr ℝ ∧ (net' 0).spike = false ∧ (net' 0).nb_spikes = 0 :=
  C22_no_spike_below_one 0 0 1 5 5000 zero_le_one (le_refl 1)

/-! ## Closed form of the integration -/

theorem update_self_cases (exp : K → K) (net : Network K) (p : Nat) (dt : Int)
    (noise g : K) (hv : (net p).targetsValid) :
    ∃ net', update exp net p dt noise g = some net' ∧
      (net' p).n_target = (net p).n_target ∧
      ((net p).V_membrane > V_thr K → (net' p).nb_spikes = (net p).nb_spikes + 1) ∧
      (¬ (net p).V_membrane > V_thr K →
        net' p = ({ net p with spike := false } : Neuron K).updateTail exp dt noise ∧
        (net' p).nb_spikes = (net p).nb_spikes) := by
  obtain ⟨net', hu, -, hself⟩ := update_some exp net p dt noise g hv
  refine ⟨net', hu, update_n_target exp net net' p dt noise g hu p, ?_, ?_⟩
  · intro hV
    rw [hself, if_pos hV, (updateTail_fields exp _ dt noise).2.1, (spikeNet_self net p g).2.2.1]
  · intro hV
    rw [hself, if_neg hV]
    exact ⟨rfl, (updateTail_fields exp _ dt noise).2.1⟩

/-! ## Frame of `update` -/

/-- C30. Frame of `update`. A call `update(dt, noise, g)` on the neuron `p` (whose
assertions hold) returns and leaves the potential, local clock, spike count, last
spike time, flags, external input, role, target list and inbound counters of every
other neuron `q` unchanged. In the buffer of `q` it can only change the slot
`(neuron_clock_p + D) mod (D+1)`, and only when `q` is in the target list of `p`;
when `p` does not spike in the call nothing at all changes in `q`. -/
theorem C30_frame (exp : K → K) (net : Network K) (p q : Nat) (dt : Int) (noise g : K)
    (hok : (net p).V_membrane > V_thr K → (net p).targetsValid) (hq : q ≠ p) :
    ∃ net', update exp net p dt noise g = some net' ∧
      (net' q).V_membrane = (net q).V_membrane ∧
      (net' q).neuron_clock = (net q).neuron_clock ∧
      (net' q).nb_spikes = (net q).nb_spikes ∧
      (net' q).t_spike = (net q).t_spike ∧
      (net' q).spike = (net q).spike ∧
      (net' q).r_period = (net q).r_period ∧
      (net' q).external_input = (net q).external_input ∧
      (net' q).excitatory_neuron = (net q).excitatory_neuron ∧
      (net' q).n_target = (net q).n_target ∧
      (net' q).nb_excitatory_connections = (net q).nb_excitatory_connections ∧
      (net' q).nb_inhibitory_connections = (net q).nb_inhibitory_connections ∧
      (∀ i : Fin (D + 1), (i : Nat) ≠ ((net p).neuron_clock + D) % (D + 1) →
        (net' q).t_buffer i = (net q).t_buffer i) ∧
      (some q ∉ (net p).n_target → net' q = net q) ∧
      (¬ (net p).V_membrane > V_thr K → net' q = net q) := by
  refine ⟨_, update_ok exp net p dt noise g hok, ?_⟩
  rw [updated_other exp net p q dt noise g hq]
  have hf := addTimeBuffer_fields (net q) (((net p).neuron_clock + D) % (D + 1))
    ((net p).sent g q)
  refine ⟨hf.2.1, hf.2.2.2.2.2.1, hf.2.2.1, hf.2.2.2.1, hf.2.2.2.2.1, hf.2.2.2.2.2.2.2.1,
    hf.2.2.2.2.2.2.1, hf.1, hf.2.2.2.2.2.2.2.2.1, hf.2.2.2.2.2.2.2.2.2.1,
    hf.2.2.2.2.2.2.2.2.2.2, ?_, ?_, ?_⟩
  · intro i hi
    unfold Neuron.addTimeBuffer
    split
    · rename_i hlt
      have hne : i ≠ ⟨((net p).neuron_clock + D) % (D + 1), hlt⟩ := by
        intro hc; exact hi (by rw [hc])
      simp [Function.update_noteq hne]
    · rfl
  · intro hn
    unfold Neuron.sent
    rw [List.count_eq_zero.mpr hn]
    simp [addTimeBuffer_zero]
  · intro hV
    unfold Neuron.sent
    rw [if_neg hV, addTimeBuffer_zero]

/-- A witness of C30: the neuron at address 0 spikes into the buffer of the neuron at
address 1. -/
theorem C30_witness :
    ∃ net', update expQ (spikingNet true [some 1]) 0 1 0 5 = some net' ∧
      (net' 1).V_membrane = (spikingNet true [some 1] 1).V_membrane ∧
      (net' 1).neuron_clock = (spikingNet true [some 1] 1).neuron_clock ∧
      (net' 1).nb_spikes = (spikingNet true [some 1] 1).nb_spikes ∧
      (net' 1).t_spike = (spikingNet true [some 1] 1).t_spike ∧
      (net' 1).spike = (spikingNet true [some 1] 1).spike ∧
      (net' 1).r_period = (spikingNet true [some 1] 1).r_period ∧
      (net' 1).external_input = (spikingNet true [some 1] 1).external_input ∧
      (net' 1).excitatory_neuron = (spikingNet true [some 1] 1).excitatory_neuron ∧
      (net' 1).n_target = (spikingNet true [some 1] 1).n_target ∧
      (net' 1).nb_excitatory_connections =
        (spikingNet true [some 1] 1).nb_excitatory_connections ∧
      (net' 1).nb_inhibitory_connections =
        (spikingNet true [some 1] 1).nb_inhibitory_connections ∧
      (∀ i : Fin (D + 1),
        (i : Nat) ≠ ((spikingNet true [some 1] 0).neuron_clock + D) % (D + 1) →
        (net' 1).t_buffer i = (spikingNet true [some 1] 1).t_buffer i) ∧
      (some 1 ∉ (spikingNet true [some 1] 0).n_target →
        net' 1 = spikingNet true [some 1] 1) ∧
      (¬ (spikingNet true [some 1] 0).V_membrane > V_thr ℚ →
        net' 1 = spikingNet true [some 1] 1) :=
  C30_frame expQ (spikingNet true [some 1]) 0 1 1 0 5
    (by intro _; simp [Neuron.targetsValid, spikingNet]) (by decide)

/-! ## Inter-spike interval and input lost while refractory -/

theorem updated_self_fields (exp : K → K) (net : Network K) (p : Nat) (dt : Int)
    (noise g : K) :
    (updated exp net p dt noise g p).neuron_clock =
      Int.toNat (((net p).neuron_clock : Int) + dt) ∧
    ((updated exp net p dt noise g p).spike = true ↔ (net p).V_membrane > V_thr K) := by
  unfold updated
  rw [Function.update_same, (addTimeBuffer_fields _ _ _).2.2.2.2.2.1,
    (addTimeBuffer_fields _ _ _).2.2.2.2.1, (updateTail_fields exp _ dt noise).2.2.2.2.1,
    (updateTail_fields exp _ dt noise).2.2.2.1, (fire_fields (net p)).1]
  refine ⟨rfl, ?_⟩
  unfold Neuron.fire
  split
  · rename_i hV
    simp [Neuron.updateNeuronState, hV]
  · rename_i hV
    simp [hV]

theorem runUpdates_clock (exp : K → K) (g : K) (self : Nat) :
    ∀ (sched : List (Nat × K)) (net net' : Network K),
      runUpdates exp g net sched = some net' →
      (net' self).neuron_clock = (net self).neuron_clock + updatesOf self sched := by
  intro sched
  induction sched with
  | nil =>
    intro net net' hr
    cases hr
    simp [updatesOf]
  | cons e rest ih =>
    obtain ⟨p, noise⟩ := e
    intro net net' hr
    simp only [runUpdates] at hr
    cases hu : update exp net p 1 noise g with
    | none => rw [hu] at hr; cases hr
    | some net1 =>
      rw [hu] at hr
      rw [ih net1 net' hr, updatesOf_cons, (update_eq_updated exp net net1 p 1 noise g hu).1]
      by_cases hp : p = self
      · subst hp
        rw [(updated_self_fields exp net p 1 noise g).1, if_pos rfl]
        omega
      · have hsp : self ≠ p := fun hc => hp hc.symm
        rw [(updated_other_fields exp net p self 1 noise g hsp).2.2, if_neg hp]
        omega

theorem tail_integrate_of_not_holds (exp : K → K) (n : Neuron K) (noise : K)
    (hn : ¬ n.holds) :
    (({ n with spike := false } : Neuron K).updateTail exp 1 noise).V_membrane =
      const1 exp * n.V_membrane + const2 exp * n.external_input +
        n.getTimeBuffer (n.neuron_clock % (D + 1)) + noise ∧
    (({ n with spike := false } : Neuron K).updateTail exp 1 noise).r_period = false ∧
    (({ n with spike := false } : Neuron K).updateTail exp 1 noise).neuron_clock =
      n.neuron_clock + 1 ∧
    (({ n with spike := false } : Neuron K).updateTail exp 1 noise).external_input =
      n.external_input ∧
    (∀ j, (({ n with spike := false } : Neuron K).updateTail exp 1 noise).getTimeBuffer j =
      if j = n.neuron_clock % (D + 1) then 0 else n.getTimeBuffer j) ∧
    (({ n with spike := false } : Neuron K).updateTail exp 1 noise).nb_spikes =
      n.nb_spikes ∧
    (({ n with spike := false } : Neuron K).updateTail exp 1 noise).n_target =
      n.n_target := by
  have hn' : ¬ ({ n with spike := false } : Neuron K).holds := hn
  have hf := updateTail_fields exp ({ n with spike := false } : Neuron K) 1 noise
  have hV := updateTail_V_of_not_holds exp _ 1 noise hn'
  refine ⟨hV.1, hV.2, ?_, hf.2.2.2.2.2.1, ?_, hf.2.1, hf.2.2.2.2.2.2.1⟩
  · rw [hf.2.2.2.2.1]
    show Int.toNat ((n.neuron_clock : Int) + 1) = _
    omega
  · intro j
    rw [updateTail_getTimeBuffer]
    rfl

theorem run_integrating_ready (exp : K → K) (g I : K) (self c s : Nat) :
    ∀ (n : Nat) (net : Network K), (net self).ready I c s →
      (∀ m < n, R K * I * (1 - const1 exp ^ m) ≤ V_thr K) →
      ∃ net', runUpdates exp g net (List.replicate n (self, 0.0)) = some net' ∧
        (net' self).V_membrane = R K * I * (1 - const1 exp ^ n) ∧
        ¬ (net' self).holds ∧ (net' self).external_input = I ∧
        (∀ j, (net' self).getTimeBuffer j = 0) ∧ (net' self).nb_spikes = s ∧
        (net' self).neuron_clock = c + n ∧ (net' self).n_target = [] := by
  intro n
  induction n with
  | zero =>
    intro net hrd _
    obtain ⟨h1, h2, h3, h4, h5, h6, h7⟩ := hrd
    exact ⟨net, rfl, by rw [h2]; simp, h1, h3, h4, h5, h6, h7⟩
  | succ n ih =>
    intro net hrd hle
    obtain ⟨net1, hrun, h1V, h1h, h1e, h1b, h1n, h1c, h1t⟩ :=
      ih net hrd (fun m hm => hle m (by omega))
    have hnc : ¬ (net1 self).V_membrane > V_thr K := by
      rw [h1V]; exact not_lt.mpr (hle n (by omega))
    have hu := update_of_not_crossed exp net1 self 1 0.0 g hnc
    have hT := tail_integrate_of_not_holds exp (net1 self) 0.0 h1h
    refine ⟨Function.update net1 self
      (({ net1 self with spike := false } : Neuron K).updateTail exp 1 0.0), ?_, ?_⟩
    · rw [List.replicate_succ', runUpdates_append, hrun, Option.some_bind]
      simp only [runUpdates, hu]
    · rw [Function.update_same]
      refine ⟨?_, not_holds_of_r_period _ hT.2.1, by rw [hT.2.2.2.1, h1e], ?_,
        by rw [hT.2.2.2.2.2.1, h1n], by rw [hT.2.2.1, h1c]; omega,
        by rw [hT.2.2.2.2.2.2, h1t]⟩
      · rw [hT.1, h1V, h1e, h1b]
        have h0 : (0.0 : K) = 0 := by norm_num
        rw [h0]
        unfold const2
        ring
      · intro j
        rw [hT.2.2.2.2.1 j, h1b]
        simp

theorem spike_step (exp : K → K) (g I : K) (self c s : Nat) (net : Network K)
    (hV : (net self).V_membrane > V_thr K) (he : (net self).external_input = I)
    (hb : ∀ j, (net self).getTimeBuffer j = 0) (hn : (net self).nb_spikes = s)
    (hc : (net self).neuron_clock = c) (ht : (net self).n_target = []) :
    ∃ net', update exp net self 1 0.0 g = some net' ∧
      (net' self).r_period = true ∧ (net' self).t_spike = (c : K) * h K ∧
      (net' self).V_membrane = V_refractory K ∧ (net' self).external_input = I ∧
      (∀ j, (net' self).getTimeBuffer j = 0) ∧ (net' self).nb_spikes = s + 1 ∧
      (net' self).neuron_clock = c + 1 ∧ (net' self).n_target = [] := by
  have hv : (net self).targetsValid := by
    unfold Neuron.targetsValid; rw [ht]; simp
  refine ⟨_, update_of_crossed exp net self 1 0.0 g hV hv, ?_⟩
  rw [Function.update_same]
  have hs := spikeNet_self net self g
  have hf := updateTail_fields exp (spikeNet net self g self) 1 0.0
  have hh := updateTail_V_of_holds exp _ 1 0.0 (spikeNet_self_holds net self g)
  refine ⟨hh.2, by rw [hf.2.2.1, hs.2.2.2.1, hc], hh.1,
    by rw [hf.2.2.2.2.2.1, hs.2.2.2.2.2.2.1, he], ?_, by rw [hf.2.1, hs.2.2.1, hn],
    by rw [hf.2.2.2.2.1, hs.2.2.2.2.2.1, hc]; omega,
    by rw [hf.2.2.2.2.2.2.1, hs.2.2.2.2.2.2.2.2.1, ht]⟩
  intro j
  rw [updateTail_getTimeBuffer, spikeNet_getTimeBuffer, hb, ht]
  simp

theorem run_hold (exp : K → K) (g I : K) (self c s : Nat) :
    ∀ (n k : Nat) (net : Network K),
      (net self).r_period = true → (net self).t_spike = (c : K) * h K →
      (net self).V_membrane = V_refractory K → (net self).external_input = I →
      (∀ j, (net self).getTimeBuffer j = 0) → (net self).nb_spikes = s →
      (net self).neuron_clock = c + 1 + k → (net self).n_target = [] →
      k + n < tau_rp →
      ∃ net', runUpdates exp g net (List.replicate n (self, 0.0)) = some net' ∧
        (net' self).r_period = true ∧ (net' self).t_spike = (c : K) * h K ∧
        (net' self).V_membrane = V_refractory K ∧ (net' self).external_input = I ∧
        (∀ j, (net' self).getTimeBuffer j = 0) ∧ (net' self).nb_spikes = s ∧
        (net' self).neuron_clock = c + 1 + (k + n) ∧ (net' self).n_target = [] := by
  intro n
  induction n with
  | zero =>
    intro k net hr ht hV he hb hn hc htg _
    exact ⟨net, rfl, hr, ht, hV, he, hb, hn, hc, htg⟩
  | succ n ih =>
    intro k net hr ht hV he hb hn hc htg hk
    have hnc : ¬ (net self).V_membrane > V_thr K := by
      rw [hV]; exact V_refractory_le_V_thr
    have hu := update_of_not_crossed exp net self 1 0.0 g hnc
    have hT := tail_hold exp (net self) 0.0 c (1 + k) hr ht (by rw [hc]; omega) (by omega)
    have hf := updateTail_fields exp ({ net self with spike := false } : Neuron K) 1 0.0
    have hgb : ∀ j, (({ net self with spike := false } : Neuron K).updateTail exp 1
        0.0).getTimeBuffer j = 0 := by
      intro j
      rw [updateTail_getTimeBuffer]
      split
      · rfl
      · exact hb j
    obtain ⟨net', hrun, h1, h2, h3, h4, h5, h6, h7, h8⟩ :=
      ih (k + 1) (Function.update net self
        (({ net self with spike := false } : Neuron K).updateTail exp 1 0.0))
        (by rw [Function.update_same]; exact hT.2.1)
        (by rw [Function.update_same, hT.2.2.2]; exact ht)
        (by rw [Function.update_same]; exact hT.1)
        (by rw [Function.update_same, hf.2.2.2.2.2.1]; exact he)
        (by rw [Function.update_same]; exact hgb)
        (by rw [Function.update_same, hf.2.1]; exact hn)
        (by rw [Function.update_same, hT.2.2.1, hc]; omega)
        (by rw [Function.update_same, hf.2.2.2.2.2.2.1]; exact htg)
        (by omega)
    refine ⟨net', ?_, h1, h2, h3, h4, h5, h6, by rw [h7]; omega, h8⟩
    rw [List.replicate_succ]
    simp only [runUpdates, hu]
    exact hrun

theorem run_cycle (exp : K → K) (g I : K) (self P : Nat)
    (hle : ∀ m < P, R K * I * (1 - const1 exp ^ m) ≤ V_thr K)
    (hgt : R K * I * (1 - const1 exp ^ P) > V_thr K) (c s : Nat) (net : Network K)
    (hrd : (net self).ready I c s) :
    ∃ net', runUpdates exp g net (List.replicate (P + tau_rp) (self, 0.0)) = some net' ∧
      (net' self).ready I (c + (P + tau_rp)) (s + 1) := by
  obtain ⟨net1, hr1, h1V, -, h1e, h1b, h1n, h1c, h1t⟩ :=
    run_integrating_ready exp g I self c s P net hrd hle
  obtain ⟨net2, hu2, h2r, h2t, h2V, h2e, h2b, h2n, h2c, h2tg⟩ :=
    spike_step exp g I self (c + P) s net1 (by rw [h1V]; exact hgt) h1e h1b h1n h1c h1t
  obtain ⟨net3, hr3, h3r, h3t, h3V, h3e, h3b, h3n, h3c, h3tg⟩ :=
    run_hold exp g I self (c + P) (s + 1) (tau_rp - 1) 0 net2 h2r h2t h2V h2e h2b h2n
      (by rw [h2c]) h2tg (by unfold tau_rp; omega)
  refine ⟨net3, ?_, ?_⟩
  · have hsplit : P + tau_rp = P + (1 + (tau_rp - 1)) := by unfold tau_rp; omega
    rw [hsplit, List.replicate_add, List.replicate_add, runUpdates_append, hr1,
      Option.some_bind, runUpdates_append]
    have h1 : runUpdates exp g net1 (List.replicate 1 (self, 0.0)) = some net2 := by
      simp only [List.replicate, runUpdates, hu2]
    rw [h1, Option.some_bind, hr3]
  · have hclock : (net3 self).neuron_clock = c + P + tau_rp := by
      rw [h3c]; unfold tau_rp; omega
    refine ⟨?_, by rw [h3V]; unfold V_refractory; norm_num, h3e, h3b, h3n,
      by rw [hclock]; omega, h3tg⟩
    unfold Neuron.holds
    intro hc
    have h2 := hc.2
    rw [hclock, h3t] at h2
    exact absurd ((tau_rp_gt_iff (c + P) tau_rp).mp h2) (lt_irrefl _)

theorem run_cycles (exp : K → K) (g I : K) (self P : Nat)
    (hle : ∀ m < P, R K * I * (1 - const1 exp ^ m) ≤ V_thr K)
    (hgt : R K * I * (1 - const1 exp ^ P) > V_thr K) :
    ∀ (j c s : Nat) (net : Network K), (net self).ready I c s →
      ∃ net', runUpdates exp g net (List.replicate ((P + tau_rp) * j) (self, 0.0)) =
          some net' ∧
        (net' self).ready I (c + (P + tau_rp) * j) (s + j) := by
  intro j
  induction j with
  | zero =>
    intro c s net hrd
    exact ⟨net, rfl, hrd⟩
  | succ j ih =>
    intro c s net hrd
    obtain ⟨net1, hr1, hrd1⟩ := run_cycle exp g I self P hle hgt c s net hrd
    obtain ⟨net2, hr2, hrd2⟩ := ih (c + (P + tau_rp)) (s + 1) net1 hrd1
    refine ⟨net2, ?_, ?_⟩
    · have hsplit : (P + tau_rp) * (j + 1) = (P + tau_rp) + (P + tau_rp) * j := by ring
      rw [hsplit, List.replicate_add, runUpdates_append, hr1, Option.some_bind, hr2]
    · have e1 : c + (P + tau_rp) * (j + 1) = c + (P + tau_rp) + (P + tau_rp) * j := by ring
      have e2 : s + (j + 1) = s + 1 + j := by ring
      rw [e1, e2]
      exact hrd2

theorem run_spike_count (exp : K → K) (g I : K) (self P : Nat)
    (hle : ∀ m < P, R K * I * (1 - const1 exp ^ m) ≤ V_thr K)
    (hgt : R K * I * (1 - const1 exp ^ P) > V_thr K) (j r : Nat) (hr : r ≤ P)
    (c s : Nat) (net : Network K) (hrd : (net self).ready I c s) :
    ∃ net', runUpdates exp g net
        (List.replicate ((P + tau_rp) * j + r) (self, 0.0)) = some net' ∧
      (net' self).nb_spikes = s + j := by
  obtain ⟨net1, hr1, hrd1⟩ := run_cycles exp g I self P hle hgt j c s net hrd
  obtain ⟨net2, hr2, -, -, -, -, hn2, -, -⟩ :=
    run_integrating_ready exp g I self _ _ r net1 hrd1 (fun m hm => hle m (by omega))
  exact ⟨net2, by rw [List.replicate_add, runUpdates_append, hr1, Option.some_bind, hr2],
    hn2⟩

theorem update_count (exp : K → K) (net net' : Network K) (p : Nat) (dt : Int)
    (noise g : K) (hu : update exp net p dt noise g = some net') :
    (net' p).nb_spikes = (net p).nb_spikes + if (net' p).spike = true then 1 else 0 := by
  obtain ⟨he, hok⟩ := update_eq_updated exp net net' p dt noise g hu
  by_cases hV : (net p).V_membrane > V_thr K
  · rw [update_of_crossed exp net p dt noise g hV (hok hV)] at hu
    rw [← Option.some.inj hu, Function.update_same,
      (updateTail_fields exp _ dt noise).2.1, (updateTail_fields exp _ dt noise).2.2.2.1,
      (spikeNet_self net p g).2.2.1, (spikeNet_self net p g).2.2.2.2.1]
    simp
  · rw [update_of_not_crossed exp net p dt noise g hV] at hu
    rw [← Option.some.inj hu, Function.update_same,
      (updateTail_fields exp _ dt noise).2.1, (updateTail_fields exp _ dt noise).2.2.2.1]
    simp

theorem oneNeuronLoop_run (exp : K → K) :
    ∀ (r fuel : Nat) (t : Int) (net net' : Network K) (cout : List K)
      (file : List (K × K)),
      r < fuel → t + (r + 1 : Nat) = t_stop →
      runUpdates exp 5 net (List.replicate (r + 1) (0, 0.0)) = some net' →
      ∃ cout' file', oneNeuronLoop exp fuel t (net, cout, file) = some (net', cout', file') ∧
        cout'.length + (net 0).nb_spikes = cout.length + (net' 0).nb_spikes := by
  intro r
  induction r with
  | zero =>
    intro fuel t net net' cout file hf ht hrun
    obtain ⟨fuel, rfl⟩ : ∃ f, fuel = f + 1 := ⟨fuel - 1, by omega⟩
    simp only [List.replicate, runUpdates] at hrun
    cases hu : update exp net 0 1 0.0 5 with
    | none => rw [hu] at hrun; cases hrun
    | some net1 =>
      rw [hu] at hrun
      have e : net1 = net' := Option.some.inj hrun
      rw [e] at hu
      have hlast : ¬ t + N < t_stop := by unfold N; omega
      have hcnt := update_count exp net net' 0 1 0.0 5 hu
      refine ⟨if (net' 0).spike = true then cout ++ [(t : K) * h K] else cout,
        file ++ [(((t + N : Int) : K) * h K, (net' 0).V_membrane)],
        by simp only [oneNeuronLoop, hu, hlast, if_false], ?_⟩
      rw [hcnt]
      split
      · simp only [List.length_append, List.length_singleton]; omega
      · omega
  | succ r ih =>
    intro fuel t net net' cout file hf ht hrun
    obtain ⟨fuel, rfl⟩ : ∃ f, fuel = f + 1 := ⟨fuel - 1, by omega⟩
    rw [List.replicate_succ] at hrun
    simp only [runUpdates] at hrun
    cases hu : update exp net 0 1 0.0 5 with
    | none => rw [hu] at hrun; cases hrun
    | some net1 =>
      rw [hu] at hrun
      have hmore : t + N < t_stop := by unfold N; omega
      have hcnt := update_count exp net net1 0 1 0.0 5 hu
      obtain ⟨cout', file', hloop, hlen⟩ :=
        ih fuel (t + N) net1 net'
          (if (net1 0).spike = true then cout ++ [(t : K) * h K] else cout)
          (file ++ [(((t + N : Int) : K) * h K, (net1 0).V_membrane)])
          (by omega) (by unfold N; push_cast at ht ⊢; omega) hrun
      refine ⟨cout', file', by simp only [oneNeuronLoop, hu, hmore, if_true]; exact hloop, ?_⟩
      rw [hcnt] at hlen
      split at hlen <;> simp at hlen <;> omega

theorem updatesOf_replicate (self : Nat) (noise : K) (n : Nat) :
    updatesOf self (List.replicate n (self, noise)) = n := by
  induction n with
  | zero => rfl
  | succ n ih => rw [List.replicate_succ, updatesOf_cons, ih]; simp

theorem oneNeuronNet_ready (garbage_e garbage_i : Int) (I : K) :
    (oneNeuronNet garbage_e garbage_i I 0).ready I 0 0 := by
  have hf := oneNeuronNet_fields garbage_e garbage_i I 0
  exact ⟨not_holds_of_r_period _ hf.1, hf.2.1, hf.2.2.1, hf.2.2.2.1, hf.2.2.2.2.2.1,
    hf.2.2.2.2.2.2.1, hf.2.2.2.2.2.2.2⟩

theorem closed_form_gt_V_thr : R ℝ * 1.01 * (1 - const1 Real.exp ^ 924) > V_thr ℝ := by
  rw [const1_real_pow]
  have hE1 := exp_924_200_gt
  have hinv1 : (Real.exp (924 / 200))⁻¹ < 1 / 101 := by
    rw [← one_div]
    exact one_div_lt_one_div_of_lt (by norm_num) hE1
  unfold R V_thr
  norm_num at hinv1 ⊢
  linarith

/-- C24 on the code. The one-neuron simulation with external input 1.01 (real
exponential) returns after `t_stop - t_start = 12000` updates and reports exactly
twelve spikes, not five: the neuron spikes every 944 steps, from the update at clock
924 on. Five is the number of spikes of the first 5000 updates, that is of the 500
milliseconds announced by the comment of `t_stop`. -/
theorem C24_twelve_spikes (garbage_e garbage_i : Int) :
    (∃ net cout file,
      oneNeuronSimulation Real.exp garbage_e garbage_i (1.01 : ℝ) = some (net, cout, file) ∧
      cout.length = 12 ∧ (net 0).nb_spikes = 12 ∧ (net 0).neuron_clock = 12000) ∧
    (∃ net, runUpdates Real.exp 5 (oneNeuronNet garbage_e garbage_i (1.01 : ℝ))
      (List.replicate 5000 (0, 0.0)) = some net ∧ (net 0).nb_spikes = 5) := by
  have hrd := oneNeuronNet_ready (K := ℝ) garbage_e garbage_i 1.01
  have hle : ∀ m < 924, R ℝ * 1.01 * (1 - const1 Real.exp ^ m) ≤ V_thr ℝ :=
    fun m hm => closed_form_le_V_thr m hm
  obtain ⟨net, hrun, hnb⟩ := run_spike_count Real.exp 5 (1.01 : ℝ) 0 924 hle
    closed_form_gt_V_thr 12 672 (by omega) 0 0 _ hrd
  obtain ⟨net5, hrun5, hnb5⟩ := run_spike_count Real.exp 5 (1.01 : ℝ) 0 924 hle
    closed_form_gt_V_thr 5 280 (by omega) 0 0 _ hrd
  have e12 : (924 + tau_rp) * 12 + 672 = 11999 + 1 := by unfold tau_rp; rfl
  have e5 : (924 + tau_rp) * 5 + 280 = 5000 := by unfold tau_rp; rfl
  rw [e12] at hrun
  rw [e5] at hrun5
  refine ⟨?_, ⟨net5, hrun5, by rw [hnb5]⟩⟩
  obtain ⟨cout, file, hloop, hlen⟩ := oneNeuronLoop_run Real.exp 11999 12000 0
    (oneNeuronNet garbage_e garbage_i 1.01) net [] [] (by omega) rfl hrun
  have hclock := runUpdates_clock Real.exp 5 0 _ _ _ hrun
  refine ⟨net, cout, file, hloop, ?_, by rw [hnb], ?_⟩
  · rw [hnb, (oneNeuronNet_fields garbage_e garbage_i (1.01 : ℝ) 0).2.2.2.2.2.1] at hlen
    simpa using hlen
  · rw [hclock, (oneNeuronNet_fields garbage_e garbage_i (1.01 : ℝ) 0).2.2.2.2.2.2.1]
    rw [updatesOf_replicate]

/-! ## The network simulation -/

theorem foldl_preserves {α β : Type} (P : α → Prop) (f : α → β → α)
    (hf : ∀ a b, P a → P (f a b)) : ∀ (l : List β) (a : α), P a → P (l.foldl f a) := by
  intro l
  induction l with
  | nil => intro a ha; exact ha
  | cons b l ih => intro a ha; exact ih (f a b) (hf a b ha)

theorem foldlM_range_succ {α : Type} (f : α → Nat → Option α) (n : Nat) (a : α) :
    (List.range (n + 1)).foldlM f a = ((List.range n).foldlM f a).bind (fun b => f b n) := by
  rw [List.range_succ, List.foldlM_append]
  cases List.foldlM f a (List.range n) with
  | none => rfl
  | some b =>
    show List.foldlM f b [n] = f b n
    rw [List.foldlM_cons]
    cases f b n with
    | none => rfl
    | some c => rfl

theorem foldlM_range_cons {α : Type} (f : α → Nat → Option α) (t n : Nat) (a : α) :
    (List.range' t (n + 1)).foldlM f a =
      (f a t).bind (fun b => (List.range' (t + 1) n).foldlM f b) := by
  rw [List.range'_succ, List.foldlM_cons]
  rfl

theorem connectExcitatory_clock (self : Nat) (neurons : Nat → Nat)
    (dis_e : Nat → Fin excitatory_neurons) (net : Network K) (i s : Nat) :
    (connectExcitatory self neurons dis_e net i s).neuron_clock = (net s).neuron_clock := by
  unfold connectExcitatory
  by_cases hs : s = self
  · subst hs
    simp only [Function.update_same]
    by_cases ha : s = neurons (dis_e i)
    · rw [← ha, Function.update_same]; rfl
    · rw [Function.update_noteq ha]
  · simp only [Function.update_noteq hs]
    by_cases ha : s = neurons (dis_e i)
    · rw [← ha, Function.update_same]; rfl
    · rw [Function.update_noteq ha]

theorem connectInhibitory_clock (self : Nat) (neurons : Nat → Nat)
    (dis_i : Nat → Fin inhibitory_neurons) (net : Network K) (i s : Nat) :
    (connectInhibitory self neurons dis_i net i s).neuron_clock = (net s).neuron_clock := by
  unfold connectInhibitory
  by_cases hs : s = self
  · subst hs
    simp only [Function.update_same]
    by_cases ha : s = neurons (excitatory_neurons + dis_i i)
    · rw [← ha, Function.update_same]; rfl
    · rw [Function.update_noteq ha]
  · simp only [Function.update_noteq hs]
    by_cases ha : s = neurons (excitatory_neurons + dis_i i)
    · rw [← ha, Function.update_same]; rfl
    · rw [Function.update_noteq ha]

/-- Adding the connections keeps the clocks and adds no null target. -/
theorem buildConnections_start (net : Network K)
    (dis_e : Nat → Nat → Fin excitatory_neurons)
    (dis_i : Nat → Nat → Fin inhibitory_neurons) (c : Nat)
    (hc : ∀ p, (net p).neuron_clock = c) (hv : ∀ p, (net p).targetsValid) :
    (∀ p, (buildConnections net dis_e dis_i p).neuron_clock = c) ∧
    (∀ p, (buildConnections net dis_e dis_i p).targetsValid) := by
  have hvalid : ∀ (l : List (Option Nat)) (self : Nat),
      (∀ t ∈ l, t ≠ none) → ∀ t ∈ l ++ [some self], t ≠ none := by
    intro l self hl t ht
    rcases List.mem_append.mp ht with h1 | h1
    · exact hl t h1
    · rw [List.mem_singleton.mp h1]; exact Option.some_ne_none self
  have hE : ∀ (self : Nat) (d : Nat → Fin excitatory_neurons) (n : Network K) (i : Nat),
      ((∀ p, (n p).neuron_clock = c) ∧ (∀ p, (n p).targetsValid)) →
      ((∀ p, (connectExcitatory self id d n i p).neuron_clock = c) ∧
        (∀ p, (connectExcitatory self id d n i p).targetsValid)) := by
    intro self d n i hn
    refine ⟨fun p => by rw [connectExcitatory_clock]; exact hn.1 p, fun p => ?_⟩
    unfold Neuron.targetsValid
    rw [connectExcitatory_n_target]
    split
    · exact hvalid _ self (hn.2 p)
    · exact hn.2 p
  have hI : ∀ (self : Nat) (d : Nat → Fin inhibitory_neurons) (n : Network K) (i : Nat),
      ((∀ p, (n p).neuron_clock = c) ∧ (∀ p, (n p).targetsValid)) →
      ((∀ p, (connectInhibitory self id d n i p).neuron_clock = c) ∧
        (∀ p, (connectInhibitory self id d n i p).targetsValid)) := by
    intro self d n i hn
    refine ⟨fun p => by rw [connectInhibitory_clock]; exact hn.1 p, fun p => ?_⟩
    unfold Neuron.targetsValid
    rw [connectInhibitory_n_target]
    split
    · exact hvalid _ self (hn.2 p)
    · exact hn.2 p
  unfold buildConnections
  refine foldl_preserves
    (fun n : Network K => (∀ p, (n p).neuron_clock = c) ∧ (∀ p, (n p).targetsValid))
    _ ?_ _ net ⟨hc, hv⟩
  intro n k hn
  unfold addConnections
  exact foldl_preserves _ _ (fun a b ha => hI k (dis_i k) a b ha) _ _
    (foldl_preserves _ _ (fun a b ha => hE k (dis_e k) a b ha) _ _ hn)

theorem neuronStep_spec (exp : K → K) (g : K) (i : Nat) (noise : K) (net : Network K)
    (records : List (K × Nat)) (hv : ∀ p, (net p).targetsValid) :
    ∃ net' records', neuronStep exp g i noise (net, records) = some (net', records') ∧
      (∀ p, (net' p).targetsValid) ∧
      (net' i).neuron_clock = (net i).neuron_clock + 1 ∧
      (∀ q, q ≠ i → (net' q).neuron_clock = (net q).neuron_clock) ∧
      (records' = records ∨ records' = records ++ [(((net i).neuron_clock : K), i)]) := by
  have hu := update_ok exp net i N noise g (fun _ => hv i)
  have hvalid : ∀ p, (updated exp net i N noise g p).targetsValid := by
    intro p
    unfold Neuron.targetsValid
    rw [update_n_target exp net _ i N noise g hu p]
    exact hv p
  have hclock : (updated exp net i N noise g i).neuron_clock = (net i).neuron_clock + 1 := by
    rw [(updated_self_fields exp net i N noise g).1]
    unfold N
    omega
  have hother : ∀ q, q ≠ i →
      (updated exp net i N noise g q).neuron_clock = (net q).neuron_clock :=
    fun q hq => (updated_other_fields exp net i q N noise g hq).2.2
  rw [neuronStep_of_update exp g i noise net _ records hu]
  by_cases hs : (updated exp net i N noise g i).spike = true
  · rw [if_pos hs]
    refine ⟨_, _, rfl, hvalid, hclock, hother, Or.inr ?_⟩
    have hV := (updated_self_fields exp net i N noise g).2.mp hs
    have hc := update_of_crossed exp net i N noise g hV (hv i)
    rw [hu] at hc
    have hts : (updated exp net i N noise g i).t_spike =
        ((net i).neuron_clock : K) * h K := by
      rw [Option.some.inj hc, Function.update_same, (updateTail_fields exp _ N noise).2.2.1,
        (spikeNet_self net i g).2.2.2.1]
    rw [hts, mul_div_assoc, div_self (ne_of_gt h_pos), mul_one]
  · rw [if_neg hs]
    exact ⟨_, _, rfl, hvalid, hclock, hother, Or.inl rfl⟩

theorem inner_loop_inv (exp : K → K) (g : K) (noise : Nat → K) (s : Nat) :
    ∀ (m : Nat) (net : Network K) (records : List (K × Nat)),
      (∀ p, (net p).targetsValid) → (∀ i, i < m → (net i).neuron_clock = s) →
      records.Pairwise recordBefore → (∀ r ∈ records, r.1 < (s : K)) →
      ∃ net' records',
        (List.range m).foldlM (fun st i => neuronStep exp g i (noise i) st)
          (net, records) = some (net', records') ∧
        (∀ p, (net' p).targetsValid) ∧
        (∀ i, i < m → (net' i).neuron_clock = s + 1) ∧
        (∀ i, m ≤ i → (net' i).neuron_clock = (net i).neuron_clock) ∧
        records'.Pairwise recordBefore ∧
        (∀ r ∈ records', r.1 < (s : K) ∨ (r.1 = (s : K) ∧ r.2 < m)) := by
  intro m
  induction m with
  | zero =>
    intro net records hv _ hp hr
    exact ⟨net, records, rfl, hv, fun i hi => absurd hi (Nat.not_lt_zero i),
      fun _ _ => rfl, hp, fun r hr' => Or.inl (hr r hr')⟩
  | succ m ih =>
    intro net records hv hc hp hr
    obtain ⟨net1, rec1, hrun, hv1, hlt1, hge1, hp1, hr1⟩ :=
      ih net records hv (fun i hi => hc i (by omega)) hp hr
    obtain ⟨net2, rec2, hstep, hv2, hself, hoth, hrec⟩ :=
      neuronStep_spec exp g m (noise m) net1 rec1 hv1
    have hcm : (net1 m).neuron_clock = s := by
      rw [hge1 m (le_refl m)]; exact hc m (by omega)
    refine ⟨net2, rec2, ?_, hv2, ?_, ?_, ?_, ?_⟩
    · rw [foldlM_range_succ, hrun, Option.some_bind, hstep]
    · intro i hi
      by_cases him : i = m
      · rw [him, hself, hcm]
      · rw [hoth i him]; exact hlt1 i (by omega)
    · intro i hi
      rw [hoth i (by omega)]
      exact hge1 i (by omega)
    · rcases hrec with h1 | h1
      · rw [h1]; exact hp1
      · rw [h1, hcm]
        refine List.pairwise_append.mpr ⟨hp1, List.pairwise_singleton _ _, ?_⟩
        intro a ha b hb
        rw [List.mem_singleton.mp hb]
        rcases hr1 a ha with h2 | ⟨h2, h3⟩
        · exact ⟨le_of_lt h2, fun he => absurd he (ne_of_lt h2)⟩
        · exact ⟨le_of_eq h2, fun _ => h3⟩
    · intro r hr'
      rcases hrec with h1 | h1
      · rw [h1] at hr'
        rcases hr1 r hr' with h2 | ⟨h2, h3⟩
        · exact Or.inl h2
        · exact Or.inr ⟨h2, by omega⟩
      · rw [h1, hcm] at hr'
        rcases List.mem_append.mp hr' with h4 | h4
        · rcases hr1 r h4 with h2 | ⟨h2, h3⟩
          · exact Or.inl h2
          · exact Or.inr ⟨h2, by omega⟩
        · rw [List.mem_singleton.mp h4]
          exact Or.inr ⟨rfl, by omega⟩

theorem networkStep_inv (exp : K → K) (g : K) (noise : Nat → K) (s : Nat)
    (net : Network K) (records : List (K × Nat))
    (hv : ∀ p, (net p).targetsValid) (hc : ∀ i, i < total_neurons → (net i).neuron_clock = s)
    (hp : records.Pairwise recordBefore) (hr : ∀ r ∈ records, r.1 < (s : K)) :
    ∃ net' records', networkStep exp g noise (net, records) = some (net', records') ∧
      (∀ p, (net' p).targetsValid) ∧
      (∀ i, i < total_neurons → (net' i).neuron_clock = s + 1) ∧
      records'.Pairwise recordBefore ∧ (∀ r ∈ records', r.1 < ((s + 1 : Nat) : K)) := by
  obtain ⟨net', rec', hrun, hv', hlt, -, hp', hr'⟩ :=
    inner_loop_inv exp g noise s total_neurons net records hv hc hp hr
  refine ⟨net', rec', hrun, hv', hlt, hp', ?_⟩
  intro r hmem
  have hs : (s : K) < ((s + 1 : Nat) : K) := by exact_mod_cast Nat.lt_succ_self s
  rcases hr' r hmem with h1 | ⟨h1, -⟩
  · exact lt_trans h1 hs
  · rw [h1]; exact hs

theorem networkAfter_inv (exp : K → K) (g : K) (noise : Nat → Nat → K)
    (net : Network K) (hv : ∀ p, (net p).targetsValid)
    (hc : ∀ i, i < total_neurons → (net i).neuron_clock = 0) :
    ∀ s : Nat, ∃ net' records, networkAfter exp g noise (net, []) s = some (net', records) ∧
      (∀ p, (net' p).targetsValid) ∧
      (∀ i, i < total_neurons → (net' i).neuron_clock = s) ∧
      records.Pairwise recordBefore ∧ (∀ r ∈ records, r.1 < (s : K)) := by
  intro s
  induction s with
  | zero =>
    exact ⟨net, [], rfl, hv, hc, List.Pairwise.nil, fun r hr => absurd hr (List.not_mem_nil r)⟩
  | succ s ih =>
    obtain ⟨net1, rec1, hrun, hv1, hc1, hp1, hr1⟩ := ih
    obtain ⟨net2, rec2, hstep, hv2, hc2, hp2, hr2⟩ :=
      networkStep_inv exp g (noise s) s net1 rec1 hv1 hc1 hp1 hr1
    refine ⟨net2, rec2, ?_, hv2, hc2, hp2, hr2⟩
    unfold networkAfter at hrun ⊢
    rw [foldlM_range_succ, hrun, Option.some_bind, hstep]

theorem networkLoop_eq {σ : Type} (step : Nat → σ → Option σ) :
    ∀ (r fuel t : Nat) (st : σ),
      r < fuel → (t : Int) + (r + 1 : Nat) = t_stop →
      networkLoop (fun simulation_time st => step simulation_time.toNat st) fuel (t : Int) st =
        (List.range' t (r + 1)).foldlM (fun st t => step t st) st := by
  intro r
  induction r with
  | zero =>
    intro fuel t st hf ht
    obtain ⟨fuel, rfl⟩ : ∃ f, fuel = f + 1 := ⟨fuel - 1, by omega⟩
    have hlast : ¬ (t : Int) + N < t_stop := by unfold N; omega
    rw [foldlM_range_cons]
    simp only [networkLoop, Int.toNat_ofNat, hlast, if_false]
    cases step t st with
    | none => rfl
    | some st' => rfl
  | succ r ih =>
    intro fuel t st hf ht
    obtain ⟨fuel, rfl⟩ : ∃ f, fuel = f + 1 := ⟨fuel - 1, by omega⟩
    have hmore : (t : Int) + N < t_stop := by unfold N; omega
    have hcast : (t : Int) + N = ((t + 1 : Nat) : Int) := by unfold N; push_cast; rfl
    rw [foldlM_range_cons]
    simp only [networkLoop, Int.toNat_ofNat, hmore, if_true]
    cases step t st with
    | none => rfl
    | some st' =>
      rw [Option.some_bind, ← ih fuel (t + 1) st' (by omega) (by push_cast at ht ⊢; omega),
        ← hcast]

theorem initializeNeurons_start (exc_e exc_i inh_e inh_i : Int) :
    (∀ p, ((initializeNeurons exc_e exc_i inh_e inh_i : Network K) p).neuron_clock = 0) ∧
    (∀ p, ((initializeNeurons exc_e exc_i inh_e inh_i : Network K) p).targetsValid) := by
  constructor
  · intro p
    unfold initializeNeurons
    split <;> rfl
  · intro p t ht
    unfold initializeNeurons at ht
    split at ht <;> exact absurd ht (List.not_mem_nil t)

/-- C29. In the network simulation, for every outcome of the random draws and of the
noise: the state at the start of every driver step `s` exists, all the neurons of the
collection have the local clock `s` there, and the records written so far are in
non-decreasing order of time and, at equal times, in strictly increasing order of index;
the simulation returns the state after `t_stop - t_start = 12000` driver steps, so its
records are in this order. -/
theorem C29_clocks_and_record_order (exp : K → K) (g : K) (exc_e exc_i inh_e inh_i : Int)
    (dis_e : Nat → Nat → Fin excitatory_neurons)
    (dis_i : Nat → Nat → Fin inhibitory_neurons) (noise : Nat → Nat → K) :
    (∀ s : Nat, ∃ net records,
      networkAfter exp g noise
        (buildConnections (initializeNeurons exc_e exc_i inh_e inh_i) dis_e dis_i, []) s =
          some (net, records) ∧
      (∀ i, i < total_neurons → (net i).neuron_clock = s) ∧
      records.Pairwise recordBefore) ∧
    (∃ net records,
      networkSimulation exp g exc_e exc_i inh_e inh_i dis_e dis_i noise =
        some (net, records) ∧
      networkAfter exp g noise
        (buildConnections (initializeNeurons exc_e exc_i inh_e inh_i) dis_e dis_i, [])
        12000 = some (net, records) ∧
      records.Pairwise recordBefore) := by
  obtain ⟨hc0, hv0⟩ := initializeNeurons_start (K := K) exc_e exc_i inh_e inh_i
  obtain ⟨hc, hv⟩ := buildConnections_start _ dis_e dis_i 0 hc0 hv0
  have hinv := networkAfter_inv exp g noise _ hv (fun i _ => hc i)
  constructor
  · intro s
    obtain ⟨net, records, hrun, -, hcl, hp, -⟩ := hinv s
    exact ⟨net, records, hrun, hcl, hp⟩
  · obtain ⟨net, records, hrun, -, -, hp, -⟩ := hinv 12000
    refine ⟨net, records, ?_, hrun, hp⟩
    have hfuel : (t_stop - t_start).toNat = 11999 + 1 := rfl
    have hloop := networkLoop_eq (fun t st => networkStep exp g (noise t) st)
      11999 (11999 + 1) 0
      (buildConnections (initializeNeurons exc_e exc_i inh_e inh_i) dis_e dis_i, [])
      (by omega) rfl
    have hsteps : (12000 : Nat) = 11999 + 1 := rfl
    rw [← hrun]
    unfold networkSimulation networkAfter
    rw [List.range_eq_range', hfuel, hsteps]
    exact hloop

/-! ## Self-connections -/

/-- C2 as amended. A neuron whose potential is strictly above `V_thr` at the start of
`update`, whose local clock `c` is below `2^31` and whose spike count is below
`2^32 - 1` (and whose target pointers are non-null, so that no assertion fails)
spikes: the call returns, the spike count has grown by one, the last spike time is
`c*h`, the spike flag is set, the neuron is refractory and its potential is
`V_refractory = 0.0`, whatever the noise, the external input and the buffer. -/
theorem C2_update_spike (exp : K → K) (net : Network K) (self : Nat)
    (dt : Int) (noise g : K)
    (hV : (net self).V_membrane > V_thr K) (hv : (net self).targetsValid)
    (hc : (net self).neuron_clock < 2 ^ 31) (hn : (net self).nb_spikes + 1 < 2 ^ 32) :
    ∃ net', update32 exp net self dt noise g = some net' ∧
      (net' self).nb_spikes = (net self).nb_spikes + 1 ∧
      (net' self).t_spike = ((net self).neuron_clock : K) * h K ∧
      (net' self).spike = true ∧
      (net' self).r_period = true ∧
      (net' self).V_membrane = V_refractory K ∧
      V_refractory K = 0 := by
  have hcount : toUInt32 (((net self).nb_spikes : Int) + 1) = (net self).nb_spikes + 1 := by
    rw [toUInt32_of_lt _ (by omega) (by omega)]
    omega
  have hf := fire32_of_crossed (net self) hV
  have hd := deliver_fields (net self).fire32
    (toUInt32 (((net self).neuron_clock : Int) + (D : Int)) % (D + 1))
    ((net self).amplitude g) ((net self).deliveries self)
  have ht : ((net self).fire32.deliver
      (toUInt32 (((net self).neuron_clock : Int) + (D : Int)) % (D + 1))
      ((net self).amplitude g) ((net self).deliveries self)).t_spike =
        ((net self).neuron_clock : K) * h K := by
    rw [hd.2.2.2.1, hf.2.1, toInt32_of_lt _ hc, Int.cast_natCast]
  have hholds : ((net self).fire32.deliver
      (toUInt32 (((net self).neuron_clock : Int) + (D : Int)) % (D + 1))
      ((net self).amplitude g) ((net self).deliveries self)).holds := by
    refine ⟨by rw [hd.2.2.2.2.2.2.2.1, hf.1], ?_⟩
    rw [ht, hd.2.2.2.2.2.1, (fire32_fields _).1]
    exact (tau_rp_gt_iff (net self).neuron_clock 0).mpr (by decide)
  have hT := updateTail_V_of_holds exp _ dt noise hholds
  have hT32 := updateTail32_fields exp ((net self).fire32.deliver
      (toUInt32 (((net self).neuron_clock : Int) + (D : Int)) % (D + 1))
      ((net self).amplitude g) ((net self).deliveries self)) dt noise
  refine ⟨_, update32_eq_updatedBy32 exp net self dt noise g (fun _ => hv), ?_⟩
  rw [updatedBy32_self]
  refine ⟨?_, ?_, ?_, ?_, ?_, ?_⟩
  · rw [hT32.2.1, hd.2.2.1, hf.2.2.2, hcount]
  · rw [hT32.2.2.1, ht]
  · rw [hT32.2.2.2.1, hd.2.2.2.2.1, hf.2.2.1]
  · rw [hT32.2.2.2.2.2.2.2.2.1, hT.2]
  · rw [hT32.2.2.2.2.2.2.2.1, hT.1]
  · unfold V_refractory; norm_num

/-- A witness of the amended C2: a neuron with potential 21 and no target. -/
theorem C2_witness :
    ∃ net', update32 expQ (spikingNet true []) 0 1 0 5 = some net' ∧
      (net' 0).nb_spikes = (spikingNet true [] 0).nb_spikes + 1 ∧
      (net' 0).t_spike = ((spikingNet true [] 0).neuron_clock : ℚ) * h ℚ ∧
      (net' 0).spike = true ∧
      (net' 0).r_period = true ∧
      (net' 0).V_membrane = V_refractory ℚ ∧
      V_refractory ℚ = 0 :=
  C2_update_spike expQ (spikingNet true []) 0 1 0 5
    (by norm_num [V_thr, spikingNet]) (by simp [Neuron.targetsValid, spikingNet])
    (by simp [spikingNet, Neuron.fresh]) (by simp [spikingNet, Neuron.fresh])

/-! ## The closed form of the integration in exact arithmetic -/

/-- In exact arithmetic the value obtained from `0.0` by `n` assignments
`V = const1*V + const2*I + 0.0 + 0.0` is `R * I * (1 - const1^n)`. -/
theorem iterated_form_exact (exp : K → K) (I : K) (n : Nat) :
    (fun v : K => const1 exp * v + const2 exp * I + 0.0 + 0.0)^[n] 0.0 =
      R K * I * (1 - const1 exp ^ n) := by
  have hz : (0.0 : K) = 0 := by norm_num
  induction n with
  | zero => simp [hz]
  | succ n ih =>
    rw [Function.iterate_succ_apply', ih, hz]
    unfold const2
    ring

/-! ## The refractory period and the first spike in exact arithmetic -/

/-- In exact arithmetic the hold lasts `tau_rp` updates. After the update in which the
neuron `self` spikes, every run of updates with increment 1 that contains fewer than
`tau_rp` updates of `self` returns and leaves the potential of `self` at
`V_refractory`, and the `tau_rp`-th of these updates integrates again: after it the
potential is `const2*externalInput + noise` plus the amplitude held in the slot read
by that update. -/
theorem refractory_enforcement_exact (exp : K → K) (net : Network K) (self : Nat)
    (noise0 g : K)
    (hv : ∀ p, (net p).targetsValid) (hV : (net self).V_membrane > V_thr K) :
    ∃ net1, update exp net self 1 noise0 g = some net1 ∧
      ∀ sched : List (Nat × K), updatesOf self sched < tau_rp →
        ∃ net2, runUpdates exp g net1 sched = some net2 ∧
          (net2 self).V_membrane = V_refractory K ∧
          (updatesOf self sched + 1 = tau_rp → ∀ noise : K,
            ∃ net3, update exp net2 self 1 noise g = some net3 ∧
              (net3 self).V_membrane =
                const2 exp * (net self).external_input + noise +
                  (net2 self).getTimeBuffer ((net2 self).neuron_clock % (D + 1))) := by
  obtain ⟨net1, hu, -, hself⟩ := update_some exp net self 1 noise0 g (hv self)
  refine ⟨net1, hu, ?_⟩
  rw [if_pos hV] at hself
  have hs := spikeNet_self net self g
  have hf := updateTail_fields exp (spikeNet net self g self) 1 noise0
  have hh := updateTail_V_of_holds exp _ 1 noise0 (spikeNet_self_holds net self g)
  rw [← hself] at hf hh
  have hv1 : ∀ q, (net1 q).targetsValid := by
    intro q
    unfold Neuron.targetsValid
    rw [update_n_target exp net net1 self 1 noise0 g hu q]
    exact hv q
  intro sched hlt
  obtain ⟨net2, hrun, hv2, hr2, ht2, hV2, hc2, he2⟩ :=
    runUpdates_refractory exp g self (net self).neuron_clock (net self).external_input
      sched net1 0 hv1 hh.2 (by rw [hf.2.2.1, hs.2.2.2.1]) hh.1
      (by rw [hf.2.2.2.2.1, hs.2.2.2.2.2.1]; omega)
      (by rw [hf.2.2.2.2.2.1, hs.2.2.2.2.2.2.1]) (by omega)
  refine ⟨net2, hrun, hV2, ?_⟩
  intro hlast noise
  have hnc : ¬ (net2 self).V_membrane > V_thr K := by
    rw [hV2]; unfold V_refractory V_thr; norm_num
  refine ⟨_, update_of_not_crossed exp net2 self 1 noise g hnc, ?_⟩
  rw [Function.update_same]
  have hnh : ¬ ({ net2 self with spike := false } : Neuron K).holds := by
    unfold Neuron.holds
    intro hc
    have h2 : (tau_rp : K) > ((net2 self).neuron_clock : K) - (net2 self).t_spike / h K :=
      hc.2
    have hclock : (net2 self).neuron_clock = (net self).neuron_clock + tau_rp := by
      rw [hc2]; omega
    rw [hclock, ht2] at h2
    exact absurd ((tau_rp_gt_iff (net self).neuron_clock tau_rp).mp h2) (lt_irrefl _)
  rw [(updateTail_V_of_not_holds exp _ 1 noise hnh).1]
  show const1 exp * (net2 self).V_membrane + const2 exp * (net2 self).external_input +
    (net2 self).getTimeBuffer ((net2 self).neuron_clock % (D + 1)) + noise = _
  rw [hV2, he2]
  unfold V_refractory
  norm_num
  ring

/-- In exact arithmetic with the real exponential, the neuron of the one-neuron
scenario spikes for every constant external input above 1: there is a number `n` of
updates after which the run has returned and the spike count is at least 1. -/
theorem spike_above_one_exact (garbage_e garbage_i : Int) (I g : ℝ) (hI : 1 < I) :
    ∃ n net', runUpdates Real.exp g (oneNeuronNet garbage_e garbage_i I)
        (List.replicate n (0, 0.0)) = some net' ∧ 1 ≤ (net' 0).nb_spikes := by
  have hf := oneNeuronNet_fields garbage_e garbage_i I 0
  have hI0 : 0 < I := by linarith
  have hc0 : 0 < const1 Real.exp := Real.exp_pos _
  have hc1 : const1 Real.exp < 1 := by
    unfold const1
    refine lt_of_lt_of_eq (Real.exp_lt_exp.mpr ?_) Real.exp_zero
    unfold h tau
    norm_num
  have hy : 0 < 1 - 1 / I := by
    rw [sub_pos, div_lt_one hI0]
    exact hI
  have hex : ∃ m : Nat, R ℝ * I * (1 - const1 Real.exp ^ m) > V_thr ℝ := by
    obtain ⟨m, hm⟩ := exists_pow_lt_of_lt_one hy hc1
    refine ⟨m, ?_⟩
    have h2 : I * (1 - const1 Real.exp ^ m) > 1 := by
      have h3 : I * (1 - 1 / I) = I - 1 := by field_simp
      nlinarith
    unfold R V_thr
    norm_num
    nlinarith
  classical
  have hmin : ∀ m < Nat.find hex, R ℝ * I * (1 - const1 Real.exp ^ m) ≤ V_thr ℝ :=
    fun m hm => not_lt.mp (Nat.find_min hex hm)
  obtain ⟨net1, hr, hV, -, -, -, -, hnb, -, ht⟩ :=
    run_integrating Real.exp g I 0 (oneNeuronNet garbage_e garbage_i I)
      hf.1 hf.2.1 hf.2.2.1 hf.2.2.2.1 hf.2.2.2.2.1 (Nat.find hex) hmin
  have hcross : (net1 0).V_membrane > V_thr ℝ := by
    rw [hV]; exact Nat.find_spec hex
  have hv : (net1 0).targetsValid := by
    unfold Neuron.targetsValid; rw [ht, hf.2.2.2.2.2.2.2]; simp
  have hu := update_of_crossed Real.exp net1 0 1 0.0 g hcross hv
  refine ⟨Nat.find hex + 1, Function.update (spikeNet net1 0 g) 0
    ((spikeNet net1 0 g 0).updateTail Real.exp 1 0.0), ?_, ?_⟩
  · rw [List.replicate_succ', runUpdates_append, hr, Option.some_bind]
    simp only [runUpdates, hu]
  · rw [Function.update_same, (updateTail_fields Real.exp _ 1 0.0).2.1,
      (spikeNet_self net1 0 g).2.2.1]
    omega

end Exact

/-! # Part 3: the arithmetic of `double`

The theorems of this part are about `F64`: the 32-bit integers and the doubles of the
source on concrete inputs, and what holds for every `double`. -/

/-! ## The integers of the source on concrete inputs -/

theorem spikingNet64_valid (excitatory_neuron : Bool) (neuron_clock nb_spikes : Nat)
    (targets : List Nat) (p : Nat) :
    (spikingNet64 excitatory_neuron neuron_clock nb_spikes (targets.map some) p).targetsValid := by
  intro t ht
  have ht' : t ∈ targets.map some := ht
  obtain ⟨q, -, rfl⟩ := List.mem_map.mp ht'
  exact Option.some_ne_none q

/-- A witness of C16: a spiking neuron with two targets whose clock is the largest
`unsigned int`. -/
theorem C16_witness :
    (0 ≤ toInt32 (4294967295 % (D + 1)) ∧
      toInt32 (4294967295 % (D + 1)) < ((D + 1 : Nat) : Int)) ∧
    (0 ≤ toInt32 (toUInt32 ((4294967295 : Nat) + (D : Int)) % (D + 1)) ∧
      toInt32 (toUInt32 ((4294967295 : Nat) + (D : Int)) % (D + 1)) < ((D + 1 : Nat) : Int)) ∧
    (∃ net', updateTargets32 (spikingNet64 true 4294967295 0 ([1, 2].map some)) 0 5 =
      some net') ∧
    (∃ net', update32 exp64 (spikingNet64 true 4294967295 0 ([1, 2].map some)) 0 1 0.0 5 =
      some net') :=
  C16_indices_in_range exp64 (spikingNet64 true 4294967295 0 ([1, 2].map some)) 0 1 0.0 5
    4294967295 (spikingNet64_valid true 4294967295 0 [1, 2] 0)

/-- The claim C15 as stated fails at the largest clock: `neuron_clock_ += dt` is
computed modulo `2^32`, so from the clock `4294967295` the increment 1 leads to the
clock 0, not to `4294967296`. -/
theorem C15_counterexample :
    ∃ net', update32 exp64 (spikingNet64 true 4294967295 0 []) 0 1 0.0 5 = some net' ∧
      (net' 0).neuron_clock = 0 ∧
      ((net' 0).neuron_clock : Int) ≠
        ((spikingNet64 true 4294967295 0 [] 0).neuron_clock : Int) + 1 := by
  refine ⟨_, update32_eq_updatedBy32 exp64 _ 0 1 0.0 5
    (fun _ => spikingNet64_valid true 4294967295 0 [] 0), ?_, ?_⟩
  · decide!
  · decide!

/-- A witness of the amended C15: a spiking neuron which is its own target, at clock
`4294967292`, with `dt = 3`. -/
theorem C15_witness :
    ∃ net', update32 exp64 (spikingNet64 true 4294967292 0 ([0].map some)) 0 3 0.0 5 =
        some net' ∧
      (net' 0).getTimeBuffer
        ((spikingNet64 true 4294967292 0 ([0].map some) 0).neuron_clock % (D + 1)) = 0.0 ∧
      ((net' 0).neuron_clock : Int) =
        (spikingNet64 true 4294967292 0 ([0].map some) 0).neuron_clock + 3 :=
  C15_slot_cleared_clock_advanced exp64 (spikingNet64 true 4294967292 0 ([0].map some)) 0 3
    0.0 5 (by decide) (fun _ => spikingNet64_valid true 4294967292 0 [0] 0) (by decide)

/-- The claim C14 as stated fails at the largest spike count: `++nb_spikes_` is
computed modulo `2^32`, so a spike at the count `4294967295` leaves the count 0; the
flag is true and the count has decreased. -/
theorem C14_counterexample :
    ∃ net', update32 exp64 (spikingNet64 true 0 4294967295 []) 0 1 0.0 5 = some net' ∧
      (net' 0).spike = true ∧ (net' 0).nb_spikes = 0 ∧
      (net' 0).nb_spikes < (spikingNet64 true 0 4294967295 [] 0).nb_spikes := by
  refine ⟨_, update32_eq_updatedBy32 exp64 _ 0 1 0.0 5
    (fun _ => spikingNet64_valid true 0 4294967295 [] 0), ?_, ?_, ?_⟩
  · decide!
  · decide!
  · decide!

/-- A witness of the amended C14: a spiking neuron at the spike count `4294967294`. -/
theorem C14_witness :
    ∃ net', update32 exp64 (spikingNet64 true 0 4294967294 []) 0 1 0.0 5 = some net' ∧
      ((net' 0).spike = true ↔
        (spikingNet64 true 0 4294967294 [] 0).V_membrane > V_thr F64) ∧
      (net' 0).nb_spikes = (spikingNet64 true 0 4294967294 [] 0).nb_spikes +
        (if (net' 0).spike = true then 1 else 0) ∧
      (spikingNet64 true 0 4294967294 [] 0).nb_spikes ≤ (net' 0).nb_spikes :=
  C14_spike_flag_and_count exp64 (spikingNet64 true 0 4294967294 []) 0 1 0.0 5
    (fun _ => spikingNet64_valid true 0 4294967294 [] 0) (by decide)

/-- The claim C2 as stated fails for a clock from `2^31` on: `updateNeuronState(int dt)`
receives the `unsigned int` clock `3000000000` as the negative integer `-1294967296`.
The last spike time stored is negative, not `c*h`; the refractory test
`tau_rp > neuron_clock_ - t_spike_/h` then fails, so the neuron is not refractory after
the call and its potential has been integrated instead of being reset to
`V_refractory`. -/
theorem C2_counterexample :
    ∃ net', update32 exp64 (spikingNet64 true 3000000000 0 []) 0 1 0.0 5 = some net' ∧
      (net' 0).t_spike = ((-1294967296 : Int) : F64) * h F64 ∧
      (net' 0).t_spike ≠ ((spikingNet64 true 3000000000 0 [] 0).neuron_clock : F64) * h F64 ∧
      (net' 0).r_period = false ∧
      (net' 0).V_membrane ≠ V_refractory F64 := by
  refine ⟨_, update32_eq_updatedBy32 exp64 _ 0 1 0.0 5
    (fun _ => spikingNet64_valid true 3000000000 0 [] 0), ?_, ?_, ?_, ?_⟩
  · decide!
  · decide!
  · decide!
  · decide!

/-! ## Delivery of a spike in the arithmetic of `double` -/

/-- The claim C4 as stated fails in the arithmetic of `double`: a spiking neuron whose
target list names the neuron 1 twice makes two successive additions of `J_e = 0.1` to
the slot of the neuron 1, which holds 0.4; the slot ends at `0.4 + 0.1 + 0.1 = 0.6`,
which is not the old value increased by `k*a = 2 * 0.1`
(`0.4 + 0.2 = 0.6000000000000001`). -/
theorem C4_counterexample :
    ∃ net', update32 exp64 (slotNet64 [some 1, some 1] 0.4) 0 1 0.0 5 = some net' ∧
      (slotNet64 [some 1, some 1] 0.4 0).n_target.count (some 1) = 2 ∧
      (slotNet64 [some 1, some 1] 0.4 1).getTimeBuffer 15 = 0.4 ∧
      (net' 1).getTimeBuffer 15 = 0.6 ∧
      (net' 1).getTimeBuffer 15 ≠
        (slotNet64 [some 1, some 1] 0.4 1).getTimeBuffer 15 +
          (((slotNet64 [some 1, some 1] 0.4 0).n_target.count (some 1) : Nat) : F64) *
            J_e F64 := by
  refine ⟨_, update32_eq_updatedBy32 exp64 _ 0 1 0.0 5 (fun _ => ?_), ?_, ?_, ?_, ?_⟩
  · intro t ht
    simp only [slotNet64, if_true, List.mem_cons, List.mem_singleton, List.not_mem_nil,
      or_false, or_self] at ht
    rw [ht]
    exact Option.some_ne_none 1
  · decide!
  · decide!
  · decide!
  · decide!

/-- A witness of the amended C4: the network of the counterexample. -/
theorem C4_witness :
    ∃ net', update32 exp64 (slotNet64 [some 1, some 1] 0.4) 0 1 0.0 5 = some net' ∧
      ∀ T : Nat,
        (net' T).getTimeBuffer (((slotNet64 [some 1, some 1] 0.4 0).neuron_clock + D) % (D + 1)) =
          (fun x : F64 =>
            x + (if (slotNet64 [some 1, some 1] 0.4 0).excitatory_neuron = true then J_e F64
              else -5 * J_e F64))^[
              (slotNet64 [some 1, some 1] 0.4 0).n_target.count (some T)]
            ((slotNet64 [some 1, some 1] 0.4 T).getTimeBuffer
              (((slotNet64 [some 1, some 1] 0.4 0).neuron_clock + D) % (D + 1))) ∧
        (some T ∈ (slotNet64 [some 1, some 1] 0.4 0).n_target →
          1 ≤ (slotNet64 [some 1, some 1] 0.4 0).n_target.count (some T)) :=
  C4_spike_delivery exp64 (slotNet64 [some 1, some 1] 0.4) 0 1 0.0 5 (by decide!)
    (by
      intro t ht
      simp only [slotNet64, if_true, List.mem_cons, List.mem_singleton, List.not_mem_nil,
        or_false, or_self] at ht
      rw [ht]
      exact Option.some_ne_none 1)

/-! ## Signs in the arithmetic of `double` -/

theorem F64.zero_eq : (0.0 : F64) = ⟨false, 0, 0⟩ := by decide!

theorem F64.normalize_mantissa (m : Nat) (e : Int) (hm : (F64.normalize m e).1 = 0) :
    F64.normalize m e = (0, 0) := by
  unfold F64.normalize at hm ⊢
  by_cases h0 : m = 0
  · rw [if_pos h0]
  · exfalso
    rw [if_neg h0] at hm
    have hpos : 0 < Nat.gcd m (2 ^ 64) := Nat.gcd_pos_of_pos_left _ (Nat.pos_of_ne_zero h0)
    have hle : Nat.gcd m (2 ^ 64) ≤ m :=
      Nat.le_of_dvd (Nat.pos_of_ne_zero h0) (Nat.gcd_dvd_left _ _)
    have := Nat.div_pos hle hpos
    simp only at hm
    omega

theorem F64.roundPos_mantissa (n d : Nat) (k : Int)
    (hm : (F64.roundPos n d k).1 = 0) : F64.roundPos n d k = (0, 0) := by
  unfold F64.roundPos at hm ⊢
  by_cases hn : n = 0
  · rw [if_pos hn]
  · rw [if_neg hn] at hm ⊢
    exact F64.normalize_mantissa _ _ hm

theorem F64.round_mantissa (s : Bool) (n d : Nat) (k : Int)
    (hm : (F64.round s n d k).mantissa = 0) : F64.round s n d k = ⟨false, 0, 0⟩ := by
  have h1 : (F64.roundPos n d k).1 = 0 := hm
  have h2 := F64.roundPos_mantissa n d k h1
  unfold F64.round
  rw [h2]
  simp

theorem F64.round_not (s : Bool) (n d : Nat) (k : Int) :
    F64.round (!s) n d k = F64.neg (F64.round s n d k) := by
  unfold F64.round F64.neg
  by_cases hm : (F64.roundPos n d k).1 = 0
  · cases s <;> simp [hm]
  · cases s <;> simp [hm]

theorem F64.round_zero (s : Bool) (d : Nat) (k : Int) :
    F64.round s 0 d k = ⟨false, 0, 0⟩ := by
  unfold F64.round F64.roundPos
  simp

theorem F64.mul_neg (a b : F64) : a * -b = -(a * b) := by
  show F64.mul a (F64.neg b) = F64.neg (F64.mul a b)
  by_cases hb : b.mantissa = 0
  · unfold F64.mul
    have h1 : (F64.neg b).mantissa = 0 := hb
    rw [h1, hb, Nat.mul_zero, F64.round_zero, F64.round_zero]
    rfl
  · unfold F64.mul
    have h1 : (F64.neg b).mantissa = b.mantissa := rfl
    have h2 : (F64.neg b).exponent = b.exponent := rfl
    have h3 : (a.sign != (F64.neg b).sign) = !(a.sign != b.sign) := by
      unfold F64.neg
      cases a.sign <;> cases b.sign <;> simp [hb]
    rw [h1, h2, h3, F64.round_not]

theorem F64.scaled_neg (a : F64) (e : Int) : (F64.neg a).scaled e = -a.scaled e := by
  unfold F64.scaled F64.neg
  by_cases ha : a.mantissa = 0
  · simp [ha]
  · cases a.sign <;> simp [ha]

theorem F64.ofInt_neg (z k : Int) : F64.ofInt (-z) k = F64.neg (F64.ofInt z k) := by
  unfold F64.ofInt
  by_cases hz : z = 0
  · rw [hz]
    simp only [neg_zero, Int.natAbs_zero, F64.round_zero]
    rfl
  · have h1 : decide (-z < 0) = !decide (z < 0) := by
      by_cases hlt : z < 0
      · have : ¬ -z < 0 := by omega
        simp [hlt, this]
      · have : -z < 0 := by omega
        simp [hlt, this]
    rw [h1, Int.natAbs_neg, F64.round_not]

theorem F64.add_neg_neg (a b : F64) : -a + -b = -(a + b) := by
  show F64.add (F64.neg a) (F64.neg b) = F64.neg (F64.add a b)
  unfold F64.add
  have h1 : (F64.neg a).exponent = a.exponent := rfl
  have h2 : (F64.neg b).exponent = b.exponent := rfl
  rw [h1, h2, F64.scaled_neg, F64.scaled_neg, ← neg_add, F64.ofInt_neg]

theorem F64.add_sign (a b : F64) (ha : a.sign = false) (hb : b.sign = false) :
    (a + b).sign = false := by
  show (F64.add a b).sign = false
  unfold F64.add F64.ofInt F64.round F64.scaled
  rw [ha, hb]
  have h1 : ¬ ((if false = true then (-1 : Int) else 1) *
      ((a.mantissa * 2 ^ (a.exponent - min a.exponent b.exponent).toNat : Nat) : Int) +
      (if false = true then (-1 : Int) else 1) *
      ((b.mantissa * 2 ^ (b.exponent - min a.exponent b.exponent).toNat : Nat) : Int) < 0) := by
    simp only [Bool.false_eq_true, if_false, one_mul]
    omega
  simp only [h1, decide_False, Bool.false_and]

theorem F64.mul_sign (a b : F64) (ha : a.sign = false) (hb : b.sign = false) :
    (a * b).sign = false := by
  show (F64.mul a b).sign = false
  unfold F64.mul F64.round
  rw [ha, hb]
  simp

theorem F64.sign_of_pos (a : F64) (ha : (0.0 : F64) < a) : a.sign = false := by
  rw [F64.zero_eq] at ha
  have h1 : F64.lt ⟨false, 0, 0⟩ a = true := ha
  unfold F64.lt F64.scaled at h1
  cases hs : a.sign with
  | false => rfl
  | true =>
    exfalso
    rw [hs] at h1
    simp only [Bool.false_eq_true, if_false, if_true, Nat.zero_mul, Nat.cast_zero, mul_zero,
      decide_eq_true_eq] at h1
    have : (0 : Int) ≤ ((a.mantissa * 2 ^ (a.exponent - min 0 a.exponent).toNat : Nat) : Int) :=
      Int.natCast_nonneg _
    omega

theorem F64.pos_of_sign (a : F64) (hs : a.sign = false) (hm : a.mantissa ≠ 0) :
    (0.0 : F64) < a := by
  rw [F64.zero_eq]
  show F64.lt ⟨false, 0, 0⟩ a = true
  unfold F64.lt F64.scaled
  rw [hs]
  simp only [Bool.false_eq_true, if_false, Nat.zero_mul, Nat.cast_zero, mul_zero, one_mul,
    decide_eq_true_eq]
  have : 0 < a.mantissa * 2 ^ (a.exponent - min 0 a.exponent).toNat :=
    Nat.mul_pos (Nat.pos_of_ne_zero hm) (Nat.pow_pos (by decide))
  exact_mod_cast this

theorem F64.neg_of_sign (a : F64) (hs : a.sign = true) (hm : a.mantissa ≠ 0) :
    a < (0.0 : F64) := by
  rw [F64.zero_eq]
  show F64.lt a ⟨false, 0, 0⟩ = true
  unfold F64.lt F64.scaled
  rw [hs]
  simp only [Bool.false_eq_true, if_false, if_true, Nat.zero_mul, Nat.cast_zero, mul_zero,
    decide_eq_true_eq]
  have : 0 < a.mantissa * 2 ^ (a.exponent - min a.exponent 0).toNat :=
    Nat.mul_pos (Nat.pos_of_ne_zero hm) (Nat.pow_pos (by decide))
  have h2 : (0 : Int) < ((a.mantissa * 2 ^ (a.exponent - min a.exponent 0).toNat : Nat) : Int) := by
    exact_mod_cast this
  omega

theorem F64.add_mantissa (a b : F64) (hm : (a + b).mantissa = 0) : a + b = 0.0 := by
  rw [F64.zero_eq]
  exact F64.round_mantissa _ _ _ _ hm

/-- C20 as amended. Sign symmetry in the arithmetic of `double`. For a freshly
constructed neuron and every input `I > 0`, the potential after one noise-free update
with external input `-I` is the exact negation of the potential after one noise-free
update with external input `I`, and it is negative unless both potentials are zero
(the product `const2*I` underflows): when the potential for `I` is not `0.0` it is
positive and the potential for `-I` is negative. -/
theorem C20_sign_symmetry (garbage_e garbage_i : Int) (I g : F64) (hI : (0.0 : F64) < I) :
    ∃ netp netn,
      update32 exp64 (oneNeuronNet garbage_e garbage_i I) 0 1 0.0 g = some netp ∧
      update32 exp64 (oneNeuronNet garbage_e garbage_i (-I)) 0 1 0.0 g = some netn ∧
      (netn 0).V_membrane = -(netp 0).V_membrane ∧
      ((netp 0).V_membrane ≠ 0.0 →
        (netn 0).V_membrane < 0.0 ∧ 0.0 < (netp 0).V_membrane) := by
  have h0 : ¬ (0.0 : F64) > V_thr F64 := by decide!
  obtain ⟨netp, hp, hVp⟩ := first_update32 exp64 garbage_e garbage_i I g h0
  obtain ⟨netn, hn, hVn⟩ := first_update32 exp64 garbage_e garbage_i (-I) g h0
  have hz : -(0.0 : F64) = 0.0 := by decide!
  have hc : -(const1 exp64 * (0.0 : F64)) = const1 exp64 * 0.0 := by decide!
  have hneg : (netn 0).V_membrane = -(netp 0).V_membrane := by
    rw [hVn, hVp, ← F64.add_neg_neg, ← F64.add_neg_neg, ← F64.add_neg_neg, hz, hc,
      F64.mul_neg]
  have hs2 : (const2 exp64).sign = false := by decide!
  have hs1 : (const1 exp64 * (0.0 : F64)).sign = false := by decide!
  have hs0 : (0.0 : F64).sign = false := by decide!
  have hsign : ((netp 0).V_membrane).sign = false := by
    rw [hVp]
    exact F64.add_sign _ _ (F64.add_sign _ _ (F64.add_sign _ _ hs1
      (F64.mul_sign _ _ hs2 (F64.sign_of_pos I hI))) hs0) hs0
  refine ⟨netp, netn, hp, hn, hneg, ?_⟩
  intro hne
  have hm : ((netp 0).V_membrane).mantissa ≠ 0 := by
    intro hm
    apply hne
    rw [hVp] at hm ⊢
    exact F64.add_mantissa _ _ hm
  refine ⟨?_, F64.pos_of_sign _ hsign hm⟩
  rw [hneg]
  apply F64.neg_of_sign
  · show (!((netp 0).V_membrane).sign && decide (((netp 0).V_membrane).mantissa ≠ 0)) = true
    rw [hsign]
    simp [hm]
  · exact hm

/-- A witness of the amended C20: the inputs 1 and -1 of the tests. -/
theorem C20_witness :
    ∃ netp netn,
      update32 exp64 (oneNeuronNet 0 0 (1.0 : F64)) 0 1 0.0 5 = some netp ∧
      update32 exp64 (oneNeuronNet 0 0 (-(1.0 : F64))) 0 1 0.0 5 = some netn ∧
      (netn 0).V_membrane = -(netp 0).V_membrane ∧
      ((netp 0).V_membrane ≠ 0.0 →
        (netn 0).V_membrane < 0.0 ∧ 0.0 < (netp 0).V_membrane) :=
  C20_sign_symmetry 0 0 1.0 5 (by decide!)

/-- The claim C20 as stated fails in the arithmetic of `double`: the smallest positive
double, `5e-324`, is an input above 0 for which `const2*I` underflows to `0.0`; the
potential after the update with input `-I` is `0.0`, which is not negative. -/
theorem C20_counterexample :
    (0.0 : F64) < 5e-324 ∧
    ∃ netp netn,
      update32 exp64 (oneNeuronNet 0 0 (5e-324 : F64)) 0 1 0.0 5 = some netp ∧
      update32 exp64 (oneNeuronNet 0 0 (-(5e-324 : F64))) 0 1 0.0 5 = some netn ∧
      (netp 0).V_membrane = 0.0 ∧ (netn 0).V_membrane = 0.0 ∧
      ¬ (netn 0).V_membrane < 0.0 := by
  have h0 : ¬ (0.0 : F64) > V_thr F64 := by decide!
  obtain ⟨netp, hp, hVp⟩ := first_update32 exp64 0 0 (5e-324 : F64) 5 h0
  obtain ⟨netn, hn, hVn⟩ := first_update32 exp64 0 0 (-(5e-324 : F64)) 5 h0
  refine ⟨by decide!, netp, netn, hp, hn, ?_, ?_, ?_⟩
  · rw [hVp]
    decide!
  · rw [hVn]
    decide!
  · rw [hVn]
    decide!

/-! ## The closed form of the integration in the arithmetic of `double` -/

/-- The claim C25 as stated fails in the arithmetic of `double`: with the input 1.01
the neuron has not spiked after two updates and its potential is the value obtained by
two assignments, `0.20099335826680503`, which is not `R * I * (1 - const1^2)`
(`0.20099335826680423`), however the product is grouped. -/
theorem C25_counterexample :
    ∃ net', runUpdates32 exp64 5 (oneNeuronNet 0 0 (1.01 : F64))
        (List.replicate 2 (0, 0.0)) = some net' ∧
      (net' 0).nb_spikes = 0 ∧ (net' 0).spike = false ∧
      (net' 0).V_membrane ≠ R F64 * 1.01 * (1 - const1 exp64 * const1 exp64) ∧
      (net' 0).V_membrane ≠ R F64 * (1.01 * (1 - const1 exp64 * const1 exp64)) := by
  obtain ⟨net', hr, -, hinv⟩ := oneNeuron_run32 exp64 0 0 (1.01 : F64) 5 2
  have hle : ∀ k < 2, ¬ (fun v : F64 =>
      const1 exp64 * v + const2 exp64 * 1.01 + 0.0 + 0.0)^[k] 0.0 > V_thr F64 := by
    decide!
  obtain ⟨hV, -, -, -, hn, hs⟩ := hinv hle
  refine ⟨net', hr, hn, hs, ?_, ?_⟩
  · rw [hV]
    decide!
  · rw [hV]
    decide!

/-! ## The refractory period in the arithmetic of `double` -/

/-- C3 fails on the code for a spike at clock 24. A fresh neuron without external input
is updated with increment 1: 23 times with noise 0, once with noise 21 (its potential
becomes 21) and once more, at clock 24, where it spikes: the last spike time is
`24*h` and the potential is `V_refractory`. In the arithmetic of `double`
`(24*h)/h` is `24.000000000000004`, so that at the `tau_rp`-th next update, at clock
44, the difference `44 - t_spike/h` is still below `tau_rp = 20`: after the 20 next
updates, made with noise 3, the neuron is still refractory and its potential is still
`V_refractory`, not `const2*externalInput + noise = 3`. It is released by the 21st
update only. -/
theorem C3_refractory_overrun :
    (runUpdates32 exp64 5 (oneNeuronNet 0 0 (0.0 : F64))
      (List.replicate 23 (0, 0.0) ++ [(0, 21.0), (0, 0.0)])).map
      (fun net => ((net 0).spike, (net 0).neuron_clock, (net 0).nb_spikes,
        (net 0).t_spike, (net 0).V_membrane, (net 0).r_period)) =
      some (true, 25, 1, ((24 : Int) : F64) * h F64, V_refractory F64, true) ∧
    ((24 : Int) : F64) * h F64 / h F64 = 24.000000000000004 ∧
    (tau_rp : F64) > ((44 : Nat) : F64) - ((24 : Int) : F64) * h F64 / h F64 ∧
    (runUpdates32 exp64 5 (oneNeuronNet 0 0 (0.0 : F64))
      (List.replicate 23 (0, 0.0) ++ [(0, 21.0), (0, 0.0)] ++
        List.replicate tau_rp (0, 3.0))).map
      (fun net => ((net 0).neuron_clock, (net 0).V_membrane, (net 0).r_period)) =
      some (45, V_refractory F64, true) ∧
    V_refractory F64 ≠ const2 exp64 * (0.0 : F64) + 3.0 ∧
    (runUpdates32 exp64 5 (oneNeuronNet 0 0 (0.0 : F64))
      (List.replicate 23 (0, 0.0) ++ [(0, 21.0), (0, 0.0)] ++
        List.replicate (tau_rp + 1) (0, 3.0))).map
      (fun net => ((net 0).neuron_clock, (net 0).V_membrane, (net 0).r_period)) =
      some (46, 3.0, false) := by
  refine ⟨?_, ?_, ?_, ?_, ?_, ?_⟩
  · decide!
  · decide!
  · decide!
  · decide!
  · decide!
  · decide!

/-! ## The order of the updates in the arithmetic of `double` -/

/-- The claim C7 as stated fails in the arithmetic of `double`: when the excitatory
neuron 0 (two amplitudes `0.1` for the neuron 2) is updated before the inhibitory
neuron 1 (one amplitude `-0.5` for the neuron 2, with `g = 5`), the slot 15 of the
neuron 2 ends at `(0.0 + 0.1 + 0.1) + -0.5 = -0.3`; in the other order it ends at
`(0.0 + -0.5) + 0.1 + 0.1 = -0.30000000000000004`. The two resulting network states
differ. -/
theorem C7_counterexample :
    (runUpdates32 exp64 5 orderNet64 ([0, 1].map fun p => (p, (0.0 : F64)))).map
      (fun net => (net 2).getTimeBuffer 15) = some (-0.3) ∧
    (runUpdates32 exp64 5 orderNet64 ([1, 0].map fun p => (p, (0.0 : F64)))).map
      (fun net => (net 2).getTimeBuffer 15) = some (-0.30000000000000004) ∧
    runUpdates32 exp64 5 orderNet64 ([0, 1].map fun p => (p, (0.0 : F64))) ≠
      runUpdates32 exp64 5 orderNet64 ([1, 0].map fun p => (p, (0.0 : F64))) := by
  have h1 : (runUpdates32 exp64 5 orderNet64 ([0, 1].map fun p => (p, (0.0 : F64)))).map
      (fun net => (net 2).getTimeBuffer 15) = some (-0.3) := by decide!
  have h2 : (runUpdates32 exp64 5 orderNet64 ([1, 0].map fun p => (p, (0.0 : F64)))).map
      (fun net => (net 2).getTimeBuffer 15) = some (-0.30000000000000004) := by decide!
  refine ⟨h1, h2, ?_⟩
  intro heq
  rw [heq, h2] at h1
  exact absurd h1 (by decide!)

/-- A witness of the amended C7: the network of the counterexample, with the orders
`[0, 1]` and `[1, 0]`. -/
theorem C7_witness :
    agreeOffResults ((0 + D) % (D + 1))
      (runUpdates32 exp64 5 orderNet64 ([0, 1].map fun p => (p, (fun _ => (0.0 : F64)) p)))
      (runUpdates32 exp64 5 orderNet64 ([1, 0].map fun p => (p, (fun _ => (0.0 : F64)) p))) ∧
    (∀ q, (arrivals orderNet64 5 q [0, 1]).Perm (arrivals orderNet64 5 q [1, 0])) ∧
    (∀ net1, runUpdates32 exp64 5 orderNet64
        ([0, 1].map fun p => (p, (fun _ => (0.0 : F64)) p)) = some net1 →
      ∀ q, (net1 q).getTimeBuffer ((0 + D) % (D + 1)) =
        (arrivals orderNet64 5 q [0, 1]).foldl (fun x a => x + a)
          ((orderNet64 q).getTimeBuffer ((0 + D) % (D + 1)))) ∧
    (∀ net2, runUpdates32 exp64 5 orderNet64
        ([1, 0].map fun p => (p, (fun _ => (0.0 : F64)) p)) = some net2 →
      ∀ q, (net2 q).getTimeBuffer ((0 + D) % (D + 1)) =
        (arrivals orderNet64 5 q [1, 0]).foldl (fun x a => x + a)
          ((orderNet64 q).getTimeBuffer ((0 + D) % (D + 1)))) ∧
    ∀ i j : Nat, i ∈ [0, 1] → j ∈ [0, 1] → i ≠ j →
      agreeOffResults ((0 + D) % (D + 1))
        (runUpdates32 exp64 5 orderNet64
          [(i, (fun _ => (0.0 : F64)) i), (j, (fun _ => (0.0 : F64)) j)])
        (runUpdates32 exp64 5 orderNet64
          [(j, (fun _ => (0.0 : F64)) j), (i, (fun _ => (0.0 : F64)) i)]) :=
  C7_order_independence exp64 5 orderNet64 (fun _ => 0.0) 0 [0, 1] [1, 0] (by decide)
    (List.Perm.swap 1 0 [])
    (by
      intro p hp
      rcases List.mem_cons.mp hp with h1 | h2
      · rw [h1]
        rfl
      · rw [List.mem_singleton.mp h2]
        rfl)

/-! ## Rounding to the nearest double is monotone -/

theorem bitLength_zero (fuel : Nat) : bitLength fuel 0 = 0 := by
  cases fuel <;> simp [bitLength]

theorem bitLength_spec : ∀ (fuel n : Nat), n ≤ fuel → n ≠ 0 →
    ∃ b, bitLength fuel n = b + 1 ∧ 2 ^ b ≤ n ∧ n < 2 ^ (b + 1) := by
  intro fuel
  induction fuel with
  | zero =>
    intro n h hn
    exact absurd (Nat.le_zero.mp h) hn
  | succ fuel ih =>
    intro n h hn
    unfold bitLength
    rw [if_neg hn]
    by_cases h2 : n / 2 = 0
    · have h1 : n = 1 := by omega
      subst h1
      refine ⟨0, ?_, by norm_num, by norm_num⟩
      rw [h2, bitLength_zero]
    · obtain ⟨b, hb, hlo, hhi⟩ := ih (n / 2) (by omega) h2
      refine ⟨b + 1, by rw [hb], ?_, ?_⟩
      · rw [pow_succ]
        omega
      · rw [pow_succ]
        omega

/-- The number denoted by the normal form of `m * 2^e` is `m * 2^e`. -/
theorem F64.normalize_value (m : Nat) (e : Int) :
    ((F64.normalize m e).1 : ℚ) * (2 : ℚ) ^ (F64.normalize m e).2 = (m : ℚ) * (2 : ℚ) ^ e := by
  unfold F64.normalize
  by_cases hm : m = 0
  · rw [if_pos hm, hm]
    simp
  · rw [if_neg hm]
    obtain ⟨t, -, ht⟩ := (Nat.dvd_prime_pow Nat.prime_two).mp (Nat.gcd_dvd_right m (2 ^ 64))
    have hdvd : 2 ^ t ∣ m := ht ▸ Nat.gcd_dvd_left m (2 ^ 64)
    rw [ht]
    obtain ⟨b, hb, hlo, hhi⟩ := bitLength_spec (2 ^ t) (2 ^ t) le_rfl (by positivity)
    have hbt : b = t := by
      have h1 : t < b + 1 := (Nat.pow_lt_pow_iff_right (by norm_num)).mp hhi
      have h2 : b ≤ t := (Nat.pow_le_pow_iff_right (by norm_num)).mp hlo
      omega
    rw [hb, hbt]
    obtain ⟨c, hc⟩ := hdvd
    rw [hc, Nat.mul_div_cancel_left c (by positivity)]
    have he : e + ((t + 1 : Nat) : Int) - 1 = e + (t : Int) := by push_cast; ring
    simp only [he]
    rw [zpow_add₀ (by norm_num : (2 : ℚ) ≠ 0), zpow_natCast]
    push_cast
    ring

/-- The integer given by `F64.nearest` is within one half of `num / den`, and it is
even when it is at one half exactly. -/
theorem F64.nearest_spec (num den : Nat) (hden : 0 < den) :
    |(num : ℚ) / den - (F64.nearest num den : ℚ)| ≤ 1 / 2 ∧
    (|(num : ℚ) / den - (F64.nearest num den : ℚ)| = 1 / 2 → Even (F64.nearest num den)) := by
  have hd : (0 : ℚ) < den := by exact_mod_cast hden
  have hr : num % den < den := Nat.mod_lt _ hden
  have hnum : (num : ℚ) = (den : ℚ) * ((num / den : Nat) : ℚ) + ((num % den : Nat) : ℚ) := by
    exact_mod_cast (Nat.div_add_mod num den).symm
  have key : (num : ℚ) / den = ((num / den : Nat) : ℚ) + ((num % den : Nat) : ℚ) / den := by
    rw [eq_comm, ← sub_eq_zero]
    field_simp
    linarith
  have h0 : (0 : ℚ) ≤ ((num % den : Nat) : ℚ) / den := by positivity
  have h1 : ((num % den : Nat) : ℚ) / den < 1 := by
    rw [div_lt_one hd]
    exact_mod_cast hr
  unfold F64.nearest
  rw [key]
  by_cases hlt : 2 * (num % den) < den
  · rw [if_pos hlt]
    have h2 : ((num % den : Nat) : ℚ) / den < 1 / 2 := by
      rw [div_lt_iff₀ hd]
      have : (2 : ℚ) * ((num % den : Nat) : ℚ) < den := by exact_mod_cast hlt
      linarith
    have h3 : ((num / den : Nat) : ℚ) + ((num % den : Nat) : ℚ) / den - ((num / den : Nat) : ℚ) =
        ((num % den : Nat) : ℚ) / den := by ring
    rw [h3, abs_of_nonneg h0]
    exact ⟨le_of_lt h2, fun he => absurd he (ne_of_lt h2)⟩
  · rw [if_neg hlt]
    by_cases hgt : den < 2 * (num % den)
    · rw [if_pos hgt]
      have h2 : 1 / 2 < ((num % den : Nat) : ℚ) / den := by
        rw [lt_div_iff₀ hd]
        have : (den : ℚ) < 2 * ((num % den : Nat) : ℚ) := by exact_mod_cast hgt
        linarith
      have h3 : ((num / den : Nat) : ℚ) + ((num % den : Nat) : ℚ) / den -
          ((num / den + 1 : Nat) : ℚ) = -(1 - ((num % den : Nat) : ℚ) / den) := by
        push_cast
        ring
      rw [h3, abs_neg, abs_of_nonneg (by linarith)]
      exact ⟨by linarith, fun he => absurd he (by linarith)⟩
    · rw [if_neg hgt]
      have heq : 2 * (num % den) = den := by omega
      have h2 : ((num % den : Nat) : ℚ) / den = 1 / 2 := by
        rw [div_eq_iff (ne_of_gt hd)]
        have : (2 : ℚ) * ((num % den : Nat) : ℚ) = den := by exact_mod_cast heq
        linarith
      by_cases hev : (num / den) % 2 = 0
      · rw [if_pos hev]
        have h3 : ((num / den : Nat) : ℚ) + ((num % den : Nat) : ℚ) / den -
            ((num / den : Nat) : ℚ) = 1 / 2 := by rw [h2]; ring
        rw [h3, abs_of_nonneg (by norm_num)]
        exact ⟨le_rfl, fun _ => Nat.even_iff.mpr hev⟩
      · rw [if_neg hev]
        have h3 : ((num / den : Nat) : ℚ) + ((num % den : Nat) : ℚ) / den -
            ((num / den + 1 : Nat) : ℚ) = -(1 / 2) := by
          rw [h2]
          push_cast
          ring
        rw [h3, abs_neg, abs_of_nonneg (by norm_num)]
        refine ⟨le_rfl, fun _ => ?_⟩
        rw [Nat.even_iff]
        omega

theorem F64.binaryExponent_one (n : Nat) (hn : n ≠ 0) :
    ∃ b : Nat, F64.binaryExponent n 1 = (b : Int) ∧ 2 ^ b ≤ n ∧ n < 2 ^ (b + 1) := by
  obtain ⟨b, hb, hlo, hhi⟩ := bitLength_spec n n le_rfl hn
  refine ⟨b, ?_, hlo, hhi⟩
  have h1 : bitLength 1 1 = 1 := by decide
  unfold F64.binaryExponent
  rw [hb, h1]
  have h2 : (((b + 1 : Nat) : Int) - ((1 : Nat) : Int)) = (b : Int) := by push_cast; ring
  rw [h2]
  have h3 : (-(b : Int)).toNat = 0 := by omega
  rw [Int.toNat_natCast, h3, if_pos (by simpa using hlo)]

/-- What `F64.roundPos` gives for the integer `n` scaled by `2^k`. With `b` the number
of binary digits of `n` less one and `e1` the larger of `b + k` and `-1022`, the
result denotes `m * 2^(e1 - 52)` for a natural number `m` within one half of
`n * 2^(k - (e1 - 52))`, even when it is at one half exactly. -/
theorem F64.roundPos_spec (n : Nat) (k : Int) (hn : n ≠ 0) :
    ∃ b m : Nat, 2 ^ b ≤ n ∧ n < 2 ^ (b + 1) ∧
      ((F64.roundPos n 1 k).1 : ℚ) * (2 : ℚ) ^ (F64.roundPos n 1 k).2 =
        (m : ℚ) * (2 : ℚ) ^ (max ((b : Int) + k) (-1022) - 52) ∧
      |(n : ℚ) * (2 : ℚ) ^ (k - (max ((b : Int) + k) (-1022) - 52)) - (m : ℚ)| ≤ 1 / 2 ∧
      (|(n : ℚ) * (2 : ℚ) ^ (k - (max ((b : Int) + k) (-1022) - 52)) - (m : ℚ)| = 1 / 2 →
        Even m) := by
  obtain ⟨b, hb, hlo, hhi⟩ := F64.binaryExponent_one n hn
  have he1 : (if (b : Int) + k < -1022 then (-1022 : Int) else (b : Int) + k) =
      max ((b : Int) + k) (-1022) := by
    split
    · rw [max_eq_right (by omega)]
    · rw [max_eq_left (by omega)]
  have h2 : (2 : ℚ) ≠ 0 := by norm_num
  have hq : ∀ s : Int, ((n * 2 ^ s.toNat : Nat) : ℚ) / ((1 * 2 ^ (-s).toNat : Nat) : ℚ) =
      (n : ℚ) * (2 : ℚ) ^ s := by
    intro s
    rcases le_or_lt 0 s with hs | hs
    · have h3 : (-s).toNat = 0 := by omega
      rw [h3]
      obtain ⟨j, rfl⟩ := Int.eq_ofNat_of_zero_le hs
      simp only [Int.toNat_natCast, zpow_natCast]
      push_cast
      simp
    · have h3 : s.toNat = 0 := by omega
      rw [h3]
      have h4 : ((-s).toNat : Int) = -s := Int.toNat_of_nonneg (by omega)
      have h5 : s = -((-s).toNat : Int) := by omega
      rw [h5]
      simp only [neg_neg, Int.toNat_natCast, zpow_neg, zpow_natCast]
      push_cast
      field_simp
  refine ⟨b, F64.nearest (n * 2 ^ (52 - max ((b : Int) + k) (-1022) + k).toNat)
    (1 * 2 ^ (-(52 - max ((b : Int) + k) (-1022) + k)).toNat), hlo, hhi, ?_, ?_⟩
  · unfold F64.roundPos
    rw [if_neg hn, hb]
    simp only [he1]
    exact F64.normalize_value _ _
  · have hs := F64.nearest_spec (n * 2 ^ (52 - max ((b : Int) + k) (-1022) + k).toNat)
      (1 * 2 ^ (-(52 - max ((b : Int) + k) (-1022) + k)).toNat) (by positivity)
    rw [hq] at hs
    have h5 : k - (max ((b : Int) + k) (-1022) - 52) = 52 - max ((b : Int) + k) (-1022) + k := by
      ring
    rw [h5]
    exact hs

/-- Rounding to the nearest multiple of the unit of the binade is monotone. The numbers
`x ≤ x'` are rounded to `m` and `m'` units `2^(E - 52)` and `2^(E' - 52)`, with
`E ≤ E'`; `x` is below `2^(E + 1)`, and `x'` is at least `2^E'` when `E < E'`. Then
`m * 2^(E - 52) ≤ m' * 2^(E' - 52)`. -/
theorem F64.nearest_mono (x x' : ℚ) (E E' : Int) (m m' : Nat) (hxx : x ≤ x')
    (hm : |x * (2 : ℚ) ^ (52 - E) - (m : ℚ)| ≤ 1 / 2)
    (htie : |x * (2 : ℚ) ^ (52 - E) - (m : ℚ)| = 1 / 2 → Even m)
    (hm' : |x' * (2 : ℚ) ^ (52 - E') - (m' : ℚ)| ≤ 1 / 2)
    (htie' : |x' * (2 : ℚ) ^ (52 - E') - (m' : ℚ)| = 1 / 2 → Even m')
    (hE : E ≤ E') (hhi : x < (2 : ℚ) ^ (E + 1)) (hlo : E < E' → (2 : ℚ) ^ E' ≤ x') :
    (m : ℚ) * (2 : ℚ) ^ (E - 52) ≤ (m' : ℚ) * (2 : ℚ) ^ (E' - 52) := by
  have h2 : (2 : ℚ) ≠ 0 := by norm_num
  have hpos : ∀ e : Int, (0 : ℚ) < (2 : ℚ) ^ e := fun e => zpow_pos (by norm_num) e
  obtain ⟨ha, hb⟩ := abs_le.mp hm
  obtain ⟨ha', hb'⟩ := abs_le.mp hm'
  rcases hE.eq_or_lt with heq | hlt
  · subst heq
    have ht : x * (2 : ℚ) ^ (52 - E) ≤ x' * (2 : ℚ) ^ (52 - E) :=
      mul_le_mul_of_nonneg_right hxx (le_of_lt (hpos _))
    have hmm : m ≤ m' := by
      by_contra hc
      have h1 : m' + 1 ≤ m := by omega
      have h1q : (m' : ℚ) + 1 ≤ (m : ℚ) := by exact_mod_cast h1
      have e1 : x * (2 : ℚ) ^ (52 - E) - (m : ℚ) = -(1 / 2) := by linarith
      have e2 : x' * (2 : ℚ) ^ (52 - E) - (m' : ℚ) = 1 / 2 := by linarith
      have hev : Even m := htie (by rw [e1, abs_neg, abs_of_nonneg (by norm_num)])
      have hev' : Even m' := htie' (by rw [e2, abs_of_nonneg (by norm_num)])
      have hmeq : m = m' + 1 := by
        have : (m : ℚ) ≤ (m' : ℚ) + 1 := by linarith
        have : m ≤ m' + 1 := by exact_mod_cast this
        omega
      rw [hmeq] at hev
      exact (Nat.even_add_one.mp hev) hev'
    exact mul_le_mul_of_nonneg_right (by exact_mod_cast hmm) (le_of_lt (hpos _))
  · have hx' := hlo hlt
    have ht : x * (2 : ℚ) ^ (52 - E) < (2 : ℚ) ^ (53 : Int) := by
      have h3 : (2 : ℚ) ^ (53 : Int) = (2 : ℚ) ^ (E + 1) * (2 : ℚ) ^ (52 - E) := by
        rw [← zpow_add₀ h2]
        congr 1
        ring
      rw [h3]
      exact mul_lt_mul_of_pos_right hhi (hpos _)
    have ht' : (2 : ℚ) ^ (52 : Int) ≤ x' * (2 : ℚ) ^ (52 - E') := by
      have h3 : (2 : ℚ) ^ (52 : Int) = (2 : ℚ) ^ E' * (2 : ℚ) ^ (52 - E') := by
        rw [← zpow_add₀ h2]
        congr 1
        ring
      rw [h3]
      exact mul_le_mul_of_nonneg_right hx' (le_of_lt (hpos _))
    have h53 : (2 : ℚ) ^ (53 : Int) = ((2 ^ 53 : Nat) : ℚ) := by norm_num
    have h52 : (2 : ℚ) ^ (52 : Int) = ((2 ^ 52 : Nat) : ℚ) := by norm_num
    have hm53 : (m : ℚ) ≤ (2 : ℚ) ^ (53 : Int) := by
      rw [h53]
      have h4 : (m : ℚ) < ((2 ^ 53 + 1 : Nat) : ℚ) := by
        rw [h53] at ht
        push_cast at ht ⊢
        linarith
      have h5 : m < 2 ^ 53 + 1 := by exact_mod_cast h4
      exact_mod_cast Nat.lt_succ_iff.mp h5
    have hm52 : (2 : ℚ) ^ (52 : Int) ≤ (m' : ℚ) := by
      rw [h52]
      have h4 : ((2 ^ 52 : Nat) : ℚ) < (m' : ℚ) + 1 := by
        rw [h52] at ht'
        push_cast at ht' ⊢
        linarith
      have h5 : 2 ^ 52 < m' + 1 := by exact_mod_cast h4
      exact_mod_cast Nat.lt_succ_iff.mp h5
    calc (m : ℚ) * (2 : ℚ) ^ (E - 52)
        ≤ (2 : ℚ) ^ (53 : Int) * (2 : ℚ) ^ (E - 52) :=
          mul_le_mul_of_nonneg_right hm53 (le_of_lt (hpos _))
      _ = (2 : ℚ) ^ (E + 1) := by
          rw [← zpow_add₀ h2]
          congr 1
          ring
      _ ≤ (2 : ℚ) ^ E' := zpow_le_zpow_right₀ (by norm_num) (by omega)
      _ = (2 : ℚ) ^ (52 : Int) * (2 : ℚ) ^ (E' - 52) := by
          rw [← zpow_add₀ h2]
          congr 1
          ring
      _ ≤ (m' : ℚ) * (2 : ℚ) ^ (E' - 52) :=
          mul_le_mul_of_nonneg_right hm52 (le_of_lt (hpos _))

/-- The number given by `F64.roundPos` is monotone in the number that is rounded. -/
theorem F64.roundPos_mono (n n' : Nat) (k k' : Int)
    (h : (n : ℚ) * (2 : ℚ) ^ k ≤ (n' : ℚ) * (2 : ℚ) ^ k') :
    ((F64.roundPos n 1 k).1 : ℚ) * (2 : ℚ) ^ (F64.roundPos n 1 k).2 ≤
      ((F64.roundPos n' 1 k').1 : ℚ) * (2 : ℚ) ^ (F64.roundPos n' 1 k').2 := by
  have h2 : (2 : ℚ) ≠ 0 := by norm_num
  have hpos : ∀ e : Int, (0 : ℚ) < (2 : ℚ) ^ e := fun e => zpow_pos (by norm_num) e
  by_cases hn : n = 0
  · have h0 : F64.roundPos n 1 k = (0, 0) := by
      unfold F64.roundPos
      rw [if_pos hn]
    rw [h0]
    have : (0 : ℚ) ≤ ((F64.roundPos n' 1 k').1 : ℚ) * (2 : ℚ) ^ (F64.roundPos n' 1 k').2 :=
      mul_nonneg (Nat.cast_nonneg _) (le_of_lt (hpos _))
    simpa using this
  · have hnpos : (0 : ℚ) < (n : ℚ) := by exact_mod_cast Nat.pos_of_ne_zero hn
    have hn' : n' ≠ 0 := by
      intro hc
      rw [hc] at h
      have : (0 : ℚ) < (n : ℚ) * (2 : ℚ) ^ k := mul_pos hnpos (hpos _)
      simp at h
      linarith
    obtain ⟨b, m, hlo, hhi, hval, habs, htie⟩ := F64.roundPos_spec n k hn
    obtain ⟨b', m', hlo', hhi', hval', habs', htie'⟩ := F64.roundPos_spec n' k' hn'
    rw [hval, hval']
    have hxlo : ∀ (c : Nat) (j : Int) (a : Nat), 2 ^ c ≤ a →
        (2 : ℚ) ^ ((c : Int) + j) ≤ (a : ℚ) * (2 : ℚ) ^ j := by
      intro c j a hca
      rw [zpow_add₀ h2, zpow_natCast]
      exact mul_le_mul_of_nonneg_right (by exact_mod_cast hca) (le_of_lt (hpos _))
    have hxhi : ∀ (c : Nat) (j : Int) (a : Nat), a < 2 ^ (c + 1) →
        (a : ℚ) * (2 : ℚ) ^ j < (2 : ℚ) ^ ((c : Int) + j + 1) := by
      intro c j a hca
      have h3 : (2 : ℚ) ^ ((c : Int) + j + 1) = (2 : ℚ) ^ (c + 1) * (2 : ℚ) ^ j := by
        rw [← zpow_natCast, ← zpow_add₀ h2]
        congr 1
        push_cast
        ring
      rw [h3]
      exact mul_lt_mul_of_pos_right (by exact_mod_cast hca) (hpos _)
    have hbk : (b : Int) + k ≤ (b' : Int) + k' := by
      have h3 : (2 : ℚ) ^ ((b : Int) + k) < (2 : ℚ) ^ ((b' : Int) + k' + 1) :=
        lt_of_le_of_lt (le_trans (hxlo b k n hlo) h) (hxhi b' k' n' hhi')
      have := (zpow_lt_zpow_iff_right₀ (by norm_num : (1 : ℚ) < 2)).mp h3
      omega
    have hexp : ∀ (j E : Int), j - (E - 52) = j + (52 - E) := fun j E => by ring
    rw [hexp, zpow_add₀ h2, ← mul_assoc] at habs htie habs' htie'
    refine F64.nearest_mono _ _ _ _ m m' h habs htie habs' htie'
      (max_le_max hbk le_rfl) ?_ ?_
    · refine lt_of_lt_of_le (hxhi b k n hhi) (zpow_le_zpow_right₀ (by norm_num) ?_)
      have := le_max_left ((b : Int) + k) (-1022)
      omega
    · intro hlt
      have hE' : max ((b' : Int) + k') (-1022) = (b' : Int) + k' := by
        apply max_eq_left
        by_contra hc
        rw [max_eq_right (by omega)] at hlt
        have := le_max_right ((b : Int) + k) (-1022)
        omega
      rw [hE']
      exact hxlo b' k' n' hlo'

/-! ## The order and the operations of `double` on the numbers they denote -/

theorem F64.scaled_cast (a : F64) (e : Int) (he : e ≤ a.exponent) :
    ((a.scaled e : Int) : ℚ) = a.toRat * (2 : ℚ) ^ (-e) := by
  have h2 : (2 : ℚ) ≠ 0 := by norm_num
  obtain ⟨j, hj⟩ := Int.eq_ofNat_of_zero_le (by omega : 0 ≤ a.exponent - e)
  have hexp : (2 : ℚ) ^ a.exponent * (2 : ℚ) ^ (-e) = (2 : ℚ) ^ j := by
    rw [← zpow_add₀ h2, ← zpow_natCast, ← hj, sub_eq_add_neg]
  unfold F64.scaled F64.toRat
  rw [hj, Int.toNat_natCast, mul_assoc, mul_assoc, hexp]
  push_cast
  split <;> simp

theorem F64.lt_iff_toRat (a b : F64) : a < b ↔ a.toRat < b.toRat := by
  have hpos : (0 : ℚ) < (2 : ℚ) ^ (-(min a.exponent b.exponent)) := zpow_pos (by norm_num) _
  have h1 : a < b ↔ a.scaled (min a.exponent b.exponent) < b.scaled (min a.exponent b.exponent) := by
    show F64.lt a b = true ↔ _
    unfold F64.lt
    exact decide_eq_true_iff
  rw [h1, ← Int.cast_lt (R := ℚ), F64.scaled_cast a _ (min_le_left _ _),
    F64.scaled_cast b _ (min_le_right _ _)]
  exact mul_lt_mul_right hpos

theorem F64.toRat_nonneg (a : F64) (ha : a.sign = false) : 0 ≤ a.toRat := by
  unfold F64.toRat
  rw [ha]
  have : (0 : ℚ) < (2 : ℚ) ^ a.exponent := zpow_pos (by norm_num) _
  simp only [Bool.false_eq_true, if_false, one_mul]
  positivity

theorem F64.toRat_round (n : Nat) (k : Int) :
    (F64.round false n 1 k).toRat =
      ((F64.roundPos n 1 k).1 : ℚ) * (2 : ℚ) ^ (F64.roundPos n 1 k).2 := by
  unfold F64.round F64.toRat
  simp

theorem F64.mul_toRat (a b : F64) (ha : a.sign = false) (hb : b.sign = false) :
    a * b = F64.round false (a.mantissa * b.mantissa) 1 (a.exponent + b.exponent) ∧
    ((a.mantissa * b.mantissa : Nat) : ℚ) * (2 : ℚ) ^ (a.exponent + b.exponent) =
      a.toRat * b.toRat := by
  refine ⟨?_, ?_⟩
  · show F64.mul a b = _
    unfold F64.mul
    rw [ha, hb]
    rfl
  · unfold F64.toRat
    rw [ha, hb, zpow_add₀ (by norm_num : (2 : ℚ) ≠ 0)]
    push_cast
    ring

theorem F64.add_toRat (a b : F64) (ha : a.sign = false) (hb : b.sign = false) :
    ∃ n : Nat, a + b = F64.round false n 1 (min a.exponent b.exponent) ∧
      (n : ℚ) * (2 : ℚ) ^ (min a.exponent b.exponent) = a.toRat + b.toRat := by
  have h2 : (2 : ℚ) ≠ 0 := by norm_num
  have hza : 0 ≤ a.scaled (min a.exponent b.exponent) := by
    unfold F64.scaled
    rw [ha]
    simp only [Bool.false_eq_true, if_false, one_mul]
    exact Int.natCast_nonneg _
  have hzb : 0 ≤ b.scaled (min a.exponent b.exponent) := by
    unfold F64.scaled
    rw [hb]
    simp only [Bool.false_eq_true, if_false, one_mul]
    exact Int.natCast_nonneg _
  refine ⟨(a.scaled (min a.exponent b.exponent) +
    b.scaled (min a.exponent b.exponent)).natAbs, ?_, ?_⟩
  · show F64.add a b = _
    unfold F64.add F64.ofInt
    have hd : decide (a.scaled (min a.exponent b.exponent) +
        b.scaled (min a.exponent b.exponent) < 0) = false := by
      rw [decide_eq_false_iff_not]
      omega
    rw [hd]
  · have hc : (((a.scaled (min a.exponent b.exponent) +
        b.scaled (min a.exponent b.exponent)).natAbs : Nat) : ℚ) =
        ((a.scaled (min a.exponent b.exponent) +
          b.scaled (min a.exponent b.exponent) : Int) : ℚ) := by
      rw [Nat.cast_natAbs, abs_of_nonneg (by omega)]
    rw [hc, Int.cast_add, F64.scaled_cast a _ (min_le_left _ _),
      F64.scaled_cast b _ (min_le_right _ _), add_mul, mul_assoc, mul_assoc,
      ← zpow_add₀ h2, neg_add_cancel, zpow_zero, mul_one, mul_one]

theorem F64.mul_mono (c v w : F64) (hc : c.sign = false) (hv : v.sign = false)
    (hw : w.sign = false) (h : v.toRat ≤ w.toRat) : (c * v).toRat ≤ (c * w).toRat := by
  obtain ⟨e1, x1⟩ := F64.mul_toRat c v hc hv
  obtain ⟨e2, x2⟩ := F64.mul_toRat c w hc hw
  rw [e1, e2, F64.toRat_round, F64.toRat_round]
  apply F64.roundPos_mono
  rw [x1, x2]
  exact mul_le_mul_of_nonneg_left h (F64.toRat_nonneg c hc)

theorem F64.add_mono (v w b : F64) (hv : v.sign = false) (hw : w.sign = false)
    (hb : b.sign = false) (h : v.toRat ≤ w.toRat) : (v + b).toRat ≤ (w + b).toRat := by
  obtain ⟨n1, e1, x1⟩ := F64.add_toRat v b hv hb
  obtain ⟨n2, e2, x2⟩ := F64.add_toRat w b hw hb
  rw [e1, e2, F64.toRat_round, F64.toRat_round]
  apply F64.roundPos_mono
  rw [x1, x2]
  linarith

/-- One assignment of the membrane equation is monotone below a fixed point, in the
arithmetic of `double`: when `c1`, `c`, `v` and `w` are not negative, `w` is left
unchanged by `V = c1*V + c + 0.0 + 0.0` and `v` is at most `w`, the value computed
from `v` is not negative and at most `w`. -/
theorem F64.step_below_fixed_point (c1 c v w : F64) (hc1 : c1.sign = false)
    (hc : c.sign = false) (hv : v.sign = false) (hw : w.sign = false)
    (hfix : c1 * w + c + 0.0 + 0.0 = w) (h : v.toRat ≤ w.toRat) :
    (c1 * v + c + 0.0 + 0.0).sign = false ∧ (c1 * v + c + 0.0 + 0.0).toRat ≤ w.toRat := by
  have hz : (0.0 : F64).sign = false := by decide!
  have s1 := F64.mul_sign c1 v hc1 hv
  have s1w := F64.mul_sign c1 w hc1 hw
  have s2 := F64.add_sign _ _ s1 hc
  have s2w := F64.add_sign _ _ s1w hc
  have s3 := F64.add_sign _ _ s2 hz
  have s3w := F64.add_sign _ _ s2w hz
  refine ⟨F64.add_sign _ _ s3 hz, ?_⟩
  have m1 := F64.mul_mono c1 v w hc1 hv hw h
  have m2 := F64.add_mono _ _ c s1 s1w hc m1
  have m3 := F64.add_mono _ _ 0.0 s2 s2w hz m2
  have m4 := F64.add_mono _ _ 0.0 s3 s3w hz m3
  rw [hfix] at m4
  exact m4

/-- The values obtained from `0.0` by repeated assignments of the membrane equation
stay below a fixed point `w` that is below the threshold: none of them is above `w`,
and none is above the threshold. -/
theorem F64.iterates_below_threshold (c1 c w : F64) (hc1 : c1.sign = false)
    (hc : c.sign = false) (hw : w.sign = false)
    (hfix : c1 * w + c + 0.0 + 0.0 = w) (hlow : w < V_thr F64) (k : Nat) :
    ¬ w < (fun v : F64 => c1 * v + c + 0.0 + 0.0)^[k] 0.0 ∧
    ¬ (fun v : F64 => c1 * v + c + 0.0 + 0.0)^[k] 0.0 > V_thr F64 := by
  have hz : (0.0 : F64).sign = false := by decide!
  have hz0 : (0.0 : F64).toRat = 0 := by
    rw [F64.zero_eq]
    unfold F64.toRat
    simp
  have hinv : ∀ k : Nat, ((fun v : F64 => c1 * v + c + 0.0 + 0.0)^[k] 0.0).sign = false ∧
      ((fun v : F64 => c1 * v + c + 0.0 + 0.0)^[k] 0.0).toRat ≤ w.toRat := by
    intro k
    induction k with
    | zero =>
      refine ⟨hz, ?_⟩
      show (0.0 : F64).toRat ≤ w.toRat
      rw [hz0]
      exact F64.toRat_nonneg w hw
    | succ k ih =>
      rw [Function.iterate_succ_apply']
      exact F64.step_below_fixed_point c1 c _ w hc1 hc ih.1 hw hfix ih.2
  have h2 : w.toRat < (V_thr F64).toRat := (F64.lt_iff_toRat _ _).mp hlow
  have h3 := (hinv k).2
  refine ⟨fun hgt => ?_, fun hgt => ?_⟩
  · have h1 := (F64.lt_iff_toRat _ _).mp hgt
    linarith
  · have h1 : (V_thr F64).toRat <
        ((fun v : F64 => c1 * v + c + 0.0 + 0.0)^[k] 0.0).toRat :=
      (F64.lt_iff_toRat _ _).mp hgt
    linarith

/-! ## The one-neuron scenario in the arithmetic of `double` -/

/-- C23 fails on the code for the input `1.00000000000001`, which is above 1. In the
arithmetic of `double` the potential `19.999999999999556`, which is below the
threshold, is left unchanged by the assignment `V = const1*V + const2*I + 0.0 + 0.0`
with this input, and the assignment is monotone: the potential of the fresh neuron
never exceeds it. For every number `n` of updates the run returns, the potential is
at most `19.999999999999556` and not above `V_thr`, and the neuron has not spiked: its
count is 0 and its flag is false. -/
theorem C23_never_spikes (garbage_e garbage_i : Int) (g : F64) (n : Nat) :
    (1.0 : F64) < 1.00000000000001 ∧
    const1 exp64 * 19.999999999999556 + const2 exp64 * 1.00000000000001 + 0.0 + 0.0 =
      (19.999999999999556 : F64) ∧
    ∃ net', runUpdates32 exp64 g
        (oneNeuronNet garbage_e garbage_i (1.00000000000001 : F64))
        (List.replicate n (0, 0.0)) = some net' ∧
      ¬ (19.999999999999556 : F64) < (net' 0).V_membrane ∧
      ¬ (net' 0).V_membrane > V_thr F64 ∧
      (net' 0).nb_spikes = 0 ∧ (net' 0).spike = false := by
  have hfix : const1 exp64 * 19.999999999999556 + const2 exp64 * 1.00000000000001 + 0.0 +
      0.0 = (19.999999999999556 : F64) := by decide!
  have hbelow := F64.iterates_below_threshold (const1 exp64)
    (const2 exp64 * 1.00000000000001) 19.999999999999556 (by decide!) (by decide!)
    (by decide!) hfix (by decide!)
  obtain ⟨net', hr, -, hinv⟩ :=
    oneNeuron_run32 exp64 garbage_e garbage_i (1.00000000000001 : F64) g n
  obtain ⟨hV, -, -, -, hn, hs⟩ := hinv (fun k _ => (hbelow k).2)
  refine ⟨by decide!, hfix, net', hr, ?_, ?_, hn, hs⟩
  · rw [hV]
    exact (hbelow n).1
  · rw [hV]
    exact (hbelow n).2

end Brunel
